import Mathlib

set_option maxRecDepth 16000

/-!
Verification development for the `evalfilter` scripting engine.

The repository compiles a small scripting language to a linear, stack-based
bytecode (opcodes are one byte; arguments, when present, are big-endian 16-bit
unsigned integers), runs a peephole optimizer over the byte array, and executes
the result on a stack-based virtual machine.

The repository contains *two* versions of the optimizer:
  * one in package `evalfilter` (the one invoked by `Prepare` via
    `e.optimize()`), embedded below in namespace `Eval`;
  * one in package `vm` (`optimizeBytecode` and friends), embedded below in
    namespace `VM`.
They differ in the handling of division by zero during constant folding, the
rewrite applied to `OpFalse; OpJumpIfFalse`, and the behaviour of the
NOP-elision pass when a jump target has no entry in the offset-rewrite map.
Both are embedded faithfully; bytecode is modelled as `List Nat`, each entry a
byte (< 256).

The `code` package (opcode constants and the opcode-length table) and the VM
execution loop are not part of the sources; they are modelled from the spec
where needed, and each such definition is marked `Modelled from the spec:`.
-/

namespace Evalfilter

/-! ### Opcodes and the length table

Modelled from the spec: the `code` package (opcode constants and the central
metadata table mapping opcode → length) is not among the sources.  The spec
fixes the opcode alphabet and each opcode's declared length (1 or 3 bytes);
the concrete numeric values of the opcode bytes are not observable in any of
the claims, so they are chosen here as distinct small numbers. -/

def opConstant : Nat := 1
def opPush : Nat := 2
def opTrue : Nat := 3
def opFalse : Nat := 4
def opNull : Nat := 5
def opVoid : Nat := 6
def opAdd : Nat := 7
def opSub : Nat := 8
def opMul : Nat := 9
def opDiv : Nat := 10
def opMod : Nat := 11
def opPower : Nat := 12
def opEqual : Nat := 13
def opNotEqual : Nat := 14
def opLess : Nat := 15
def opLessEq : Nat := 16
def opGreater : Nat := 17
def opGreaterEq : Nat := 18
def opAnd : Nat := 19
def opOr : Nat := 20
def opBang : Nat := 21
def opMinus : Nat := 22
def opMatches : Nat := 23
def opNotMatches : Nat := 24
def opLookup : Nat := 25
def opSet : Nat := 26
def opCall : Nat := 27
def opArray : Nat := 28
def opHash : Nat := 29
def opIndex : Nat := 30
def opIter : Nat := 31
def opNext : Nat := 32
def opJump : Nat := 33
def opJumpIfFalse : Nat := 34
def opReturn : Nat := 35
def opNop : Nat := 36

/-- Modelled from the spec: `code.Length` — every opcode declares a fixed
length; the 3-byte opcodes are exactly those carrying a 16-bit argument
(`OpConstant`, `OpPush`, `OpLookup`, `OpSet`, `OpCall`, `OpArray`, `OpHash`,
`OpIter`, `OpJump`, `OpJumpIfFalse`); everything else is 1 byte. -/
def Length (op : Nat) : Nat :=
  if op = opConstant ∨ op = opPush ∨ op = opLookup ∨ op = opSet ∨
     op = opCall ∨ op = opArray ∨ op = opHash ∨ op = opIter ∨
     op = opJump ∨ op = opJumpIfFalse then 3 else 1

theorem Length_pos (op : Nat) : 0 < Length op := by
  unfold Length; split <;> omega

theorem Length_eq_one_or_three (op : Nat) : Length op = 1 ∨ Length op = 3 := by
  unfold Length; split <;> simp

/-! ### Byte-level helpers

`readU16 bc i` is `binary.BigEndian.Uint16(bc[i:i+2])`; an out-of-range read
(which would panic in Go) is modelled as reading 0. -/

def readU16 (bc : List Nat) (i : Nat) : Nat :=
  256 * bc.getD i 0 + bc.getD (i + 1) 0

/-- `binary.BigEndian.PutUint16`: the two bytes of a 16-bit value. -/
def putU16 (n : Nat) : List Nat := [n / 256 % 256, n % 256]

theorem readU16_putU16 (bc : List Nat) (i n : Nat) (h : n < 65536)
    (h1 : bc.getD i 0 = n / 256 % 256) (h2 : bc.getD (i+1) 0 = n % 256) :
    readU16 bc i = n := by
  unfold readU16
  rw [h1, h2]
  omega

/-! ### The object model (package `object`) -/

/-- The type tags of the value model (`object.Type`).  Only the variants whose
source is available are needed by the claims. -/
inductive ObjType where
  | INTEGER
  | STRING
  | BOOLEAN
  | NULL
  | VOID
  deriving DecidableEq, Repr

/-- The dynamically-typed value (`object.Object`).  `Integer` wraps a Go
`int64` (modelled as `Int`); `String` wraps a Go string (modelled as its list
of bytes); `Boolean` and `Null` are modelled from the spec (their sources are
not included) but only their truthiness is ever used. -/
inductive Object where
  | integer (value : Int)
  | string (value : List Nat)
  | boolean (value : Bool)
  | null
  | void
  deriving DecidableEq, Repr

instance : Inhabited Object := ⟨.null⟩

/-- `Object.Type` as implemented by each variant's `Type()` method. -/
def Object.type : Object → ObjType
  | .integer _ => .INTEGER
  | .string _ => .STRING
  | .boolean _ => .BOOLEAN
  | .null => .NULL
  | .void => .VOID

/-- `True()` — truthiness.  `Integer.True` returns `Value > 0` and
`String.True` returns `Value != ""` (both from the source); boolean and null
follow the spec (`bool: itself; null: false`). -/
def Object.True : Object → Bool
  | .integer v => v > 0
  | .string s => s ≠ []
  | .boolean b => b
  | .null => false
  | .void => false

/-- `object.HashKey`: a pair of a type tag and a `uint64`. -/
structure HashKey where
  type : ObjType
  value : Nat
  deriving DecidableEq, Repr

/-- Go's `uint64(v)` conversion of an `int64`: reduction modulo `2^64`. -/
def uint64OfInt64 (v : Int) : Nat := (v % (2 ^ 64 : Nat)).toNat

/-- `Integer.HashKey`: `HashKey{Type: INTEGER, Value: uint64(i.Value)}`. -/
def Integer.HashKey (value : Int) : HashKey :=
  { type := .INTEGER, value := uint64OfInt64 value }

/-- One step of 64-bit FNV-1a: `h = (h XOR b) * prime mod 2^64`. -/
def fnvStep (h b : Nat) : Nat := (h ^^^ b) * 1099511628211 % (2 ^ 64)

/-- 64-bit FNV-1a over a byte sequence (`hash/fnv`, `fnv.New64a` followed by
`Write`/`Sum64`): start from the offset basis and fold `fnvStep`. -/
def fnv1a64 (bytes : List Nat) : Nat :=
  bytes.foldl fnvStep 14695981039346656037

/-- `String.HashKey`: `HashKey{Type: STRING, Value: fnv1a64(bytes)}`. -/
def String.HashKey (value : List Nat) : HashKey :=
  { type := .STRING, value := fnv1a64 value }

/-- `HashKey` of any hashable value: integers hash by value, strings by
FNV-1a, booleans by 0/1 (the latter from the spec); null is not hashable. -/
def Object.hashKey : Object → Option HashKey
  | .integer v => some (Integer.HashKey v)
  | .string s => some (String.HashKey s)
  | .boolean b => some { type := .BOOLEAN, value := if b then 1 else 0 }
  | .null => none
  | .void => none

/-! ### The VM stack (package `stack`) -/

/-- `stack.Stack`: entries are held in a Go slice; `Push` appends at the end
and `Pop` removes from the end. -/
structure Stack where
  entries : List Object
  deriving DecidableEq, Repr

namespace Stack

/-- `stack.New`. -/
def New : Stack := ⟨[]⟩

/-- `Empty` returns true if the stack is empty. -/
def Empty (s : Stack) : Bool := s.entries.length = 0

/-- `Size` retrieves the number of entries stored upon the stack. -/
def Size (s : Stack) : Nat := s.entries.length

/-- `Push` appends the specified value to the stack. -/
def Push (s : Stack) (value : Object) : Stack := ⟨s.entries ++ [value]⟩

/-- `Pop` removes a value from the stack.  The result models the returned
`(object.Object, error)` pair together with the state of the receiver after
the call: on an empty stack an error is returned and the receiver is not
touched; otherwise the last entry is returned and removed. -/
def Pop (s : Stack) : Except String Object × Stack :=
  if s.Empty then
    (.error "Pop from an empty stack", s)
  else
    (.ok (s.entries.getLast!), ⟨s.entries.dropLast⟩)

end Stack

/-! ### The optimizer, `vm`-package version (`optimizeBytecode` and friends)

The walk-based passes below mirror `WalkBytecode`: starting at offset 0 the
walker reads the opcode, its declared length and (for 3-byte opcodes) its
big-endian 16-bit argument, invokes the callback, and advances by the
declared length; a callback returning `false` stops the walk.  The callbacks'
captured mutable state (`args`, `changed`, `tmp`, `rewrite`, `prevOp`) is
threaded through the recursion explicitly. -/

/-- Overwrite the three bytes of an `OpPush`/comparison argument window with
`OpNop` (`bytecode[o] = OpNop; bytecode[o+1] = OpNop; bytecode[o+2] = OpNop`). -/
def writeNop3 (bc : List Nat) (o : Nat) : List Nat :=
  ((bc.set o opNop).set (o + 1) opNop).set (o + 2) opNop

namespace VM

/-- Outcome of the constant-folding walk of `VM.optimizeMaths`: the walk ran
to the end without a change, stopped after rewriting the bytecode, or stopped
because the callback produced the `attempted division by zero` error. -/
inductive MathsRes where
  | finished
  | changed (bc : List Nat)
  | divZero
  deriving DecidableEq, Repr

/-- The walk of `VM.optimizeMaths` (package `vm`).  `args` is the tracked
window of adjacent `OpPush` constants, each an `(offset, value)` pair.
`OpPush` extends the window; `OpNop` is ignored; `OpEqual`/`OpNotEqual` with
two tracked constants folds to `OpTrue`/`OpFalse`; `OpMul`/`OpAdd`/`OpSub`/
`OpDiv` with two tracked constants folds the result into the later push when
it lies in `[0, 65534]` (division by zero stops the walk with an error);
every other opcode resets the window. -/
def mathsWalk (bc : List Nat) (ip : Nat) (args : List (Nat × Nat)) :
    MathsRes :=
  if _h : ip < bc.length then
    -- `op`, `opLen` and `opArg` of the walk are inlined below.
    if bc.getD ip 0 = opPush then
      mathsWalk bc (ip + Length (bc.getD ip 0))
        (args ++ [(ip, readU16 bc (ip + 1))])
    else if bc.getD ip 0 = opNop then
      mathsWalk bc (ip + Length (bc.getD ip 0)) args
    else if bc.getD ip 0 = opEqual ∨ bc.getD ip 0 = opNotEqual then
      if 2 ≤ args.length then
        -- a := args[len(args)-1]; b := args[len(args)-2]
        let a := args.getD (args.length - 1) (0, 0)
        let b := args.getD (args.length - 2) (0, 0)
        let bc1 := writeNop3 bc a.1
        let bc2 := writeNop3 bc1 b.1
        if bc.getD ip 0 = opEqual then
          .changed (bc2.set ip (if a.2 = b.2 then opTrue else opFalse))
        else
          .changed (bc2.set ip (if a.2 ≠ b.2 then opTrue else opFalse))
      else
        mathsWalk bc (ip + Length (bc.getD ip 0)) []
    else if bc.getD ip 0 = opMul ∨ bc.getD ip 0 = opAdd ∨
        bc.getD ip 0 = opSub ∨ bc.getD ip 0 = opDiv then
      if 2 ≤ args.length then
        let a := args.getD (args.length - 1) (0, 0)
        let b := args.getD (args.length - 2) (0, 0)
        if bc.getD ip 0 = opDiv ∧ a.2 = 0 then
          -- found division by zero: the callback returns
          -- `false, fmt.Errorf("attempted division by zero")`.
          .divZero
        else
          let result : Int :=
            if bc.getD ip 0 = opMul then (a.2 : Int) * b.2
            else if bc.getD ip 0 = opAdd then (a.2 : Int) + b.2
            else if bc.getD ip 0 = opSub then (b.2 : Int) - a.2
            else Int.tdiv b.2 a.2
          -- `result%1 == 0` always holds for integers; the Go test keeps it.
          if 0 ≤ result ∧ result ≤ 65534 then
            .changed (((writeNop3 ((bc.set (a.1 + 1) (result.toNat / 256 % 256)).set
              (a.1 + 2) (result.toNat % 256)) b.1)).set ip opNop)
          else
            mathsWalk bc (ip + Length (bc.getD ip 0)) []
      else
        mathsWalk bc (ip + Length (bc.getD ip 0)) []
    else
      mathsWalk bc (ip + Length (bc.getD ip 0)) []
  else
    .finished
termination_by bc.length - ip
decreasing_by
  all_goals
    have := Length_pos (bc.getD ip 0); omega

/-- `VM.optimizeMaths`: the result models the Go `(bool, error)` return
together with the (possibly rewritten) bytecode.  The function ends with
`return changed, nil`: the division-by-zero error constructed inside the walk
callback is never propagated, so the error component is always `none`. -/
def optimizeMaths (bc : List Nat) : List Nat × Bool × Option String :=
  match mathsWalk bc 0 [] with
  | .changed bc' => (bc', true, none)
  | _ => (bc, false, none)

/-- The Go loop `i := offset - 1; for i < opArg { bytecode[i] = OpNop; i++ }`
used by the `OpFalse; OpJumpIfFalse` rewrite of `VM.optimizeJumps`. -/
def nopRange (bc : List Nat) (i target : Nat) : List Nat :=
  if i < target then nopRange (bc.set i opNop) (i + 1) target else bc
termination_by target - i
decreasing_by simp_all; omega

/-- The walk of `VM.optimizeJumps`: `some bc'` when a rewrite fired (walk
stopped), `none` when the walk ended without changes.  `prevOp` starts as
`OpNop`. -/
def jumpsWalk (bc : List Nat) (ip : Nat) (prevOp : Nat) : Option (List Nat) :=
  if _h : ip < bc.length then
    if bc.getD ip 0 = opJumpIfFalse then
      if prevOp = opTrue then
        -- wipe the previous instruction (OpTrue) and this jump
        some ((((bc.set (ip - 1) opNop).set ip opNop).set (ip + 1) opNop).set
          (ip + 2) opNop)
      else if prevOp = opFalse then
        -- the jump is unconditional: nuke OpFalse, the jump and everything
        -- up to the target offset
        some (nopRange bc (ip - 1) (readU16 bc (ip + 1)))
      else
        jumpsWalk bc (ip + Length (bc.getD ip 0)) (bc.getD ip 0)
    else
      jumpsWalk bc (ip + Length (bc.getD ip 0)) (bc.getD ip 0)
  else
    none
termination_by bc.length - ip
decreasing_by
  all_goals
    have := Length_pos (bc.getD ip 0); omega

/-- `VM.optimizeJumps`: returns the bytecode after the call and the `changed`
flag. -/
def optimizeJumps (bc : List Nat) : List Nat × Bool :=
  match jumpsWalk bc 0 opNop with
  | some bc' => (bc', true)
  | none => (bc, false)

end VM

/-- Phase one of `removeNOPs` (identical in both versions): rebuild the
bytecode into `tmp` skipping every `OpNop`, recording in `rewrite` the
mapping `old offset → len(tmp)` for *every* visited offset, including those
of eliminated NOPs. -/
def nopsElide (bc : List Nat) (ip : Nat) (tmp : List Nat)
    (rewrite : List (Nat × Nat)) : List Nat × List (Nat × Nat) :=
  if _h : ip < bc.length then
    if bc.getD ip 0 = opNop then
      nopsElide bc (ip + Length (bc.getD ip 0)) tmp
        (rewrite ++ [(ip, tmp.length)])
    else
      nopsElide bc (ip + Length (bc.getD ip 0))
        (tmp ++ bc.getD ip 0 :: (if Length (bc.getD ip 0) > 1 then
          putU16 (readU16 bc (ip + 1)) else []))
        (rewrite ++ [(ip, tmp.length)])
  else
    (tmp, rewrite)
termination_by bc.length - ip
decreasing_by
  all_goals
    have := Length_pos (bc.getD ip 0); omega

namespace VM

/-- Phase two of `VM.removeNOPs`: patch every `OpJump`/`OpJumpIfFalse`
argument in `tmp` through the rewrite map; if a mapping is missing, abort
(`none`) — the caller then leaves the engine's bytecode untouched. -/
def nopsPatch (rewrite : List (Nat × Nat)) (tmp : List Nat) (ip : Nat) :
    Option (List Nat) :=
  if _h : ip < tmp.length then
    if tmp.getD ip 0 = opJump ∨ tmp.getD ip 0 = opJumpIfFalse then
      match List.lookup (readU16 tmp (ip + 1)) rewrite with
      | none => none
      | some newDst =>
          nopsPatch rewrite
            ((tmp.set (ip + 1) (newDst / 256 % 256)).set (ip + 2)
              (newDst % 256))
            (ip + Length (tmp.getD ip 0))
    else
      nopsPatch rewrite tmp (ip + Length (tmp.getD ip 0))
  else
    some tmp
termination_by tmp.length - ip
decreasing_by
  all_goals have := Length_pos (tmp.getD ip 0)
  all_goals first
    | (simp only [List.length_set]; omega)
    | omega

/-- `VM.removeNOPs`: elide NOPs, then — only when at least one NOP was
actually removed — patch the jump targets; a missing mapping aborts the pass
without modifying the bytecode. -/
def removeNOPs (bc : List Nat) : List Nat :=
  let er := nopsElide bc 0 [] []
  if bc.length = er.1.length then bc
  else
    match nopsPatch er.2 er.1 0 with
    | none => bc
    | some t => t

/-- The walk of `VM.removeDeadCode`: `some tmp` when the walk stopped at the
first `OpReturn` (the pass then installs the truncated program), `none` when
it stopped at a jump or ran off the end without seeing a return (the pass
then leaves the bytecode untouched). -/
def deadWalk (bc : List Nat) (ip : Nat) (tmp : List Nat) :
    Option (List Nat) :=
  if _h : ip < bc.length then
    if bc.getD ip 0 = opJumpIfFalse ∨ bc.getD ip 0 = opJump then
      none
    else if bc.getD ip 0 = opReturn then
      some (tmp ++ [opReturn])
    else
      deadWalk bc (ip + Length (bc.getD ip 0))
        (tmp ++ bc.getD ip 0 :: (if Length (bc.getD ip 0) > 1 then
          putU16 (readU16 bc (ip + 1)) else []))
  else
    none
termination_by bc.length - ip
decreasing_by
  all_goals
    have := Length_pos (bc.getD ip 0); omega

/-- `VM.removeDeadCode`: replace the instructions only if the walk found a
return to truncate at. -/
def removeDeadCode (bc : List Nat) : List Nat :=
  (deadWalk bc 0 []).getD bc

end VM

/-! ### The optimizer, `evalfilter`-package version (`Eval.optimize` and
friends) — the one `Prepare` invokes.  The differences from the `vm` version:
  * `optimizeMaths` performs `b.value / a.value` with no zero test — a Go
    runtime panic when the divisor is zero, modelled as `none`;
  * `optimizeJumps` rewrites `OpFalse; OpJumpIfFalse T` to `OpNop; OpJump T`
    instead of NOPing out the region up to `T`;
  * `removeNOPs` neither skips the patch phase when nothing was elided nor
    checks the rewrite map: a missing mapping silently yields the Go map
    zero value 0, and the rewritten program is always installed;
  * `removeDeadCode` installs the rebuilt program even when no return was
    seen (the rebuilt program is then a byte-for-byte copy). -/

namespace Eval

/-- Outcome of the constant-folding walk of `Eval.optimizeMaths`; `panicked`
is the Go runtime panic `integer divide by zero`. -/
inductive MathsRes where
  | finished
  | changed (bc : List Nat)
  | panicked
  deriving DecidableEq, Repr

/-- The walk of `Eval.optimizeMaths` (package `evalfilter`).  Identical to
`VM.mathsWalk` except that `OpDiv` with a zero divisor executes
`result = b.value / a.value` and panics.  `e.changeOperand(a.offset, result)`
(a helper whose source is not included; modelled from the spec) replaces the
16-bit big-endian operand of the instruction at `a.offset`. -/
def mathsWalk (bc : List Nat) (ip : Nat) (args : List (Nat × Nat)) :
    MathsRes :=
  if _h : ip < bc.length then
    -- `op`, `opLen` and `opArg` of the walk are inlined below.
    if bc.getD ip 0 = opPush then
      mathsWalk bc (ip + Length (bc.getD ip 0))
        (args ++ [(ip, readU16 bc (ip + 1))])
    else if bc.getD ip 0 = opNop then
      mathsWalk bc (ip + Length (bc.getD ip 0)) args
    else if bc.getD ip 0 = opEqual ∨ bc.getD ip 0 = opNotEqual then
      if 2 ≤ args.length then
        let a := args.getD (args.length - 1) (0, 0)
        let b := args.getD (args.length - 2) (0, 0)
        let bc1 := writeNop3 bc a.1
        let bc2 := writeNop3 bc1 b.1
        if bc.getD ip 0 = opEqual then
          .changed (bc2.set ip (if a.2 = b.2 then opTrue else opFalse))
        else
          .changed (bc2.set ip (if a.2 ≠ b.2 then opTrue else opFalse))
      else
        mathsWalk bc (ip + Length (bc.getD ip 0)) []
    else if bc.getD ip 0 = opMul ∨ bc.getD ip 0 = opAdd ∨
        bc.getD ip 0 = opSub ∨ bc.getD ip 0 = opDiv then
      if 2 ≤ args.length then
        let a := args.getD (args.length - 1) (0, 0)
        let b := args.getD (args.length - 2) (0, 0)
        if bc.getD ip 0 = opDiv ∧ a.2 = 0 then
          -- `result = b.value / a.value` divides by zero: Go panics.
          .panicked
        else
          let result : Int :=
            if bc.getD ip 0 = opMul then (a.2 : Int) * b.2
            else if bc.getD ip 0 = opAdd then (a.2 : Int) + b.2
            else if bc.getD ip 0 = opSub then (b.2 : Int) - a.2
            else Int.tdiv b.2 a.2
          if 0 ≤ result ∧ result ≤ 65534 then
            .changed (((writeNop3 ((bc.set (a.1 + 1) (result.toNat / 256 % 256)).set
              (a.1 + 2) (result.toNat % 256)) b.1)).set ip opNop)
          else
            mathsWalk bc (ip + Length (bc.getD ip 0)) []
      else
        mathsWalk bc (ip + Length (bc.getD ip 0)) []
    else
      mathsWalk bc (ip + Length (bc.getD ip 0)) []
  else
    .finished
termination_by bc.length - ip
decreasing_by
  all_goals
    have := Length_pos (bc.getD ip 0); omega

/-- `Eval.optimizeMaths`: `none` models the division-by-zero panic;
otherwise the rewritten bytecode and the returned `bool`. -/
def optimizeMaths (bc : List Nat) : Option (List Nat × Bool) :=
  match mathsWalk bc 0 [] with
  | .changed bc' => some (bc', true)
  | .finished => some (bc, false)
  | .panicked => none

/-- The walk of `Eval.optimizeJumps`: identical to the `vm` version except
for the `OpFalse` rewrite, which wipes the `OpFalse` and turns the
conditional jump into an unconditional `OpJump` with the same target. -/
def jumpsWalk (bc : List Nat) (ip : Nat) (prevOp : Nat) : Option (List Nat) :=
  if _h : ip < bc.length then
    if bc.getD ip 0 = opJumpIfFalse then
      if prevOp = opTrue then
        some ((((bc.set (ip - 1) opNop).set ip opNop).set (ip + 1) opNop).set
          (ip + 2) opNop)
      else if prevOp = opFalse then
        some ((bc.set (ip - 1) opNop).set ip opJump)
      else
        jumpsWalk bc (ip + Length (bc.getD ip 0)) (bc.getD ip 0)
    else
      jumpsWalk bc (ip + Length (bc.getD ip 0)) (bc.getD ip 0)
  else
    none
termination_by bc.length - ip
decreasing_by
  all_goals
    have := Length_pos (bc.getD ip 0); omega

/-- `Eval.optimizeJumps`. -/
def optimizeJumps (bc : List Nat) : List Nat × Bool :=
  match jumpsWalk bc 0 opNop with
  | some bc' => (bc', true)
  | none => (bc, false)

/-- Phase two of `Eval.removeNOPs`: patch every jump argument through the
rewrite map; a missing mapping yields the Go map access zero value `0`. -/
def nopsPatch (rewrite : List (Nat × Nat)) (tmp : List Nat) (ip : Nat) :
    List Nat :=
  if _h : ip < tmp.length then
    if tmp.getD ip 0 = opJump ∨ tmp.getD ip 0 = opJumpIfFalse then
      nopsPatch rewrite
        ((tmp.set (ip + 1)
            (((List.lookup (readU16 tmp (ip + 1)) rewrite).getD 0) / 256 % 256)).set
          (ip + 2) (((List.lookup (readU16 tmp (ip + 1)) rewrite).getD 0) % 256))
        (ip + Length (tmp.getD ip 0))
    else
      nopsPatch rewrite tmp (ip + Length (tmp.getD ip 0))
  else
    tmp
termination_by tmp.length - ip
decreasing_by
  all_goals have := Length_pos (tmp.getD ip 0)
  all_goals first
    | (simp only [List.length_set]; omega)
    | omega

/-- `Eval.removeNOPs`: elide NOPs and always patch and install. -/
def removeNOPs (bc : List Nat) : List Nat :=
  let er := nopsElide bc 0 [] []
  nopsPatch er.2 er.1 0

/-- The walk of `Eval.removeDeadCode`: `none` when a jump was seen (the Go
function returns without installing `tmp`); `some tmp` when it stopped at
the first return or ran off the end. -/
def deadWalk (bc : List Nat) (ip : Nat) (tmp : List Nat) :
    Option (List Nat) :=
  if _h : ip < bc.length then
    if bc.getD ip 0 = opJumpIfFalse ∨ bc.getD ip 0 = opJump then
      none
    else if bc.getD ip 0 = opReturn then
      some (tmp ++ [opReturn])
    else
      deadWalk bc (ip + Length (bc.getD ip 0))
        (tmp ++ bc.getD ip 0 :: (if Length (bc.getD ip 0) > 1 then
          putU16 (readU16 bc (ip + 1)) else []))
  else
    some tmp
termination_by bc.length - ip
decreasing_by
  all_goals
    have := Length_pos (bc.getD ip 0); omega

/-- `Eval.removeDeadCode`. -/
def removeDeadCode (bc : List Nat) : List Nat :=
  (deadWalk bc 0 []).getD bc

end Eval

/-! ### Walk structure of a byte program -/

/-- The instruction offsets visited by `WalkBytecode` starting at `ip`: each
step advances by the declared length of the opcode found there. -/
def walkOffsets (bc : List Nat) (ip : Nat) : List Nat :=
  if _h : ip < bc.length then
    ip :: walkOffsets bc (ip + Length (bc.getD ip 0))
  else
    []
termination_by bc.length - ip
decreasing_by
  all_goals
    have := Length_pos (bc.getD ip 0); omega

/-- Alignment: every instruction visited by the walk lies entirely within the
byte array (a 3-byte opcode never hangs over the end). -/
def alignedB (bc : List Nat) (ip : Nat) : Bool :=
  if _h : ip < bc.length then
    decide (ip + Length (bc.getD ip 0) ≤ bc.length) &&
      alignedB bc (ip + Length (bc.getD ip 0))
  else
    true
termination_by bc.length - ip
decreasing_by
  all_goals
    have := Length_pos (bc.getD ip 0); omega

/-- All entries of the byte array are bytes. -/
def Bytes (bc : List Nat) : Prop := ∀ b ∈ bc, b < 256

/-! ### Pure characterisations of phase one of `removeNOPs`

`elideOut bc ip` is the content appended to `tmp` by the elision walk from
`ip`, and `elideTrace bc ip base` is the list of rewrite-map entries it
records when `tmp` currently has length `base`.  (`nopsElide` is proved equal
to these below; all reasoning about the pass goes through them.) -/

def elideOut (bc : List Nat) (ip : Nat) : List Nat :=
  if _h : ip < bc.length then
    if bc.getD ip 0 = opNop then
      elideOut bc (ip + Length (bc.getD ip 0))
    else
      (bc.getD ip 0 :: (if Length (bc.getD ip 0) > 1 then
        putU16 (readU16 bc (ip + 1)) else [])) ++
        elideOut bc (ip + Length (bc.getD ip 0))
  else
    []
termination_by bc.length - ip
decreasing_by
  all_goals
    have := Length_pos (bc.getD ip 0); omega

def elideTrace (bc : List Nat) (ip base : Nat) : List (Nat × Nat) :=
  if _h : ip < bc.length then
    if bc.getD ip 0 = opNop then
      (ip, base) :: elideTrace bc (ip + Length (bc.getD ip 0)) base
    else
      (ip, base) :: elideTrace bc (ip + Length (bc.getD ip 0))
        (base + Length (bc.getD ip 0))
  else
    []
termination_by bc.length - ip
decreasing_by
  all_goals
    have := Length_pos (bc.getD ip 0); omega

/-! ### A straight-line fragment and its semantics

Modelled from the spec: the VM execution loop (package `vm`) is not among
the sources.  For the refinement claim the VM is modelled in two forms: a
fuel-indexed byte-level machine `vmExec` covering the stack/arithmetic
opcodes together with the two jumps, and — for jump-free programs, where
execution is a single left-to-right sweep — a decoded form (`decodeSL` +
`execSL`) used to state preservation for every program of the fragment. -/

/-- Runtime error kinds of the modelled VM (§7: division by zero, type
mismatch for an operator; popping an empty stack corresponds to the stack
package's `Pop from an empty stack`). -/
inductive VMErr where
  | popEmpty
  | typeMismatch
  | divByZero
  | unknownOpcode
  deriving DecidableEq, Repr

/-- Observable outcome of a VM run: the returned value, a runtime error, or
(for the fuel-indexed machine only) fuel exhaustion. -/
inductive Outcome where
  | value (o : Object)
  | vmError (e : VMErr)
  | spun
  deriving DecidableEq, Repr

/-- Decoded straight-line instructions: the opcodes the constant-folding
window can interact with, plus `OpReturn`.  No jumps: execution of a program
of this fragment is a single pass. -/
inductive SInstr where
  | push (n : Nat)
  | nop
  | tru
  | fls
  | add
  | sub
  | mul
  | div
  | eq
  | ne
  | ret
  deriving DecidableEq, Repr

/-- Decode a 1-byte opcode of the fragment. -/
def decode1 (b : Nat) : Option SInstr :=
  if b = opNop then some .nop
  else if b = opTrue then some .tru
  else if b = opFalse then some .fls
  else if b = opAdd then some .add
  else if b = opSub then some .sub
  else if b = opMul then some .mul
  else if b = opDiv then some .div
  else if b = opEqual then some .eq
  else if b = opNotEqual then some .ne
  else if b = opReturn then some .ret
  else none

/-- Decode a byte array over the fragment (big-endian 16-bit argument for
`OpPush`); `none` when an opcode outside the fragment appears or a push
hangs over the end. -/
def decodeSL : List Nat → Option (List SInstr)
  | [] => some []
  | b :: rest =>
      if b = opPush then
        match rest with
        | hi :: lo :: rest' =>
            match decodeSL rest' with
            | some is => some (.push (256 * hi + lo) :: is)
            | none => none
        | _ => none
      else
        match decode1 b with
        | some i =>
            match decodeSL rest with
            | some is => some (i :: is)
            | none => none
        | none => none

/-- Result of running a prefix of a straight-line program: either control
flows on with a stack, or the run has halted with an outcome. -/
inductive SegRes where
  | cont (s : List Object)
  | done (o : Outcome)
  deriving DecidableEq, Repr

/-- Execute a decoded straight-line segment on a stack (top = head).
Arithmetic pops the right operand first (it is on top), divides with Go
(truncated) division, and fails on a type mismatch or an empty stack;
`OpEqual`/`OpNotEqual` use structural, type-sensitive equality; `OpReturn`
halts with the top of the stack. -/
def execSeg : List SInstr → List Object → SegRes
  | [], s => .cont s
  | .push n :: rest, s => execSeg rest (.integer n :: s)
  | .nop :: rest, s => execSeg rest s
  | .tru :: rest, s => execSeg rest (.boolean true :: s)
  | .fls :: rest, s => execSeg rest (.boolean false :: s)
  | .add :: rest, .integer x :: .integer y :: s =>
      execSeg rest (.integer (y + x) :: s)
  | .sub :: rest, .integer x :: .integer y :: s =>
      execSeg rest (.integer (y - x) :: s)
  | .mul :: rest, .integer x :: .integer y :: s =>
      execSeg rest (.integer (y * x) :: s)
  | .div :: rest, .integer x :: .integer y :: s =>
      if x = 0 then .done (.vmError .divByZero)
      else execSeg rest (.integer (Int.tdiv y x) :: s)
  | .eq :: rest, a :: b :: s =>
      execSeg rest (.boolean (decide (a = b)) :: s)
  | .ne :: rest, a :: b :: s =>
      execSeg rest (.boolean (decide (a ≠ b)) :: s)
  | .ret :: _, a :: _ => .done (.value a)
  | .add :: _, _ | .sub :: _, _ | .mul :: _, _ | .div :: _, _
  | .eq :: _, _ | .ne :: _, _ | .ret :: _, _ =>
      .done (.vmError .popEmpty)

/-- Outcome of a straight-line program from a stack: running past the end
returns `Void`. -/
def execSL (is : List SInstr) (s : List Object) : Outcome :=
  match execSeg is s with
  | .cont _ => .value Object.void
  | .done o => o

/-- Observable behaviour of a jump-free byte program: decode and execute on
an empty stack. -/
def runSL (bc : List Nat) : Option Outcome :=
  (decodeSL bc).map (execSL · [])

/-- Modelled from the spec: the byte-level VM execution loop (§4.7) on the
fragment opcodes plus `OpJump`/`OpJumpIfFalse`, with a fuel bound.  The
instruction pointer starts at 0; each step fetches the opcode, advances by
its declared length (or jumps), and dispatches; `OpReturn` halts with the
top of the stack; running past the end returns `Void`. -/
def vmExec (fuel : Nat) (bc : List Nat) (ip : Nat) (s : List Object) :
    Outcome :=
  match fuel with
  | 0 => .spun
  | fuel + 1 =>
      if ip < bc.length then
        let op := bc.getD ip 0
        if op = opPush then
          vmExec fuel bc (ip + 3) (.integer (readU16 bc (ip + 1)) :: s)
        else if op = opNop then vmExec fuel bc (ip + 1) s
        else if op = opTrue then vmExec fuel bc (ip + 1) (.boolean true :: s)
        else if op = opFalse then vmExec fuel bc (ip + 1) (.boolean false :: s)
        else if op = opAdd ∨ op = opSub ∨ op = opMul ∨ op = opDiv then
          match s with
          | .integer x :: .integer y :: s' =>
              if op = opAdd then vmExec fuel bc (ip + 1) (.integer (y + x) :: s')
              else if op = opSub then vmExec fuel bc (ip + 1) (.integer (y - x) :: s')
              else if op = opMul then vmExec fuel bc (ip + 1) (.integer (y * x) :: s')
              else if x = 0 then .vmError .divByZero
              else vmExec fuel bc (ip + 1) (.integer (Int.tdiv y x) :: s')
          | _ :: _ :: _ => .vmError .typeMismatch
          | _ => .vmError .popEmpty
        else if op = opEqual then
          match s with
          | a :: b :: s' => vmExec fuel bc (ip + 1) (.boolean (decide (a = b)) :: s')
          | _ => .vmError .popEmpty
        else if op = opNotEqual then
          match s with
          | a :: b :: s' => vmExec fuel bc (ip + 1) (.boolean (decide (a ≠ b)) :: s')
          | _ => .vmError .popEmpty
        else if op = opJump then
          vmExec fuel bc (readU16 bc (ip + 1)) s
        else if op = opJumpIfFalse then
          match s with
          | a :: s' =>
              if a.True then vmExec fuel bc (ip + 3) s'
              else vmExec fuel bc (readU16 bc (ip + 1)) s'
          | _ => .vmError .popEmpty
        else if op = opReturn then
          match s with
          | a :: _ => .value a
          | _ => .vmError .popEmpty
        else
          .vmError .unknownOpcode
      else
        .value Object.void

/-! ### The façade (`evalfilter.go`)

`Execute` launches the prepared program in the VM (`e.machine.Run(obj)`) and
returns the resulting object, substituting `Null` when the machine reports an
error; `Run` calls `Execute` and converts the result to a boolean via
`True()`.  The machine itself lives in the `vm` package; its outcome on the
given host object is abstracted as an `Except` value, so `Execute`/`Run`
below are exactly the source functions as functions of that outcome. -/

/-- `Eval.Execute`: on a machine error return `(&object.Null{}, err)`,
otherwise `(out, nil)`. -/
def Execute (machineRun : Except String Object) : Object × Option String :=
  match machineRun with
  | .error err => (.null, some err)
  | .ok out => (out, none)

/-- `Eval.Run`: call `Execute`; on error return `(false, err)`, otherwise
`(out.True(), nil)`. -/
def Run (machineRun : Except String Object) : Bool × Option String :=
  match Execute machineRun with
  | (_, some err) => (false, some err)
  | (out, none) => (out.True, none)

/-! ## Facade and stack claims -/

/-- C9: on success `Run` returns exactly the truthiness of the value that
`Execute` returns, where an Integer is truthy iff its value is strictly
greater than 0 and a String is truthy iff it is non-empty; when execution
fails, `Run` returns `false` together with the error. -/
theorem claim_C9_run_truthiness :
    (∀ out : Object, Run (.ok out) = ((Execute (.ok out)).1.True, none)) ∧
    (∀ n : Int, Object.True (.integer n) = decide (n > 0)) ∧
    (∀ s : List Nat, Object.True (.string s) = decide (s ≠ [])) ∧
    (∀ e : String, Run (.error e) = (false, some e)) :=
  ⟨fun _ => rfl, fun _ => rfl, fun _ => rfl, fun _ => rfl⟩

/-- The last element of a Go slice after an append. -/
theorem getLast_bang_concat (l : List Object) (v : Object) :
    (l ++ [v]).getLast! = v := by
  induction l with
  | nil => rfl
  | cons a l ih =>
      cases l with
      | nil => rfl
      | cons b l => simpa [List.getLast!] using ih

/-- C10: `Pop` returns an error exactly when the stack is empty (and then
leaves the stack untouched, hence empty); on any non-empty stack it returns
the most recently pushed value and removes only that entry, so `Push v`
followed by `Pop` yields `v` and restores the original stack, and `Size`
decreases by exactly one on each successful `Pop`. -/
theorem claim_C10_stack_pop (s : Stack) (v : Object) :
    (((Stack.Pop s).1 = .error "Pop from an empty stack") ↔ s.Empty = true) ∧
    (s.Empty = true → (Stack.Pop s).2 = s) ∧
    ((s.Push v).Pop = (.ok v, s)) ∧
    (s.Empty = false → (Stack.Pop s).2.Size + 1 = s.Size) := by
  obtain ⟨l⟩ := s
  refine ⟨?_, ?_, ?_, ?_⟩
  · unfold Stack.Pop
    by_cases h : Stack.Empty ⟨l⟩ <;> simp [h]
  · intro h
    simp [Stack.Pop, h]
  · simp [Stack.Pop, Stack.Empty, Stack.Push, List.dropLast_concat,
      getLast_bang_concat]
  · intro h
    have hl : l ≠ [] := by
      simpa [Stack.Empty, List.length_eq_zero] using h
    have hp : 0 < l.length := List.length_pos.mpr hl
    simp [Stack.Pop, Stack.Empty, hl, Stack.Size, List.length_dropLast]
    omega

/-- Witness for C10: a pop from the empty stack errors, and a successful pop
from a two-element stack shrinks it by one. -/
theorem claim_C10_stack_pop_witness :
    ((Stack.Pop ⟨[]⟩).1 = .error "Pop from an empty stack") ∧
    ((Stack.Pop ⟨[Object.integer 7, Object.null]⟩).2.Size + 1 =
      Stack.Size ⟨[Object.integer 7, Object.null]⟩) :=
  ⟨((claim_C10_stack_pop ⟨[]⟩ Object.null).1).mpr (by decide),
   (claim_C10_stack_pop ⟨[Object.integer 7, Object.null]⟩ Object.null).2.2.2
     (by decide)⟩

/-! ## Optimizer claims: concrete computations -/

/-- C2: `return 10 / 0;` compiles to `OpPush 10; OpPush 0; OpDiv; OpReturn`.
The `vm`-package constant-folding walk detects the zero divisor and stops
with the `attempted division by zero` error, but `optimizeMaths` ends with
`return changed, nil` — it reports `(false, nil)`, discarding the error, so
no compile-time `DivisionByZero` ever reaches the caller; the
`evalfilter`-package pass (the one `Prepare` invokes) executes `10 / 0` in
Go and panics instead of reporting the error. -/
theorem claim_C2_divzero_dropped :
    VM.mathsWalk [opPush, 0, 10, opPush, 0, 0, opDiv, opReturn] 0 [] =
      .divZero ∧
    VM.optimizeMaths [opPush, 0, 10, opPush, 0, 0, opDiv, opReturn] =
      ([opPush, 0, 10, opPush, 0, 0, opDiv, opReturn], false, none) ∧
    Eval.optimizeMaths [opPush, 0, 10, opPush, 0, 0, opDiv, opReturn] =
      none := by
  refine ⟨?_, ?_, ?_⟩ <;>
    simp [VM.optimizeMaths, VM.mathsWalk, Eval.optimizeMaths, Eval.mathsWalk,
      Length, readU16, opPush, opNop, opDiv, opAdd, opSub, opMul, opEqual,
      opNotEqual, opConstant, opLookup, opSet, opCall, opArray, opHash,
      opIter, opJump, opJumpIfFalse, opReturn]

/-- C3 counterexample: folding `OpPush 2; OpPush 3; OpAdd; OpReturn` writes
the result into the argument of the *second* (later) `OpPush` and overwrites
the *first* (earlier) `OpPush` with NOPs — the opposite of the claim, under
which the first three bytes would remain `OpPush 0 5`. -/
theorem claim_C3_counterexample :
    VM.optimizeMaths [opPush, 0, 2, opPush, 0, 3, opAdd, opReturn] =
      ([opNop, opNop, opNop, opPush, 0, 5, opNop, opReturn], true, none) ∧
    ([opNop, opNop, opNop, opPush, 0, 5, opNop, opReturn] : List Nat) ≠
      [opPush, 0, 5, opNop, opNop, opNop, opNop, opReturn] := by
  refine ⟨?_, by decide⟩
  simp [VM.optimizeMaths, VM.mathsWalk, writeNop3,
    Length, readU16, opPush, opNop, opDiv, opAdd, opSub, opMul, opEqual,
    opNotEqual, opConstant, opLookup, opSet, opCall, opArray, opHash,
    opIter, opJump, opJumpIfFalse, opReturn]

/-- C4 counterexample: on `OpFalse; OpJumpIfFalse 7; OpTrue×3; OpReturn`,
the jump-simplification pass of the `evalfilter` package (the one `Prepare`
invokes) rewrites the pair to `OpNop; OpJump 7` — it does *not* overwrite
the intervening bytes up to the target with NOPs as the claim states. -/
theorem claim_C4_counterexample :
    Eval.optimizeJumps
        [opFalse, opJumpIfFalse, 0, 7, opTrue, opTrue, opTrue, opReturn] =
      ([opNop, opJump, 0, 7, opTrue, opTrue, opTrue, opReturn], true) ∧
    ([opNop, opJump, 0, 7, opTrue, opTrue, opTrue, opReturn] : List Nat) ≠
      [opNop, opNop, opNop, opNop, opNop, opNop, opNop, opReturn] := by
  refine ⟨?_, by decide⟩
  simp [Eval.optimizeJumps, Eval.jumpsWalk,
    Length, readU16, opPush, opNop, opTrue, opFalse, opConstant, opLookup,
    opSet, opCall, opArray, opHash, opIter, opJump, opJumpIfFalse, opReturn]

/-- C6 counterexample: on `OpNop; OpJump 2` (a jump into the middle of an
instruction, so offset 2 has no entry in the rewrite map), the NOP-elision
pass of the `evalfilter` package (the one `Prepare` invokes) does not abort:
the missing mapping reads as the Go map zero value 0, and the pass installs
the rewritten program with the jump retargeted to offset 0. -/
theorem claim_C6_counterexample :
    Eval.removeNOPs [opNop, opJump, 0, 2] = [opJump, 0, 0] ∧
    ([opJump, 0, 0] : List Nat) ≠ [opNop, opJump, 0, 2] := by
  refine ⟨?_, by decide⟩
  simp [Eval.removeNOPs, nopsElide, Eval.nopsPatch, putU16,
    Length, readU16, opPush, opNop, opConstant, opLookup,
    opSet, opCall, opArray, opHash, opIter, opJump, opJumpIfFalse, opReturn,
    List.lookup]

/-- C1 counterexample: the program `OpJump 6; OpPush 2; OpPush 3; OpAdd;
OpReturn` jumps into the middle of the constant-folding window.  Before the
pass the modelled VM jumps to the second push and fails with a stack
underflow at `OpAdd`; after the `vm`-package constant-folding pass the same
program returns `Integer 5` — the pass changed observable behaviour, and not
through the division-by-zero exemption. -/
theorem claim_C1_counterexample :
    (VM.optimizeMaths
        [opJump, 0, 6, opPush, 0, 2, opPush, 0, 3, opAdd, opReturn]).1 =
      [opJump, 0, 6, opNop, opNop, opNop, opPush, 0, 5, opNop, opReturn] ∧
    vmExec 20 [opJump, 0, 6, opPush, 0, 2, opPush, 0, 3, opAdd, opReturn]
        0 [] = .vmError .popEmpty ∧
    vmExec 20 [opJump, 0, 6, opNop, opNop, opNop, opPush, 0, 5, opNop,
        opReturn] 0 [] = .value (.integer 5) ∧
    (Outcome.vmError .popEmpty ≠ .value (.integer 5)) := by
  refine ⟨?_, by decide, by decide, by decide⟩
  simp [VM.optimizeMaths, VM.mathsWalk, writeNop3,
    Length, readU16, opPush, opNop, opDiv, opAdd, opSub, opMul, opEqual,
    opNotEqual, opConstant, opLookup, opSet, opCall, opArray, opHash,
    opIter, opJump, opJumpIfFalse, opReturn]

/-! ## Hash-key claims -/

/-- C8 counterexample: two distinct 8-byte strings with the same 64-bit
FNV-1a digest (4616977905692715433), hence equal hash keys: hash-key
equality does not imply structural equality for strings. -/
theorem claim_C8_counterexample :
    String.HashKey [129, 58, 246, 193, 225, 135, 135, 107] =
      String.HashKey [88, 241, 15, 233, 15, 157, 7, 80] ∧
    Object.hashKey (.string [129, 58, 246, 193, 225, 135, 135, 107]) =
      Object.hashKey (.string [88, 241, 15, 233, 15, 157, 7, 80]) ∧
    Object.string [129, 58, 246, 193, 225, 135, 135, 107] ≠
      Object.string [88, 241, 15, 233, 15, 157, 7, 80] := by
  refine ⟨by decide, by decide, by decide⟩

/-- C8 amended: structural equality always implies hash-key equality, and
for Integers (within the `int64` range) and Booleans the converse holds as
well — integers hash injectively by value; but two distinct Strings can
share a hash key (64-bit FNV-1a is not injective), so the stated
equivalence holds in the forward direction only. -/
theorem claim_C8_amended :
    (∀ a b : Object, a = b → a.hashKey = b.hashKey) ∧
    (∀ x y : Int, -(2 ^ 63) ≤ x → x < 2 ^ 63 → -(2 ^ 63) ≤ y → y < 2 ^ 63 →
      Integer.HashKey x = Integer.HashKey y → x = y) ∧
    (∀ b c : Bool,
      Object.hashKey (.boolean b) = Object.hashKey (.boolean c) → b = c) := by
  refine ⟨fun a b h => by rw [h], ?_, ?_⟩
  · intro x y h1 h2 h3 h4 h5
    have hv := congrArg HashKey.value h5
    simp only [Integer.HashKey, uint64OfInt64] at hv
    have e : ((2 ^ 64 : Nat) : Int) = 18446744073709551616 := by norm_num
    rw [e] at hv
    omega
  · intro b c h
    cases b <;> cases c <;> simp [Object.hashKey] at h ⊢

/-- Witness for C8 amended, at `Integer 5` / `Integer 5` and
`Boolean true`. -/
theorem claim_C8_amended_witness :
    (5 : Int) = 5 ∧ (true = true) := by
  refine ⟨claim_C8_amended.2.1 5 5 (by decide) (by decide) (by decide)
    (by decide) (by decide), claim_C8_amended.2.2 true true (by decide)⟩

/-! ## C3 amended: which push receives the folded result -/

/-- C3 amended: on `OpPush x; OpPush y; op; OpReturn` with
`op ∈ {OpAdd, OpSub, OpMul, OpDiv}` (nonzero divisor for `OpDiv`), when the
computed result `r` is non-negative and at most 65534 the pass rewrites the
argument of the *second* (later) `OpPush` to `r` and overwrites the *first*
(earlier) `OpPush` (three bytes) and the arithmetic opcode (one byte) with
`OpNop`; when `r` falls outside `[0, 65534]` all three instructions are
left unchanged. -/
theorem claim_C3_amended (x y op : Nat) (r : Int)
    (hx : x < 65536) (hy : y < 65536)
    (hop : op = opAdd ∨ op = opSub ∨ op = opMul ∨ op = opDiv)
    (hdz : op = opDiv → y ≠ 0)
    (hr : r = if op = opMul then (x : Int) * y
          else if op = opAdd then (x : Int) + y
          else if op = opSub then (x : Int) - y
          else Int.tdiv x y) :
    (0 ≤ r ∧ r ≤ 65534 →
      VM.optimizeMaths
          [opPush, x / 256, x % 256, opPush, y / 256, y % 256, op, opReturn] =
        ([opNop, opNop, opNop, opPush, r.toNat / 256 % 256, r.toNat % 256,
          opNop, opReturn], true, none)) ∧
    (¬(0 ≤ r ∧ r ≤ 65534) →
      VM.optimizeMaths
          [opPush, x / 256, x % 256, opPush, y / 256, y % 256, op, opReturn] =
        ([opPush, x / 256, x % 256, opPush, y / 256, y % 256, op, opReturn],
          false, none)) := by
  have ex : 256 * (x / 256) + x % 256 = x := by omega
  have ey : 256 * (y / 256) + y % 256 = y := by omega
  rcases hop with hO | hO | hO | hO <;> subst hO
  · -- OpAdd
    simp only [opAdd, opSub, opMul, opDiv, Nat.reduceEqDiff] at hr
    simp only [show ¬((7 : Nat) = 9) from by decide, if_false,
      show ((7 : Nat) = 7) from rfl, if_true] at hr
    have hr' : ((y : Nat) : Int) + (x : Nat) = r := by rw [hr]; ring
    constructor <;> intro hcond <;>
      simp [VM.optimizeMaths, VM.mathsWalk, writeNop3, Length, readU16,
        putU16, ex, ey, hr', hcond, opPush, opNop, opDiv, opAdd, opSub,
        opMul, opEqual, opNotEqual, opConstant, opLookup, opSet, opCall,
        opArray, opHash, opIter, opJump, opJumpIfFalse, opReturn]
  · -- OpSub
    simp only [opAdd, opSub, opMul, opDiv] at hr
    simp only [show ¬((8 : Nat) = 9) from by decide,
      show ¬((8 : Nat) = 7) from by decide, if_false,
      show ((8 : Nat) = 8) from rfl, if_true] at hr
    have hr' : ((x : Nat) : Int) - (y : Nat) = r := hr.symm
    constructor <;> intro hcond <;>
      simp [VM.optimizeMaths, VM.mathsWalk, writeNop3, Length, readU16,
        putU16, ex, ey, hr', hcond, opPush, opNop, opDiv, opAdd, opSub,
        opMul, opEqual, opNotEqual, opConstant, opLookup, opSet, opCall,
        opArray, opHash, opIter, opJump, opJumpIfFalse, opReturn]
  · -- OpMul
    simp only [opAdd, opSub, opMul, opDiv] at hr
    simp only [show ((9 : Nat) = 9) from rfl, if_true] at hr
    have hr' : ((y : Nat) : Int) * (x : Nat) = r := by rw [hr]; ring
    constructor <;> intro hcond <;>
      simp [VM.optimizeMaths, VM.mathsWalk, writeNop3, Length, readU16,
        putU16, ex, ey, hr', hcond, opPush, opNop, opDiv, opAdd, opSub,
        opMul, opEqual, opNotEqual, opConstant, opLookup, opSet, opCall,
        opArray, opHash, opIter, opJump, opJumpIfFalse, opReturn]
  · -- OpDiv
    have hyz : y ≠ 0 := hdz rfl
    simp only [opAdd, opSub, opMul, opDiv] at hr
    simp only [show ¬((10 : Nat) = 9) from by decide,
      show ¬((10 : Nat) = 7) from by decide,
      show ¬((10 : Nat) = 8) from by decide, if_false] at hr
    have hr' : Int.tdiv (x : Nat) (y : Nat) = r := hr.symm
    constructor <;> intro hcond <;>
      simp [VM.optimizeMaths, VM.mathsWalk, writeNop3, Length, readU16,
        putU16, ex, ey, hr', hyz, hcond, opPush, opNop, opDiv, opAdd, opSub,
        opMul, opEqual, opNotEqual, opConstant, opLookup, opSet, opCall,
        opArray, opHash, opIter, opJump, opJumpIfFalse, opReturn]

/-- The NOP-filling loop of `VM.optimizeJumps` overwrites exactly the bytes
`i, i+1, …, target-1`. -/
theorem nopRange_eq (bc : List Nat) (i t : Nat) (hi : i ≤ t)
    (ht : t ≤ bc.length) :
    VM.nopRange bc i t = bc.take i ++ List.replicate (t - i) opNop ++
      bc.drop t := by
  obtain ⟨d, hd⟩ : ∃ d, t - i = d := ⟨t - i, rfl⟩
  induction d generalizing bc i with
  | zero =>
      have he : i = t := by omega
      subst he
      rw [VM.nopRange]
      simp [show ¬(i < i) from by omega, List.take_append_drop]
  | succ d ih =>
      have hlt : i < t := by omega
      have hlen : i < bc.length := by omega
      rw [VM.nopRange]
      simp only [hlt, if_true]
      rw [ih (bc.set i opNop) (i + 1) (by omega) (by simpa using ht)
        (by omega)]
      rw [List.drop_set_of_lt _ _ hlt]
      have hset : (bc.set i opNop).take (i + 1) = bc.take i ++ [opNop] := by
        rw [List.set_eq_take_cons_drop _ hlen]
        have hl : (bc.take i).length = i := by
          simp [List.length_take]; omega
        calc (bc.take i ++ opNop :: bc.drop (i + 1)).take (i + 1)
            = (bc.take i ++ opNop :: bc.drop (i + 1)).take
                ((bc.take i).length + 1) := by rw [hl]
          _ = bc.take i ++ (opNop :: bc.drop (i + 1)).take 1 := by
              rw [List.take_append]
          _ = bc.take i ++ [opNop] := by simp
      rw [hset]
      have hrep : (t - i) = d + 1 := by omega
      rw [hrep, show t - (i + 1) = d from by omega]
      simp [List.replicate_succ]

/-- C4 amended: per call, the jump-simplification walk rewrites the first
matching occurrence and stops (the driver loops until no change remains).
`OpTrue; OpJumpIfFalse T` becomes four NOP bytes in both implementations.
For `OpFalse; OpJumpIfFalse T` (with `T` ahead and inside the program) the
`vm`-package version overwrites the `OpFalse`, the jump and all intervening
bytes up to offset `T` with NOPs, while the `evalfilter`-package version
(the one `Prepare` runs) rewrites the pair to `OpNop; OpJump T`, keeping
the intervening bytes. -/
theorem claim_C4_amended (th tl : Nat) (S : List Nat)
    (ht : 4 ≤ 256 * th + tl) (hlen : 256 * th + tl ≤ 4 + S.length) :
    (Eval.optimizeJumps ([opTrue, opJumpIfFalse, th, tl] ++ S) =
      ([opNop, opNop, opNop, opNop] ++ S, true)) ∧
    (VM.optimizeJumps ([opTrue, opJumpIfFalse, th, tl] ++ S) =
      ([opNop, opNop, opNop, opNop] ++ S, true)) ∧
    (VM.optimizeJumps ([opFalse, opJumpIfFalse, th, tl] ++ S) =
      (List.replicate (256 * th + tl) opNop ++
        ([opFalse, opJumpIfFalse, th, tl] ++ S).drop (256 * th + tl),
        true)) ∧
    (Eval.optimizeJumps ([opFalse, opJumpIfFalse, th, tl] ++ S) =
      ([opNop, opJump, th, tl] ++ S, true)) := by
  refine ⟨?_, ?_, ?_, ?_⟩
  · simp [Eval.optimizeJumps, Eval.jumpsWalk, Length, readU16,
      opPush, opNop, opTrue, opFalse, opConstant, opLookup, opSet, opCall,
      opArray, opHash, opIter, opJump, opJumpIfFalse, opReturn]
  · simp [VM.optimizeJumps, VM.jumpsWalk, Length, readU16,
      opPush, opNop, opTrue, opFalse, opConstant, opLookup, opSet, opCall,
      opArray, opHash, opIter, opJump, opJumpIfFalse, opReturn]
  · have hr := nopRange_eq ([opFalse, opJumpIfFalse, th, tl] ++ S) 0
      (256 * th + tl) (by omega) (by simp; omega)
    simp only [List.take_zero, List.nil_append, Nat.sub_zero, opFalse,
      opJumpIfFalse, opNop, List.cons_append] at hr
    simp [VM.optimizeJumps, VM.jumpsWalk, Length, readU16, hr,
      opPush, opNop, opTrue, opFalse, opConstant, opLookup, opSet, opCall,
      opArray, opHash, opIter, opJump, opJumpIfFalse, opReturn]
  · simp [Eval.optimizeJumps, Eval.jumpsWalk, Length, readU16,
      opPush, opNop, opTrue, opFalse, opConstant, opLookup, opSet, opCall,
      opArray, opHash, opIter, opJump, opJumpIfFalse, opReturn]

/-- Witness for C4 amended at `T = 7` over a three-`OpTrue` body followed by
`OpReturn`. -/
theorem claim_C4_amended_witness :
    (Eval.optimizeJumps [opTrue, opJumpIfFalse, 0, 7, opTrue, opTrue,
        opTrue, opReturn] =
      ([opNop, opNop, opNop, opNop, opTrue, opTrue, opTrue, opReturn],
        true)) ∧
    (VM.optimizeJumps [opFalse, opJumpIfFalse, 0, 7, opTrue, opTrue,
        opTrue, opReturn] =
      ([opNop, opNop, opNop, opNop, opNop, opNop, opNop, opReturn],
        true)) := by
  have h := claim_C4_amended 0 7 [opTrue, opTrue, opTrue, opReturn]
    (by decide) (by simp)
  refine ⟨?_, ?_⟩
  · have h1 := h.1
    simpa using h1
  · have h3 := h.2.2.1
    simpa [List.replicate] using h3

/-- Witness for C3 amended: `2 + 3` folds in range; `10 - 20` falls outside
`[0, 65534]` and the bytecode is untouched. -/
theorem claim_C3_amended_witness :
    VM.optimizeMaths [opPush, 0, 2, opPush, 0, 3, opAdd, opReturn] =
      ([opNop, opNop, opNop, opPush, 0, 5, opNop, opReturn], true, none) ∧
    VM.optimizeMaths [opPush, 0, 10, opPush, 0, 20, opSub, opReturn] =
      ([opPush, 0, 10, opPush, 0, 20, opSub, opReturn], false, none) := by
  constructor
  · have h := (claim_C3_amended 2 3 opAdd 5 (by decide) (by decide)
      (Or.inl rfl) (by intro h; exact absurd h (by decide)) (by decide)).1
      (by decide)
    simpa using h
  · have h := (claim_C3_amended 10 20 opSub (-10) (by decide) (by decide)
      (Or.inr (Or.inl rfl)) (by intro h; exact absurd h (by decide))
      (by decide)).2 (by decide)
    simpa using h

/-! ## NOP-elision: phase-one characterisation -/

/-- Phase one of `removeNOPs` in terms of the pure walk functions: the
rebuilt bytecode is `elideOut` and the rewrite map is `elideTrace`. -/
theorem getD_norm (l : List Nat) (i d : Nat) : l[i]?.getD d = l.getD i d :=
  (List.getD_eq_getElem?_getD l i d).symm

theorem nopsElide_eq (bc : List Nat) (ip : Nat) (tmp : List Nat)
    (rw : List (Nat × Nat)) :
    nopsElide bc ip tmp rw =
      (tmp ++ elideOut bc ip, rw ++ elideTrace bc ip tmp.length) := by
  induction ip, tmp, rw using nopsElide.induct bc with
  | case1 ip tmp rw h hop ih =>
      rw [nopsElide, elideOut, elideTrace]
      simp only [getD_norm, dite_eq_ite] at ih
      simp only [dif_pos h, hop, if_pos rfl] at ih ⊢
      rw [ih]
      simp
  | case2 ip tmp rw h hop ih =>
      have hchunk :
          ((bc.getD ip 0) :: (if Length (bc.getD ip 0) > 1 then
            putU16 (readU16 bc (ip + 1)) else [])).length =
            Length (bc.getD ip 0) := by
        rcases Length_eq_one_or_three (bc.getD ip 0) with h1 | h3
        · rw [h1]
          simp [putU16]
        · rw [h3]
          simp [putU16]
      rw [nopsElide, elideOut, elideTrace]
      simp only [getD_norm, dite_eq_ite] at ih
      simp only [dif_pos h, if_neg hop] at ih ⊢
      rw [ih]
      simp only [List.length_append, hchunk, List.append_assoc]
      simp
  | case3 ip tmp rw h =>
      rw [nopsElide, elideOut, elideTrace]
      simp [h]

/-- The keys recorded by the elision walk are exactly the visited offsets. -/
theorem elideTrace_keys (bc : List Nat) (ip base : Nat) :
    (elideTrace bc ip base).map Prod.fst = walkOffsets bc ip := by
  induction ip, base using elideTrace.induct bc with
  | case1 ip base h hop ih =>
      rw [elideTrace, walkOffsets]
      simp only [getD_norm] at ih
      simp only [dif_pos h, hop, if_pos rfl] at ih ⊢
      simpa using ih
  | case2 ip base h hop ih =>
      rw [elideTrace, walkOffsets]
      simp only [getD_norm] at ih
      simp only [dif_pos h, if_neg hop] at ih ⊢
      simpa using ih
  | case3 ip base h =>
      rw [elideTrace, walkOffsets]
      simp [h]

/-- A key occurring among an association list's keys has a `lookup`. -/
theorem lookup_isSome_of_mem_keys {l : List (Nat × Nat)} {k : Nat}
    (h : k ∈ l.map Prod.fst) : (List.lookup k l).isSome := by
  induction l with
  | nil => simp at h
  | cons p l ih =>
      rcases p with ⟨a, b⟩
      simp only [List.map_cons, List.mem_cons] at h
      by_cases hk : k = a
      · simp [List.lookup, hk]
      · have hb : (k == a) = false := by simp [hk]
        rcases h with h | h
        · exact absurd h hk
        · simp only [List.lookup, hb]
          exact ih h

/-- C6 amended: in the `vm`-package pass a missing entry in the old-to-new
offset map aborts the pass with the bytecode left exactly as it was, and
the map has an entry for every visited offset (so the abort can only fire
for a target that is not an instruction boundary); the `evalfilter`-package
pass (see the counterexample) reads a missing mapping as 0 and installs the
rewritten program. -/
theorem claim_C6_amended (bc : List Nat) :
    (∀ tmp rw, nopsElide bc 0 [] [] = (tmp, rw) →
      VM.nopsPatch rw tmp 0 = none → VM.removeNOPs bc = bc) ∧
    (∀ t, t ∈ walkOffsets bc 0 →
      (List.lookup t (nopsElide bc 0 [] []).2).isSome) := by
  constructor
  · intro tmp rw he hp
    unfold VM.removeNOPs
    rw [he]
    by_cases hl : bc.length = tmp.length
    · simp [hl]
    · simp [hl, hp]
  · intro t ht
    rw [nopsElide_eq]
    simp only [List.nil_append, List.length_nil]
    apply lookup_isSome_of_mem_keys
    rw [elideTrace_keys]
    exact ht

/-- Witness for C6 amended: on `OpNop; OpJump 2` the `vm`-package pass
aborts (offset 2 is inside the jump's argument, so it has no mapping) and
leaves the bytecode unchanged; offset 0 is visited and mapped. -/
theorem claim_C6_amended_witness :
    VM.removeNOPs [opNop, opJump, 0, 2] = [opNop, opJump, 0, 2] ∧
    (List.lookup 0 (nopsElide [opNop, opJump, 0, 2] 0 [] []).2).isSome := by
  constructor
  · apply (claim_C6_amended [opNop, opJump, 0, 2]).1 [opJump, 0, 2]
      [(0, 0), (1, 0)]
    · rw [nopsElide_eq]
      simp [elideOut, elideTrace, putU16, Length, readU16, opNop, opJump,
        opPush, opConstant, opLookup, opSet, opCall, opArray, opHash, opIter,
        opJumpIfFalse, opReturn]
    · simp [VM.nopsPatch, Length, readU16, List.lookup, opNop, opJump,
        opPush, opConstant, opLookup, opSet, opCall, opArray, opHash, opIter,
        opJumpIfFalse, opReturn]
  · apply (claim_C6_amended [opNop, opJump, 0, 2]).2 0
    rw [walkOffsets]
    simp

/-! ## Walk-order and byte round-trip lemmas -/

theorem walkOffsets_cons (bc : List Nat) (ip : Nat) (h : ip < bc.length) :
    walkOffsets bc ip = ip :: walkOffsets bc (ip + Length (bc.getD ip 0)) := by
  rw [walkOffsets]
  simp [h]

theorem walkOffsets_nil (bc : List Nat) (ip : Nat) (h : ¬ ip < bc.length) :
    walkOffsets bc ip = [] := by
  rw [walkOffsets]
  simp [h]

/-- Every visited offset lies at or after the walk's start. -/
theorem walkOffsets_ge (bc : List Nat) :
    ∀ ip q, q ∈ walkOffsets bc ip → ip ≤ q := by
  intro ip
  induction ip using walkOffsets.induct bc with
  | case1 ip h ih =>
      intro q hq
      rw [walkOffsets_cons bc ip h] at hq
      rcases List.mem_cons.mp hq with rfl | hq
      · exact le_refl _
      · have := ih q hq
        have hL := Length_pos (bc.getD ip 0)
        omega
  | case2 ip h =>
      intro q hq
      rw [walkOffsets_nil bc ip h] at hq
      simp at hq

/-- One step of the alignment invariant. -/
theorem alignedB_step (bc : List Nat) (ip : Nat)
    (hA : alignedB bc ip = true) (h : ip < bc.length) :
    ip + Length (bc.getD ip 0) ≤ bc.length ∧
      alignedB bc (ip + Length (bc.getD ip 0)) = true := by
  rw [alignedB] at hA
  simp only [dif_pos h, Bool.and_eq_true, decide_eq_true_eq] at hA
  exact hA

theorem byte_lt (bc : List Nat) (hB : Bytes bc) (i : Nat)
    (h : i < bc.length) : bc.getD i 0 < 256 := by
  rw [List.getD_eq_getElem bc 0 h]
  exact hB _ (List.getElem_mem h)

/-- The byte chunk the rebuild walks append (opcode plus re-encoded
argument) is exactly the original instruction's bytes. -/
theorem chunk_eq_take (bc : List Nat) (hB : Bytes bc) (ip : Nat)
    (h : ip < bc.length) (hlen : ip + Length (bc.getD ip 0) ≤ bc.length) :
    (bc.getD ip 0 :: (if Length (bc.getD ip 0) > 1 then
        putU16 (readU16 bc (ip + 1)) else [])) =
      (bc.drop ip).take (Length (bc.getD ip 0)) := by
  rcases Length_eq_one_or_three (bc.getD ip 0) with h1 | h3
  · rw [h1]
    simp only [show ¬((1 : Nat) > 1) from by omega, if_false]
    rw [List.getD_eq_getElem bc 0 h]
    rw [List.drop_eq_getElem_cons h]
    rfl
  · rw [h3]
    have h1lt : ip + 1 < bc.length := by omega
    have h2lt : ip + 2 < bc.length := by omega
    have hb1 := byte_lt bc hB (ip + 1) h1lt
    have hb2 := byte_lt bc hB (ip + 2) h2lt
    rw [List.getD_eq_getElem bc 0 h1lt] at hb1
    rw [List.getD_eq_getElem bc 0 h2lt] at hb2
    have hput : putU16 (readU16 bc (ip + 1)) = [bc[ip + 1], bc[ip + 2]] := by
      simp only [putU16, readU16, List.getD_eq_getElem bc 0 h1lt,
        List.getD_eq_getElem bc 0 h2lt]
      rw [show (256 * bc[ip + 1] + bc[ip + 2]) / 256 % 256 = bc[ip + 1]
          from by omega,
        show (256 * bc[ip + 1] + bc[ip + 2]) % 256 = bc[ip + 2]
          from by omega]
    rw [hput, List.getD_eq_getElem bc 0 h]
    rw [List.drop_eq_getElem_cons h]
    rw [List.drop_eq_getElem_cons h1lt]
    rw [List.drop_eq_getElem_cons h2lt]
    rfl

/-! ## Dead-code truncation: the walk characterised -/

/-- An offset whose opcode neither returns nor jumps. -/
def CleanAt (bc : List Nat) (q : Nat) : Prop :=
  bc.getD q 0 ≠ opReturn ∧ bc.getD q 0 ≠ opJump ∧ bc.getD q 0 ≠ opJumpIfFalse

/-- `Eval.removeDeadCode`'s walk when the first stopper is a return. -/
theorem deadWalkE_ret (bc : List Nat) (hB : Bytes bc) (p : Nat)
    (hret : bc.getD p 0 = opReturn) :
    ∀ ip tmp, alignedB bc ip = true → p ∈ walkOffsets bc ip →
      (∀ q ∈ walkOffsets bc ip, q < p → CleanAt bc q) →
      Eval.deadWalk bc ip tmp =
        some (tmp ++ (bc.drop ip).take (p + 1 - ip)) := by
  intro ip tmp
  induction ip, tmp using Eval.deadWalk.induct bc with
  | case1 ip tmp h hj =>
      intro hA hp hclean
      exfalso
      have hge := walkOffsets_ge bc ip p hp
      rcases Nat.lt_or_ge ip p with hlt | hge2
      · have hc := hclean ip
          (by rw [walkOffsets_cons bc ip h]; exact List.mem_cons_self _ _) hlt
        rcases hj with hj | hj
        · exact hc.2.2 hj
        · exact hc.2.1 hj
      · have : ip = p := by omega
        subst this
        rcases hj with hj | hj <;> rw [hret] at hj <;>
          simp [opReturn, opJumpIfFalse, opJump] at hj
  | case2 ip tmp h hj hr =>
      intro hA hp hclean
      have hge := walkOffsets_ge bc ip p hp
      have hip : ip = p := by
        rcases Nat.lt_or_ge ip p with hlt | hge2
        · have hc := hclean ip
            (by rw [walkOffsets_cons bc ip h]; exact List.mem_cons_self _ _)
            hlt
          exact absurd hr hc.1
        · omega
      subst hip
      have ht : (bc.drop ip).take (ip + 1 - ip) = [opReturn] := by
        rw [show ip + 1 - ip = 1 from by omega]
        rw [List.drop_eq_getElem_cons h]
        simp only [List.take_succ_cons, List.take_zero]
        rw [← List.getD_eq_getElem bc 0 h, hr]
      rw [ht]
      conv_lhs => rw [Eval.deadWalk]
      simp only [dif_pos h, if_neg hj, if_pos hr]
  | case3 ip tmp h hj hr ih =>
      intro hA hp hclean
      obtain ⟨hlen, hA2⟩ := alignedB_step bc ip hA h
      have hip : ip ≠ p := by
        intro he
        subst he
        exact hr hret
      have hp2 : p ∈ walkOffsets bc (ip + Length (bc.getD ip 0)) := by
        rw [walkOffsets_cons bc ip h] at hp
        rcases List.mem_cons.mp hp with he | hm
        · exact absurd he.symm hip
        · exact hm
      have hclean2 : ∀ q ∈ walkOffsets bc (ip + Length (bc.getD ip 0)),
          q < p → CleanAt bc q := by
        intro q hq hql
        exact hclean q
          (by rw [walkOffsets_cons bc ip h]
              exact List.mem_cons_of_mem _ hq) hql
      simp only [dite_eq_ite] at ih
      conv_lhs => rw [Eval.deadWalk]
      simp only [dif_pos h, if_neg hj, if_neg hr]
      rw [ih hA2 hp2 hclean2]
      have hgp := walkOffsets_ge bc _ p hp2
      rw [chunk_eq_take bc hB ip h hlen]
      have hsplit : (bc.drop ip).take (p + 1 - ip) =
          (bc.drop ip).take (Length (bc.getD ip 0)) ++
            (bc.drop (ip + Length (bc.getD ip 0))).take
              (p + 1 - (ip + Length (bc.getD ip 0))) := by
        rw [show p + 1 - ip =
          Length (bc.getD ip 0) + (p + 1 - (ip + Length (bc.getD ip 0)))
          from by omega]
        rw [List.take_add]
        rw [List.drop_drop] <;>
          rw [Nat.add_comm (Length (bc.getD ip 0)) ip]
      rw [hsplit]
      simp
  | case4 ip tmp h =>
      intro hA hp hclean
      rw [walkOffsets_nil bc ip h] at hp
      simp at hp

/-- `VM.removeDeadCode`'s walk when the first stopper is a return: it\nstops at the same place with the same rebuilt program. -/
theorem deadWalkV_ret (bc : List Nat) (hB : Bytes bc) (p : Nat)
    (hret : bc.getD p 0 = opReturn) :
    ∀ ip tmp, alignedB bc ip = true → p ∈ walkOffsets bc ip →
      (∀ q ∈ walkOffsets bc ip, q < p → CleanAt bc q) →
      VM.deadWalk bc ip tmp =
        some (tmp ++ (bc.drop ip).take (p + 1 - ip)) := by
  intro ip tmp
  induction ip, tmp using VM.deadWalk.induct bc with
  | case1 ip tmp h hj =>
      intro hA hp hclean
      exfalso
      have hge := walkOffsets_ge bc ip p hp
      rcases Nat.lt_or_ge ip p with hlt | hge2
      · have hc := hclean ip
          (by rw [walkOffsets_cons bc ip h]; exact List.mem_cons_self _ _) hlt
        rcases hj with hj | hj
        · exact hc.2.2 hj
        · exact hc.2.1 hj
      · have : ip = p := by omega
        subst this
        rcases hj with hj | hj <;> rw [hret] at hj <;>
          simp [opReturn, opJumpIfFalse, opJump] at hj
  | case2 ip tmp h hj hr =>
      intro hA hp hclean
      have hge := walkOffsets_ge bc ip p hp
      have hip : ip = p := by
        rcases Nat.lt_or_ge ip p with hlt | hge2
        · have hc := hclean ip
            (by rw [walkOffsets_cons bc ip h]; exact List.mem_cons_self _ _)
            hlt
          exact absurd hr hc.1
        · omega
      subst hip
      have ht : (bc.drop ip).take (ip + 1 - ip) = [opReturn] := by
        rw [show ip + 1 - ip = 1 from by omega]
        rw [List.drop_eq_getElem_cons h]
        simp only [List.take_succ_cons, List.take_zero]
        rw [← List.getD_eq_getElem bc 0 h, hr]
      rw [ht]
      conv_lhs => rw [VM.deadWalk]
      simp only [dif_pos h, if_neg hj, if_pos hr]
  | case3 ip tmp h hj hr ih =>
      intro hA hp hclean
      obtain ⟨hlen, hA2⟩ := alignedB_step bc ip hA h
      have hip : ip ≠ p := by
        intro he
        subst he
        exact hr hret
      have hp2 : p ∈ walkOffsets bc (ip + Length (bc.getD ip 0)) := by
        rw [walkOffsets_cons bc ip h] at hp
        rcases List.mem_cons.mp hp with he | hm
        · exact absurd he.symm hip
        · exact hm
      have hclean2 : ∀ q ∈ walkOffsets bc (ip + Length (bc.getD ip 0)),
          q < p → CleanAt bc q := by
        intro q hq hql
        exact hclean q
          (by rw [walkOffsets_cons bc ip h]
              exact List.mem_cons_of_mem _ hq) hql
      simp only [dite_eq_ite] at ih
      conv_lhs => rw [VM.deadWalk]
      simp only [dif_pos h, if_neg hj, if_neg hr]
      rw [ih hA2 hp2 hclean2]
      have hgp := walkOffsets_ge bc _ p hp2
      rw [chunk_eq_take bc hB ip h hlen]
      have hsplit : (bc.drop ip).take (p + 1 - ip) =
          (bc.drop ip).take (Length (bc.getD ip 0)) ++
            (bc.drop (ip + Length (bc.getD ip 0))).take
              (p + 1 - (ip + Length (bc.getD ip 0))) := by
        rw [show p + 1 - ip =
          Length (bc.getD ip 0) + (p + 1 - (ip + Length (bc.getD ip 0)))
          from by omega]
        rw [List.take_add]
        rw [List.drop_drop] <;>
          rw [Nat.add_comm (Length (bc.getD ip 0)) ip]
      rw [hsplit]
      simp
  | case4 ip tmp h =>
      intro hA hp hclean
      rw [walkOffsets_nil bc ip h] at hp
      simp at hp

/-- `Eval.removeDeadCode`'s walk when the first stopper is a jump. -/
theorem deadWalkE_jump (bc : List Nat) (j : Nat)
    (hjmp : bc.getD j 0 = opJump ∨ bc.getD j 0 = opJumpIfFalse) :
    ∀ ip tmp, j ∈ walkOffsets bc ip →
      (∀ q ∈ walkOffsets bc ip, q < j → CleanAt bc q) →
      Eval.deadWalk bc ip tmp = none := by
  intro ip tmp
  induction ip, tmp using Eval.deadWalk.induct bc with
  | case1 ip tmp h hj =>
      intro hp hclean
      conv_lhs => rw [Eval.deadWalk]
      simp only [dif_pos h, if_pos hj]
  | case2 ip tmp h hj hr =>
      intro hp hclean
      exfalso
      have hge := walkOffsets_ge bc ip j hp
      rcases Nat.lt_or_ge ip j with hlt | hge2
      · exact (hclean ip
          (by rw [walkOffsets_cons bc ip h]; exact List.mem_cons_self _ _)
          hlt).1 hr
      · have : ip = j := by omega
        subst this
        rcases hjmp with hj2 | hj2 <;> rw [hr] at hj2 <;>
          simp [opReturn, opJumpIfFalse, opJump] at hj2
  | case3 ip tmp h hj hr ih =>
      intro hp hclean
      have hip : ip ≠ j := by
        intro he
        subst he
        rcases hjmp with hj2 | hj2
        · exact hj (Or.inr hj2)
        · exact hj (Or.inl hj2)
      have hp2 : j ∈ walkOffsets bc (ip + Length (bc.getD ip 0)) := by
        rw [walkOffsets_cons bc ip h] at hp
        rcases List.mem_cons.mp hp with he | hm
        · exact absurd he.symm hip
        · exact hm
      have hclean2 : ∀ q ∈ walkOffsets bc (ip + Length (bc.getD ip 0)),
          q < j → CleanAt bc q := by
        intro q hq hql
        exact hclean q
          (by rw [walkOffsets_cons bc ip h]
              exact List.mem_cons_of_mem _ hq) hql
      conv_lhs => rw [Eval.deadWalk]
      simp only [dif_pos h, if_neg hj, if_neg hr]
      simp only [dite_eq_ite] at ih
      exact ih hp2 hclean2
  | case4 ip tmp h =>
      intro hp hclean
      rw [walkOffsets_nil bc ip h] at hp
      simp at hp

/-- `VM.removeDeadCode`'s walk when the first stopper is a jump. -/
theorem deadWalkV_jump (bc : List Nat) (j : Nat)
    (hjmp : bc.getD j 0 = opJump ∨ bc.getD j 0 = opJumpIfFalse) :
    ∀ ip tmp, j ∈ walkOffsets bc ip →
      (∀ q ∈ walkOffsets bc ip, q < j → CleanAt bc q) →
      VM.deadWalk bc ip tmp = none := by
  intro ip tmp
  induction ip, tmp using VM.deadWalk.induct bc with
  | case1 ip tmp h hj =>
      intro hp hclean
      conv_lhs => rw [VM.deadWalk]
      simp only [dif_pos h, if_pos hj]
  | case2 ip tmp h hj hr =>
      intro hp hclean
      exfalso
      have hge := walkOffsets_ge bc ip j hp
      rcases Nat.lt_or_ge ip j with hlt | hge2
      · exact (hclean ip
          (by rw [walkOffsets_cons bc ip h]; exact List.mem_cons_self _ _)
          hlt).1 hr
      · have : ip = j := by omega
        subst this
        rcases hjmp with hj2 | hj2 <;> rw [hr] at hj2 <;>
          simp [opReturn, opJumpIfFalse, opJump] at hj2
  | case3 ip tmp h hj hr ih =>
      intro hp hclean
      have hip : ip ≠ j := by
        intro he
        subst he
        rcases hjmp with hj2 | hj2
        · exact hj (Or.inr hj2)
        · exact hj (Or.inl hj2)
      have hp2 : j ∈ walkOffsets bc (ip + Length (bc.getD ip 0)) := by
        rw [walkOffsets_cons bc ip h] at hp
        rcases List.mem_cons.mp hp with he | hm
        · exact absurd he.symm hip
        · exact hm
      have hclean2 : ∀ q ∈ walkOffsets bc (ip + Length (bc.getD ip 0)),
          q < j → CleanAt bc q := by
        intro q hq hql
        exact hclean q
          (by rw [walkOffsets_cons bc ip h]
              exact List.mem_cons_of_mem _ hq) hql
      conv_lhs => rw [VM.deadWalk]
      simp only [dif_pos h, if_neg hj, if_neg hr]
      simp only [dite_eq_ite] at ih
      exact ih hp2 hclean2
  | case4 ip tmp h =>
      intro hp hclean
      rw [walkOffsets_nil bc ip h] at hp
      simp at hp

/-- `Eval.removeDeadCode`'s walk with no stopper at all: the program is
copied byte for byte. -/
theorem deadWalkE_none (bc : List Nat) (hB : Bytes bc) :
    ∀ ip tmp, alignedB bc ip = true →
      (∀ q ∈ walkOffsets bc ip, CleanAt bc q) →
      Eval.deadWalk bc ip tmp = some (tmp ++ bc.drop ip) := by
  intro ip tmp
  induction ip, tmp using Eval.deadWalk.induct bc with
  | case1 ip tmp h hj =>
      intro hA hclean
      exfalso
      have hc := hclean ip
        (by rw [walkOffsets_cons bc ip h]; exact List.mem_cons_self _ _)
      rcases hj with hj | hj
      · exact hc.2.2 hj
      · exact hc.2.1 hj
  | case2 ip tmp h hj hr =>
      intro hA hclean
      exact absurd hr (hclean ip
        (by rw [walkOffsets_cons bc ip h]; exact List.mem_cons_self _ _)).1
  | case3 ip tmp h hj hr ih =>
      intro hA hclean
      obtain ⟨hlen, hA2⟩ := alignedB_step bc ip hA h
      have hclean2 : ∀ q ∈ walkOffsets bc (ip + Length (bc.getD ip 0)),
          CleanAt bc q := by
        intro q hq
        exact hclean q
          (by rw [walkOffsets_cons bc ip h]
              exact List.mem_cons_of_mem _ hq)
      simp only [dite_eq_ite] at ih
      conv_lhs => rw [Eval.deadWalk]
      simp only [dif_pos h, if_neg hj, if_neg hr]
      rw [ih hA2 hclean2]
      rw [chunk_eq_take bc hB ip h hlen]
      have hds : bc.drop ip =
          (bc.drop ip).take (Length (bc.getD ip 0)) ++
            bc.drop (ip + Length (bc.getD ip 0)) := by
        conv_lhs => rw [← List.take_append_drop (Length (bc.getD ip 0))
          (bc.drop ip)]
        rw [List.drop_drop] <;>
          rw [Nat.add_comm (Length (bc.getD ip 0)) ip]
      conv_rhs => rw [hds]
      simp
  | case4 ip tmp h =>
      intro hA hclean
      conv_lhs => rw [Eval.deadWalk]
      rw [dif_neg h, List.drop_eq_nil_of_le
        (show bc.length ≤ ip from by omega)] <;> simp

/-- `VM.removeDeadCode`'s walk with no stopper at all: no return was seen,
so nothing is installed. -/
theorem deadWalkV_none (bc : List Nat) :
    ∀ ip tmp, (∀ q ∈ walkOffsets bc ip, CleanAt bc q) →
      VM.deadWalk bc ip tmp = none := by
  intro ip tmp
  induction ip, tmp using VM.deadWalk.induct bc with
  | case1 ip tmp h hj =>
      intro hclean
      exfalso
      have hc := hclean ip
        (by rw [walkOffsets_cons bc ip h]; exact List.mem_cons_self _ _)
      rcases hj with hj | hj
      · exact hc.2.2 hj
      · exact hc.2.1 hj
  | case2 ip tmp h hj hr =>
      intro hclean
      exact absurd hr (hclean ip
        (by rw [walkOffsets_cons bc ip h]; exact List.mem_cons_self _ _)).1
  | case3 ip tmp h hj hr ih =>
      intro hclean
      have hclean2 : ∀ q ∈ walkOffsets bc (ip + Length (bc.getD ip 0)),
          CleanAt bc q := by
        intro q hq
        exact hclean q
          (by rw [walkOffsets_cons bc ip h]
              exact List.mem_cons_of_mem _ hq)
      simp only [dite_eq_ite] at ih
      conv_lhs => rw [VM.deadWalk]
      simp only [dif_pos h, if_neg hj, if_neg hr]
      exact ih hclean2
  | case4 ip tmp h =>
      intro hclean
      conv_lhs => rw [VM.deadWalk]
      rw [dif_neg h]

/-- C7: both dead-code-truncation passes remove everything after the first
`OpReturn` exactly when no `OpJump`/`OpJumpIfFalse` occurs before it: if the
first stopping opcode on the walk is a return at offset `p`, the bytecode
becomes its first `p+1` bytes; if any jump appears before the first return
the bytecode is left unchanged; and with neither return nor jump present it
is also left unchanged. -/
theorem claim_C7_dead_code (bc : List Nat) (hB : Bytes bc)
    (hA : alignedB bc 0 = true) :
    (∀ p, p ∈ walkOffsets bc 0 → bc.getD p 0 = opReturn →
      (∀ q ∈ walkOffsets bc 0, q < p → CleanAt bc q) →
      Eval.removeDeadCode bc = bc.take (p + 1) ∧
      VM.removeDeadCode bc = bc.take (p + 1)) ∧
    (∀ j, j ∈ walkOffsets bc 0 →
      (bc.getD j 0 = opJump ∨ bc.getD j 0 = opJumpIfFalse) →
      (∀ q ∈ walkOffsets bc 0, q < j → CleanAt bc q) →
      Eval.removeDeadCode bc = bc ∧ VM.removeDeadCode bc = bc) ∧
    ((∀ q ∈ walkOffsets bc 0, CleanAt bc q) →
      Eval.removeDeadCode bc = bc ∧ VM.removeDeadCode bc = bc) := by
  refine ⟨?_, ?_, ?_⟩
  · intro p hp hret hclean
    constructor
    · unfold Eval.removeDeadCode
      rw [deadWalkE_ret bc hB p hret 0 [] hA hp hclean]
      simp
    · unfold VM.removeDeadCode
      rw [deadWalkV_ret bc hB p hret 0 [] hA hp hclean]
      simp
  · intro j hj hjmp hclean
    constructor
    · unfold Eval.removeDeadCode
      rw [deadWalkE_jump bc j hjmp 0 [] hj hclean]
      rfl
    · unfold VM.removeDeadCode
      rw [deadWalkV_jump bc j hjmp 0 [] hj hclean]
      rfl
  · intro hclean
    constructor
    · unfold Eval.removeDeadCode
      rw [deadWalkE_none bc hB 0 [] hA hclean]
      simp
    · unfold VM.removeDeadCode
      rw [deadWalkV_none bc 0 [] hclean]
      rfl

/-- Witness for C7: `OpTrue; OpReturn; OpTrue` (unreachable tail, no jump)
is truncated after the return by both passes, while
`OpJump 4; OpReturn; OpReturn` (a forward jump over a return) is left
unchanged. -/
theorem claim_C7_dead_code_witness :
    (Eval.removeDeadCode [opTrue, opReturn, opTrue] = [opTrue, opReturn] ∧
      VM.removeDeadCode [opTrue, opReturn, opTrue] = [opTrue, opReturn]) ∧
    (Eval.removeDeadCode [opJump, 0, 4, opReturn, opReturn] =
        [opJump, 0, 4, opReturn, opReturn] ∧
      VM.removeDeadCode [opJump, 0, 4, opReturn, opReturn] =
        [opJump, 0, 4, opReturn, opReturn]) := by
  have hw1 : walkOffsets [opTrue, opReturn, opTrue] 0 = [0, 1, 2] := by
    simp [walkOffsets, Length, opTrue, opReturn, opPush, opConstant,
      opLookup, opSet, opCall, opArray, opHash, opIter, opJump,
      opJumpIfFalse]
  have hw2 : walkOffsets [opJump, 0, 4, opReturn, opReturn] 0 = [0, 3, 4] := by
    simp [walkOffsets, Length, opTrue, opReturn, opPush, opConstant,
      opLookup, opSet, opCall, opArray, opHash, opIter, opJump,
      opJumpIfFalse]
  constructor
  · have h := (claim_C7_dead_code [opTrue, opReturn, opTrue]
      (by intro b hb; fin_cases hb <;> simp [opTrue, opReturn])
      (by simp [alignedB, Length, opTrue, opReturn, opPush, opConstant,
        opLookup, opSet, opCall, opArray, opHash, opIter, opJump,
        opJumpIfFalse])).1 1
      (by rw [hw1]; simp)
      (by simp [opReturn])
      (by intro q hq hql
          rw [hw1] at hq
          simp at hq
          rcases hq with rfl | rfl | rfl
          · exact ⟨by decide, by decide, by decide⟩
          · omega
          · omega)
    simpa using h
  · have h := (claim_C7_dead_code [opJump, 0, 4, opReturn, opReturn]
      (by intro b hb; fin_cases hb <;> simp [opJump, opReturn])
      (by simp [alignedB, Length, opTrue, opReturn, opPush, opConstant,
        opLookup, opSet, opCall, opArray, opHash, opIter, opJump,
        opJumpIfFalse])).2.1 0
      (by rw [hw2]; simp)
      (by simp [opJump])
      (by intro q hq hql; omega)
    simpa using h

/-! ## NOP elision: structure of the rebuilt program -/

theorem getD_append_right (l r : List Nat) (k d : Nat) :
    (l ++ r).getD (l.length + k) d = r.getD k d := by
  simp [List.getD_eq_getElem?_getD, List.getElem?_append_right]

theorem getD_append_left (l r : List Nat) (i d : Nat) (h : i < l.length) :
    (l ++ r).getD i d = l.getD i d := by
  simp [List.getD_eq_getElem?_getD, List.getElem?_append, h]

theorem getD_drop (l : List Nat) (k j d : Nat) :
    (l.drop k).getD j d = l.getD (k + j) d := by
  simp [List.getD_eq_getElem?_getD, List.getElem?_drop]

theorem lookup_cons (k a b : Nat) (l : List (Nat × Nat)) :
    List.lookup k ((a, b) :: l) =
      if k = a then some b else List.lookup k l := by
  simp [List.lookup]
  split <;> simp_all

theorem getD_lt_256 (bc : List Nat) (hB : Bytes bc) (i : Nat) :
    bc.getD i 0 < 256 := by
  by_cases h : i < bc.length
  · exact byte_lt bc hB i h
  · rw [List.getD_eq_default _ _ (by omega)]
    omega

theorem readU16_lt (bc : List Nat) (hB : Bytes bc) (i : Nat) :
    readU16 bc i < 65536 := by
  have h1 := getD_lt_256 bc hB i
  have h2 := getD_lt_256 bc hB (i + 1)
  unfold readU16
  omega

/-- The chunk an elision-style walk appends always has the instruction's
declared length. -/
theorem chunkLen (op arg : Nat) :
    (op :: (if Length op > 1 then putU16 arg else [])).length = Length op := by
  rcases Length_eq_one_or_three op with h1 | h3
  · rw [h1]
    simp [putU16]
  · rw [h3]
    simp [putU16]

/-- Walking an appended program past its prefix is the shifted walk of the
suffix. -/
theorem walkOffsets_shift (pre rest : List Nat) :
    ∀ k, walkOffsets (pre ++ rest) (pre.length + k) =
      (walkOffsets rest k).map (pre.length + ·) := by
  intro k
  induction k using walkOffsets.induct rest with
  | case1 k h ih =>
      have hg : (pre ++ rest).getD (pre.length + k) 0 = rest.getD k 0 :=
        getD_append_right pre rest k 0
      rw [walkOffsets_cons rest k h,
        walkOffsets_cons (pre ++ rest) (pre.length + k)
          (by simp; omega)]
      rw [hg]
      simp only [List.map_cons]
      rw [show pre.length + k + Length (rest.getD k 0) =
        pre.length + (k + Length (rest.getD k 0)) from by omega]
      rw [ih]
  | case2 k h =>
      rw [walkOffsets_nil rest k h,
        walkOffsets_nil (pre ++ rest) (pre.length + k) (by simp; omega)]
      simp

/-- Alignment of an appended program past its prefix reduces to alignment of
the suffix. -/
theorem alignedB_shift (pre rest : List Nat) :
    ∀ k, alignedB (pre ++ rest) (pre.length + k) = alignedB rest k := by
  intro k
  induction k using alignedB.induct rest with
  | case1 k h ih =>
      have hlt : pre.length + k < (pre ++ rest).length := by
        simp
        omega
      have hg : (pre ++ rest).getD (pre.length + k) 0 = rest.getD k 0 :=
        getD_append_right pre rest k 0
      conv_lhs => rw [alignedB]
      conv_rhs => rw [alignedB]
      rw [dif_pos hlt, dif_pos h, hg]
      rw [show pre.length + k + Length (rest.getD k 0) =
        pre.length + (k + Length (rest.getD k 0)) from by omega]
      rw [ih]
      have he : decide (pre.length + (k + Length (rest.getD k 0)) ≤
          (pre ++ rest).length) =
          decide (k + Length (rest.getD k 0) ≤ rest.length) := by
        simp only [decide_eq_decide, List.length_append]
        omega
      rw [he]
  | case2 k h =>
      have hge : ¬ pre.length + k < (pre ++ rest).length := by
        simp
        omega
      conv_lhs => rw [alignedB]
      conv_rhs => rw [alignedB]
      rw [dif_neg hge, dif_neg h]

/-- Prepending one well-formed instruction chunk preserves the absence of
`OpNop` at instruction boundaries. -/
theorem no_nop_chunk_append (chunk rest : List Nat) (op : Nat)
    (hhd : chunk.getD 0 0 = op) (hlen : chunk.length = Length op)
    (hop : op ≠ opNop)
    (hrest : ∀ q ∈ walkOffsets rest 0, rest.getD q 0 ≠ opNop) :
    ∀ q ∈ walkOffsets (chunk ++ rest) 0,
      (chunk ++ rest).getD q 0 ≠ opNop := by
  have hpos : 0 < chunk.length := by
    rw [hlen]
    exact Length_pos op
  have hg0 : (chunk ++ rest).getD 0 0 = op := by
    rw [getD_append_left _ _ 0 0 hpos, hhd]
  intro q hq
  rw [walkOffsets_cons _ 0 (by simp; omega)] at hq
  rw [hg0] at hq
  rw [show 0 + Length op = chunk.length + 0 from by omega] at hq
  rw [walkOffsets_shift chunk rest 0] at hq
  rcases List.mem_cons.mp hq with rfl | hm
  · rw [hg0]
    exact hop
  · rcases List.mem_map.mp hm with ⟨q2, hq2, rfl⟩
    rw [getD_append_right]
    exact hrest q2 hq2

/-- Prepending one well-formed instruction chunk preserves alignment. -/
theorem aligned_chunk_append (chunk rest : List Nat) (op : Nat)
    (hhd : chunk.getD 0 0 = op) (hlen : chunk.length = Length op)
    (hrest : alignedB rest 0 = true) :
    alignedB (chunk ++ rest) 0 = true := by
  have hpos : 0 < chunk.length := by
    rw [hlen]
    exact Length_pos op
  have hg0 : (chunk ++ rest).getD 0 0 = op := by
    rw [getD_append_left _ _ 0 0 hpos, hhd]
  conv_lhs => rw [alignedB]
  rw [dif_pos (by simp; omega), hg0]
  rw [show 0 + Length op = chunk.length + 0 from by omega]
  rw [alignedB_shift chunk rest 0]
  simp [hrest]

/-- The rebuilt (NOP-free) program never carries `OpNop` at an instruction
boundary. -/
theorem elideOut_no_nop (bc : List Nat) :
    ∀ ip, ∀ q ∈ walkOffsets (elideOut bc ip) 0,
      (elideOut bc ip).getD q 0 ≠ opNop := by
  intro ip
  induction ip using elideOut.induct bc with
  | case1 ip h hop ih =>
      have he : elideOut bc ip = elideOut bc (ip + Length (bc.getD ip 0)) := by
        rw [elideOut]
        simp only [dif_pos h, if_pos hop]
      rw [he]
      exact ih
  | case2 ip h hop ih =>
      have he : elideOut bc ip =
          (bc.getD ip 0 :: (if Length (bc.getD ip 0) > 1 then
            putU16 (readU16 bc (ip + 1)) else [])) ++
            elideOut bc (ip + Length (bc.getD ip 0)) := by
        rw [elideOut]
        simp only [dif_pos h, if_neg hop]
      rw [he]
      exact no_nop_chunk_append _ _ (bc.getD ip 0) rfl
        (chunkLen _ _) hop ih
  | case3 ip h =>
      have he : elideOut bc ip = [] := by
        rw [elideOut]
        simp [h]
      rw [he]
      intro q hq
      rw [walkOffsets_nil [] 0 (by simp)] at hq
      simp at hq

/-- The rebuilt program is instruction-aligned. -/
theorem elideOut_aligned (bc : List Nat) :
    ∀ ip, alignedB (elideOut bc ip) 0 = true := by
  intro ip
  induction ip using elideOut.induct bc with
  | case1 ip h hop ih =>
      have he : elideOut bc ip = elideOut bc (ip + Length (bc.getD ip 0)) := by
        rw [elideOut]
        simp only [dif_pos h, if_pos hop]
      rw [he]
      exact ih
  | case2 ip h hop ih =>
      have he : elideOut bc ip =
          (bc.getD ip 0 :: (if Length (bc.getD ip 0) > 1 then
            putU16 (readU16 bc (ip + 1)) else [])) ++
            elideOut bc (ip + Length (bc.getD ip 0)) := by
        rw [elideOut]
        simp only [dif_pos h, if_neg hop]
      rw [he]
      exact aligned_chunk_append _ _ (bc.getD ip 0) rfl (chunkLen _ _) ih
  | case3 ip h =>
      have he : elideOut bc ip = [] := by
        rw [elideOut]
        simp [h]
      rw [he]
      rw [alignedB]
      simp

theorem getD_set_ne (l : List Nat) (i v j d : Nat) (h : i ≠ j) :
    (l.set i v).getD j d = l.getD j d := by
  simp [List.getD_eq_getElem?_getD, List.getElem?_set, h]

theorem getD_set_eq (l : List Nat) (i v d : Nat) (h : i < l.length) :
    (l.set i v).getD i d = v := by
  simp [List.getD_eq_getElem?_getD, List.getElem?_set, h]

theorem drop_append_len (l r : List Nat) (n : Nat) :
    (l ++ r).drop (l.length + n) = r.drop n := by
  induction l with
  | nil => simp
  | cons a l ih =>
      rw [List.cons_append, List.length_cons]
      rw [show l.length + 1 + n = (l.length + n) + 1 from by omega]
      rw [List.drop_succ_cons]
      exact ih

theorem drop_sub_append (l r : List Nat) (b : Nat) (h : b ≤ r.length) :
    (l ++ r).drop ((l ++ r).length - b) = r.drop (r.length - b) := by
  rw [List.length_append]
  rw [show l.length + r.length - b = l.length + (r.length - b) from by omega]
  exact drop_append_len l r (r.length - b)

theorem lookup_eq_none_of_not_mem_keys {l : List (Nat × Nat)} {k : Nat}
    (h : ¬ k ∈ l.map Prod.fst) : List.lookup k l = none := by
  induction l with
  | nil => rfl
  | cons p l ih =>
      rcases p with ⟨a, b⟩
      simp only [List.map_cons, List.mem_cons, not_or] at h
      have hb : (k == a) = false := by simp [h.1]
      simp only [List.lookup, hb]
      exact ih h.2

theorem Length_nop : Length opNop = 1 := by decide

theorem Length_jump : Length opJump = 3 := by decide

theorem Length_jumpIfFalse : Length opJumpIfFalse = 3 := by decide

/-! Unfolding equations of the elision characterisations. -/

theorem elideOut_nop (bc : List Nat) (ip : Nat) (h : ip < bc.length)
    (hop : bc.getD ip 0 = opNop) :
    elideOut bc ip = elideOut bc (ip + Length (bc.getD ip 0)) := by
  rw [elideOut]
  simp only [getD_norm, dif_pos h, if_pos hop]

theorem elideOut_live (bc : List Nat) (ip : Nat) (h : ip < bc.length)
    (hop : bc.getD ip 0 ≠ opNop) :
    elideOut bc ip =
      (bc.getD ip 0 :: (if Length (bc.getD ip 0) > 1 then
        putU16 (readU16 bc (ip + 1)) else [])) ++
        elideOut bc (ip + Length (bc.getD ip 0)) := by
  rw [elideOut]
  simp only [getD_norm, dif_pos h, if_neg hop]

theorem elideOut_stop (bc : List Nat) (ip : Nat) (h : ¬ ip < bc.length) :
    elideOut bc ip = [] := by
  rw [elideOut]
  simp [h]

theorem elideTrace_nop (bc : List Nat) (ip base : Nat) (h : ip < bc.length)
    (hop : bc.getD ip 0 = opNop) :
    elideTrace bc ip base =
      (ip, base) :: elideTrace bc (ip + Length (bc.getD ip 0)) base := by
  rw [elideTrace]
  simp only [getD_norm, dif_pos h, if_pos hop]

theorem elideTrace_live (bc : List Nat) (ip base : Nat) (h : ip < bc.length)
    (hop : bc.getD ip 0 ≠ opNop) :
    elideTrace bc ip base =
      (ip, base) :: elideTrace bc (ip + Length (bc.getD ip 0))
        (base + Length (bc.getD ip 0)) := by
  rw [elideTrace]
  simp only [getD_norm, dif_pos h, if_neg hop]

/-- Every offset visited by the walk lies inside the program. -/
theorem walkOffsets_lt (bc : List Nat) :
    ∀ ip q, q ∈ walkOffsets bc ip → q < bc.length := by
  intro ip
  induction ip using walkOffsets.induct bc with
  | case1 ip h ih =>
      intro q hq
      rw [walkOffsets_cons bc ip h] at hq
      rcases List.mem_cons.mp hq with rfl | hq
      · exact h
      · exact ih q hq
  | case2 ip h =>
      intro q hq
      rw [walkOffsets_nil bc ip h] at hq
      simp at hq

/-- The successor of a visited offset is visited whenever it is still inside
the program. -/
theorem walkOffsets_next (bc : List Nat) :
    ∀ ip t, t ∈ walkOffsets bc ip →
      t + Length (bc.getD t 0) < bc.length →
      t + Length (bc.getD t 0) ∈ walkOffsets bc ip := by
  intro ip
  induction ip using walkOffsets.induct bc with
  | case1 ip h ih =>
      intro t ht hlt
      rw [walkOffsets_cons bc ip h] at ht ⊢
      rcases List.mem_cons.mp ht with rfl | ht
      · apply List.mem_cons_of_mem
        rw [walkOffsets_cons bc _ hlt]
        exact List.mem_cons_self _ _
      · exact List.mem_cons_of_mem _ (ih t ht hlt)
  | case2 ip h =>
      intro t ht
      rw [walkOffsets_nil bc ip h] at ht
      simp at ht

/-- The rebuilt program only shrinks along the walk. -/
theorem elideOut_len_mono (bc : List Nat) :
    ∀ ip t, t ∈ walkOffsets bc ip →
      (elideOut bc t).length ≤ (elideOut bc ip).length := by
  intro ip
  induction ip using elideOut.induct bc with
  | case1 ip h hop ih =>
      intro t ht
      rw [walkOffsets_cons bc ip h] at ht
      rcases List.mem_cons.mp ht with rfl | ht
      · exact le_refl _
      · rw [elideOut_nop bc ip h hop]
        exact ih t ht
  | case2 ip h hop ih =>
      intro t ht
      rw [walkOffsets_cons bc ip h] at ht
      rcases List.mem_cons.mp ht with rfl | ht
      · exact le_refl _
      · rw [elideOut_live bc ip h hop]
        simp only [List.length_append]
        have := ih t ht
        omega
  | case3 ip h =>
      intro t ht
      rw [walkOffsets_nil bc ip h] at ht
      simp at ht

/-- For an aligned program the rebuilt code is no longer than the remaining
bytes. -/
theorem elideOut_len_le (bc : List Nat) :
    ∀ ip, alignedB bc ip = true →
      (elideOut bc ip).length ≤ bc.length - ip := by
  intro ip
  induction ip using elideOut.induct bc with
  | case1 ip h hop ih =>
      intro hA
      obtain ⟨hle, hA2⟩ := alignedB_step bc ip hA h
      rw [elideOut_nop bc ip h hop]
      have := ih hA2
      omega
  | case2 ip h hop ih =>
      intro hA
      obtain ⟨hle, hA2⟩ := alignedB_step bc ip hA h
      rw [elideOut_live bc ip h hop]
      simp only [List.length_append, chunkLen]
      have := ih hA2
      omega
  | case3 ip h =>
      intro hA
      rw [elideOut_stop bc ip h]
      simp

/-- The old-to-new offset map records, for *every* visited offset, the amount
of live code rebuilt strictly before it. -/
theorem elideTrace_lookup (bc : List Nat) :
    ∀ ip base, ∀ t ∈ walkOffsets bc ip,
      List.lookup t (elideTrace bc ip base) =
        some (base +
          ((elideOut bc ip).length - (elideOut bc t).length)) := by
  intro ip base
  induction ip, base using elideTrace.induct bc with
  | case1 ip base h hop ih =>
      intro t ht
      rw [walkOffsets_cons bc ip h] at ht
      rw [elideTrace_nop bc ip base h hop, lookup_cons]
      rcases List.mem_cons.mp ht with rfl | ht
      · rw [if_pos rfl]
        simp
      · have hne : t ≠ ip := by
          have := walkOffsets_ge bc (ip + Length (bc.getD ip 0)) t ht
          have := Length_pos (bc.getD ip 0)
          omega
        rw [if_neg hne, ih t ht, elideOut_nop bc ip h hop]
  | case2 ip base h hop ih =>
      intro t ht
      rw [walkOffsets_cons bc ip h] at ht
      rw [elideTrace_live bc ip base h hop, lookup_cons]
      rcases List.mem_cons.mp ht with rfl | ht
      · rw [if_pos rfl]
        simp
      · have hne : t ≠ ip := by
          have := walkOffsets_ge bc (ip + Length (bc.getD ip 0)) t ht
          have := Length_pos (bc.getD ip 0)
          omega
        rw [if_neg hne, ih t ht]
        have hmono := elideOut_len_mono bc (ip + Length (bc.getD ip 0)) t ht
        rw [elideOut_live bc ip h hop]
        simp only [List.length_append, chunkLen]
        congr 1
        omega
  | case3 ip base h =>
      intro t ht
      rw [walkOffsets_nil bc ip h] at ht
      simp at ht

/-- At the recorded new offset of a live instruction the rebuilt program
carries exactly that instruction's original bytes. -/
theorem elideOut_drop_live (bc : List Nat) (hB : Bytes bc) :
    ∀ ip, alignedB bc ip = true →
      ∀ u ∈ walkOffsets bc ip, bc.getD u 0 ≠ opNop →
        (elideOut bc ip).drop
            ((elideOut bc ip).length - (elideOut bc u).length) =
          (bc.drop u).take (Length (bc.getD u 0)) ++
            elideOut bc (u + Length (bc.getD u 0)) := by
  intro ip
  induction ip using elideOut.induct bc with
  | case1 ip h hop ih =>
      intro hA u hu hlive
      obtain ⟨hle, hA2⟩ := alignedB_step bc ip hA h
      rw [walkOffsets_cons bc ip h] at hu
      rcases List.mem_cons.mp hu with rfl | hu
      · exact absurd hop hlive
      · rw [elideOut_nop bc ip h hop]
        exact ih hA2 u hu hlive
  | case2 ip h hop ih =>
      intro hA u hu hlive
      obtain ⟨hle, hA2⟩ := alignedB_step bc ip hA h
      rw [walkOffsets_cons bc ip h] at hu
      rcases List.mem_cons.mp hu with rfl | hu
      · rw [Nat.sub_self, List.drop_zero]
        rw [elideOut_live bc u h hop]
        rw [chunk_eq_take bc hB u h hle]
      · have hmono := elideOut_len_mono bc (ip + Length (bc.getD ip 0)) u hu
        rw [elideOut_live bc ip h hop]
        rw [drop_sub_append _ _ _ hmono]
        exact ih hA2 u hu hlive
  | case3 ip h =>
      intro hA u hu
      rw [walkOffsets_nil bc ip h] at hu
      simp at hu

/-- Walks agree on programs of equal length that agree from the start
offset on. -/
theorem walkOffsets_congr (a b : List Nat) (hlen : a.length = b.length) :
    ∀ s, (∀ i, s ≤ i → a.getD i 0 = b.getD i 0) →
      walkOffsets a s = walkOffsets b s := by
  intro s
  induction s using walkOffsets.induct a with
  | case1 s h ih =>
      intro hg
      have hb : s < b.length := by omega
      rw [walkOffsets_cons a s h, walkOffsets_cons b s hb]
      rw [hg s (le_refl s)] at ih ⊢
      congr 1
      exact ih (fun i hi => hg i
        (by have := Length_pos (b.getD s 0); omega))
  | case2 s h =>
      intro hg
      rw [walkOffsets_nil a s h, walkOffsets_nil b s (by omega)]

/-- Alignment transfers between programs of equal length that agree from the
start offset on. -/
theorem alignedB_congr (a b : List Nat) (hlen : a.length = b.length) :
    ∀ s, (∀ i, s ≤ i → a.getD i 0 = b.getD i 0) →
      alignedB a s = alignedB b s := by
  intro s
  induction s using alignedB.induct a with
  | case1 s h ih =>
      intro hg
      have hb : s < b.length := by omega
      conv_lhs => rw [alignedB]
      conv_rhs => rw [alignedB]
      rw [dif_pos h, dif_pos hb]
      rw [hg s (le_refl s)] at ih ⊢
      rw [hlen]
      congr 1
      exact ih (fun i hi => hg i
        (by have := Length_pos (b.getD s 0); omega))
  | case2 s h =>
      intro hg
      conv_lhs => rw [alignedB]
      conv_rhs => rw [alignedB]
      rw [dif_neg h, dif_neg (by omega : ¬ s < b.length)]

/-- Walks agree on programs of equal length that agree at the walked
offsets. -/
theorem walkOffsets_congr_walk (a b : List Nat)
    (hlen : a.length = b.length) :
    ∀ s, (∀ q ∈ walkOffsets a s, a.getD q 0 = b.getD q 0) →
      walkOffsets a s = walkOffsets b s := by
  intro s
  induction s using walkOffsets.induct a with
  | case1 s h ih =>
      intro hg
      have hb : s < b.length := by omega
      have hgs : a.getD s 0 = b.getD s 0 :=
        hg s (by rw [walkOffsets_cons a s h]; exact List.mem_cons_self _ _)
      rw [walkOffsets_cons a s h, walkOffsets_cons b s hb]
      rw [hgs] at ih ⊢
      congr 1
      exact ih (fun q hq => hg q
        (by rw [walkOffsets_cons a s h, hgs]
            exact List.mem_cons_of_mem _ hq))
  | case2 s h =>
      intro hg
      rw [walkOffsets_nil a s h, walkOffsets_nil b s (by omega)]

/-- Behaviour of phase two of `Eval.removeNOPs`: the patch keeps the length,
leaves all bytes up to the start offset and every walked opcode byte in
place, and rewrites the argument of every walked jump through the rewrite
map (a missing entry reading as 0), truncated to 16 bits. -/
theorem nopsPatchE_spec (rwm : List (Nat × Nat)) :
    ∀ tmp q0, alignedB tmp q0 = true →
      (Eval.nopsPatch rwm tmp q0).length = tmp.length ∧
      (∀ i, i ≤ q0 → (Eval.nopsPatch rwm tmp q0).getD i 0 = tmp.getD i 0) ∧
      (∀ q ∈ walkOffsets tmp q0,
        (Eval.nopsPatch rwm tmp q0).getD q 0 = tmp.getD q 0 ∧
        ((tmp.getD q 0 = opJump ∨ tmp.getD q 0 = opJumpIfFalse) →
          readU16 (Eval.nopsPatch rwm tmp q0) (q + 1) =
            ((List.lookup (readU16 tmp (q + 1)) rwm).getD 0) % 65536)) := by
  intro tmp q0
  induction tmp, q0 using Eval.nopsPatch.induct rwm with
  | case1 tmp q0 h hj ih =>
      intro hA
      have hL3 : Length (tmp.getD q0 0) = 3 := by
        rcases hj with hj1 | hj1
        · rw [hj1, Length_jump]
        · rw [hj1, Length_jumpIfFalse]
      obtain ⟨hle, hA2⟩ := alignedB_step tmp q0 hA h
      have hR : Eval.nopsPatch rwm tmp q0 =
          Eval.nopsPatch rwm
            ((tmp.set (q0 + 1)
                (((List.lookup (readU16 tmp (q0 + 1)) rwm).getD 0) / 256 % 256)).set
              (q0 + 2)
              (((List.lookup (readU16 tmp (q0 + 1)) rwm).getD 0) % 256))
            (q0 + Length (tmp.getD q0 0)) := by
        conv_lhs => rw [Eval.nopsPatch]
        simp only [getD_norm, dif_pos h, if_pos hj]
      obtain ⟨ihlen, ihpre, ihwalk⟩ := ih (by
        rw [alignedB_congr _ tmp (by simp) _
          (fun i hi => by
            rw [getD_set_ne _ _ _ _ _ (by omega),
              getD_set_ne _ _ _ _ _ (by omega)])]
        exact hA2)
      refine ⟨?_, ?_, ?_⟩
      · rw [hR, ihlen]
        simp
      · intro i hi
        rw [hR, ihpre i (by omega)]
        rw [getD_set_ne _ _ _ _ _ (by omega),
          getD_set_ne _ _ _ _ _ (by omega)]
      · intro q hq
        rw [walkOffsets_cons tmp q0 h] at hq
        rcases List.mem_cons.mp hq with rfl | hq
        · constructor
          · rw [hR, ihpre q (by omega)]
            rw [getD_set_ne _ _ _ _ _ (by omega),
              getD_set_ne _ _ _ _ _ (by omega)]
          · intro hjq
            have h1 : (Eval.nopsPatch rwm tmp q).getD (q + 1) 0 =
                ((List.lookup (readU16 tmp (q + 1)) rwm).getD 0) / 256 % 256 := by
              rw [hR, ihpre (q + 1) (by omega)]
              rw [getD_set_ne _ _ _ _ _ (by omega)]
              rw [getD_set_eq _ _ _ _ (by omega)]
            have h2 : (Eval.nopsPatch rwm tmp q).getD (q + 2) 0 =
                ((List.lookup (readU16 tmp (q + 1)) rwm).getD 0) % 256 := by
              rw [hR, ihpre (q + 2) (by omega)]
              rw [getD_set_eq _ _ _ _ (by simp; omega)]
            rw [readU16, h1, h2]
            omega
        · have hge := walkOffsets_ge tmp (q0 + Length (tmp.getD q0 0)) q hq
          have hw : walkOffsets tmp (q0 + Length (tmp.getD q0 0)) =
              walkOffsets
                ((tmp.set (q0 + 1)
                    (((List.lookup (readU16 tmp (q0 + 1)) rwm).getD 0) / 256 % 256)).set
                  (q0 + 2)
                  (((List.lookup (readU16 tmp (q0 + 1)) rwm).getD 0) % 256))
                (q0 + Length (tmp.getD q0 0)) := by
            apply walkOffsets_congr _ _ (by simp)
            intro i hi
            rw [getD_set_ne _ _ _ _ _ (by omega),
              getD_set_ne _ _ _ _ _ (by omega)]
          rw [hw] at hq
          obtain ⟨hq1, hq2⟩ := ihwalk q hq
          constructor
          · rw [hR, hq1]
            rw [getD_set_ne _ _ _ _ _ (by omega),
              getD_set_ne _ _ _ _ _ (by omega)]
          · intro hjq
            have hjq2 : ((tmp.set (q0 + 1)
                    (((List.lookup (readU16 tmp (q0 + 1)) rwm).getD 0) / 256 % 256)).set
                  (q0 + 2)
                  (((List.lookup (readU16 tmp (q0 + 1)) rwm).getD 0) % 256)).getD q 0 =
                    opJump ∨
                  ((tmp.set (q0 + 1)
                    (((List.lookup (readU16 tmp (q0 + 1)) rwm).getD 0) / 256 % 256)).set
                  (q0 + 2)
                  (((List.lookup (readU16 tmp (q0 + 1)) rwm).getD 0) % 256)).getD q 0 =
                    opJumpIfFalse := by
              rw [getD_set_ne _ _ _ _ _ (by omega),
                getD_set_ne _ _ _ _ _ (by omega)]
              exact hjq
            have hru := hq2 hjq2
            rw [hR, hru]
            have hr : readU16
                ((tmp.set (q0 + 1)
                    (((List.lookup (readU16 tmp (q0 + 1)) rwm).getD 0) / 256 % 256)).set
                  (q0 + 2)
                  (((List.lookup (readU16 tmp (q0 + 1)) rwm).getD 0) % 256))
                (q + 1) = readU16 tmp (q + 1) := by
              conv_lhs => rw [readU16]
              conv_rhs => rw [readU16]
              rw [getD_set_ne _ _ _ _ _ (by omega),
                getD_set_ne _ _ _ _ _ (by omega),
                getD_set_ne _ _ _ _ _ (by omega),
                getD_set_ne _ _ _ _ _ (by omega)]
            rw [hr]
  | case2 tmp q0 h hj ih =>
      intro hA
      obtain ⟨hle, hA2⟩ := alignedB_step tmp q0 hA h
      have hR : Eval.nopsPatch rwm tmp q0 =
          Eval.nopsPatch rwm tmp (q0 + Length (tmp.getD q0 0)) := by
        conv_lhs => rw [Eval.nopsPatch]
        simp only [getD_norm, dif_pos h, if_neg hj]
      obtain ⟨ihlen, ihpre, ihwalk⟩ := ih hA2
      refine ⟨?_, ?_, ?_⟩
      · rw [hR, ihlen]
      · intro i hi
        rw [hR]
        exact ihpre i (by have := Length_pos (tmp.getD q0 0); omega)
      · intro q hq
        rw [walkOffsets_cons tmp q0 h] at hq
        rcases List.mem_cons.mp hq with rfl | hq
        · constructor
          · rw [hR]
            exact ihpre q (by have := Length_pos (tmp.getD q 0); omega)
          · intro hjq
            exact absurd hjq hj
        · rw [hR]
          exact ihwalk q hq
  | case3 tmp q0 h =>
      intro hA
      have hR : Eval.nopsPatch rwm tmp q0 = tmp := by
        rw [Eval.nopsPatch]
        simp [h]
      refine ⟨by rw [hR], fun i _ => by rw [hR], fun q hq => ?_⟩
      rw [walkOffsets_nil tmp q0 h] at hq
      simp at hq

/-- C5: after the NOP-elision pass (`Eval.removeNOPs`, the one `Prepare`
invokes; phase one is shared verbatim with the `vm` version) completes on an
aligned byte program: (i) the installed bytecode has no `OpNop` at any
instruction boundary; (ii) the old-to-new offset map has an entry for
*every* visited offset — including eliminated NOPs — mapping it to the
amount of live code rebuilt before it; (iii) an eliminated `OpNop` maps to
the same new offset as the offset immediately after it, so a jump whose old
target was the NOP is redirected to the next live instruction; (iv) the new
offset of a live instruction points at exactly that instruction's original
bytes in the rebuilt program; (v) every jump argument of the rebuilt program
is routed through the map (phase two). -/
theorem claim_C5_nop_elision (bc : List Nat) (hB : Bytes bc)
    (hA : alignedB bc 0 = true) (hL : bc.length < 65536) :
    (∀ q ∈ walkOffsets (Eval.removeNOPs bc) 0,
        (Eval.removeNOPs bc).getD q 0 ≠ opNop) ∧
    (∀ t ∈ walkOffsets bc 0,
        List.lookup t (nopsElide bc 0 [] []).2 =
          some ((elideOut bc 0).length - (elideOut bc t).length)) ∧
    (∀ t ∈ walkOffsets bc 0, bc.getD t 0 = opNop → t + 1 < bc.length →
        List.lookup t (nopsElide bc 0 [] []).2 =
          List.lookup (t + 1) (nopsElide bc 0 [] []).2) ∧
    (∀ u ∈ walkOffsets bc 0, bc.getD u 0 ≠ opNop →
        ((nopsElide bc 0 [] []).1).drop
            ((elideOut bc 0).length - (elideOut bc u).length) =
          (bc.drop u).take (Length (bc.getD u 0)) ++
            elideOut bc (u + Length (bc.getD u 0))) ∧
    (∀ q ∈ walkOffsets (nopsElide bc 0 [] []).1 0,
        ((nopsElide bc 0 [] []).1.getD q 0 = opJump ∨
          (nopsElide bc 0 [] []).1.getD q 0 = opJumpIfFalse) →
        readU16 (Eval.removeNOPs bc) (q + 1) =
          (List.lookup (readU16 ((nopsElide bc 0 [] []).1) (q + 1))
            (nopsElide bc 0 [] []).2).getD 0) := by
  have h1 : (nopsElide bc 0 [] []).1 = elideOut bc 0 := by
    rw [nopsElide_eq]
    simp
  have h2 : (nopsElide bc 0 [] []).2 = elideTrace bc 0 0 := by
    rw [nopsElide_eq]
    simp
  have hRdef : Eval.removeNOPs bc =
      Eval.nopsPatch (elideTrace bc 0 0) (elideOut bc 0) 0 := by
    rw [show Eval.removeNOPs bc =
      Eval.nopsPatch (nopsElide bc 0 [] []).2 (nopsElide bc 0 [] []).1 0
        from rfl]
    rw [h1, h2]
  obtain ⟨hplen, hppre, hpwalk⟩ :=
    nopsPatchE_spec (elideTrace bc 0 0) (elideOut bc 0) 0
      (elideOut_aligned bc 0)
  refine ⟨?_, ?_, ?_, ?_, ?_⟩
  · have hwalkR : walkOffsets (elideOut bc 0) 0 =
        walkOffsets (Eval.nopsPatch (elideTrace bc 0 0) (elideOut bc 0) 0)
          0 :=
      walkOffsets_congr_walk _ _ hplen.symm 0
        (fun q hq => ((hpwalk q hq).1).symm)
    intro q hq
    rw [hRdef] at hq ⊢
    rw [← hwalkR] at hq
    rw [(hpwalk q hq).1]
    exact elideOut_no_nop bc 0 q hq
  · intro t ht
    rw [h2, elideTrace_lookup bc 0 0 t ht]
    simp
  · intro t ht hop hlt1
    have hnext : t + 1 ∈ walkOffsets bc 0 := by
      have hm := walkOffsets_next bc 0 t ht
        (by rw [hop, Length_nop]; exact hlt1)
      rwa [hop, Length_nop] at hm
    rw [h2, elideTrace_lookup bc 0 0 t ht,
      elideTrace_lookup bc 0 0 (t + 1) hnext]
    have he2 : elideOut bc t = elideOut bc (t + 1) := by
      have h3 := elideOut_nop bc t (walkOffsets_lt bc 0 t ht) hop
      rwa [hop, Length_nop] at h3
    rw [he2]
  · intro u hu hlive
    rw [h1]
    exact elideOut_drop_live bc hB 0 hA u hu hlive
  · intro q hq hjq
    rw [h1] at hq hjq
    rw [hRdef, h1, h2]
    obtain ⟨-, hjump⟩ := hpwalk q hq
    rw [hjump hjq]
    by_cases hT : readU16 (elideOut bc 0) (q + 1) ∈ walkOffsets bc 0
    · have hval := elideOut_len_le bc 0 hA
      rw [elideTrace_lookup bc 0 0 _ hT]
      simp only [Option.getD_some]
      rw [Nat.mod_eq_of_lt (by omega)]
    · have hnone : List.lookup (readU16 (elideOut bc 0) (q + 1))
          (elideTrace bc 0 0) = none :=
        lookup_eq_none_of_not_mem_keys
          (by rw [elideTrace_keys]; exact hT)
      rw [hnone]
      simp

/-- Witness for C5: on `OpJump 3; OpNop; OpReturn` the map entry for the
eliminated NOP at offset 3 records the amount of live code before it. -/
theorem claim_C5_nop_elision_witness :
    List.lookup 3 (nopsElide [opJump, 0, 3, opNop, opReturn] 0 [] []).2 =
      some ((elideOut [opJump, 0, 3, opNop, opReturn] 0).length -
        (elideOut [opJump, 0, 3, opNop, opReturn] 3).length) := by
  apply (claim_C5_nop_elision [opJump, 0, 3, opNop, opReturn]
    (by simp [Bytes, opJump, opNop, opReturn])
    (by simp [alignedB, Length, opConstant, opPush, opLookup, opSet, opCall,
      opArray, opHash, opIter, opJump, opJumpIfFalse, opNop, opReturn])
    (by simp [opJump, opNop, opReturn])).2.1 3
  simp [walkOffsets, Length, opConstant, opPush, opLookup, opSet, opCall,
    opArray, opHash, opIter, opJump, opJumpIfFalse, opNop, opReturn]


/-! ## Straight-line fragment: decode/execute algebra -/

theorem decodeSL_nil : decodeSL [] = some [] := rfl

theorem decodeSL_cons_push (hi lo : Nat) (rest' : List Nat) :
    decodeSL (opPush :: hi :: lo :: rest') =
      match decodeSL rest' with
      | some is => some (.push (256 * hi + lo) :: is)
      | none => none := by
  rw [decodeSL.eq_def]
  simp

theorem decodeSL_cons_one (b : Nat) (rest : List Nat) (hb : b ≠ opPush) :
    decodeSL (b :: rest) =
      match decode1 b with
      | some i =>
          (match decodeSL rest with
            | some is => some (i :: is)
            | none => none)
      | none => none := by
  rw [decodeSL.eq_def]
  simp [hb]

/-- Decoding distributes over append when the prefix decodes. -/
theorem decodeSL_append (Y : List Nat) :
    ∀ (X : List Nat) (xs : List SInstr), decodeSL X = some xs →
      decodeSL (X ++ Y) = (decodeSL Y).map (fun ys => xs ++ ys) := by
  intro X
  induction X using decodeSL.induct with
  | case1 =>
      intro xs h
      simp [decodeSL] at h
      subst h
      cases hY : decodeSL Y <;> simp [hY]
  | case2 hi lo rest' is hsome ih =>
      intro xs h
      rw [decodeSL_cons_push, hsome] at h
      simp at h
      subst h
      simp only [List.cons_append]
      rw [decodeSL_cons_push, ih is hsome]
      cases hY : decodeSL Y <;> simp
  | case3 hi lo rest' hnone =>
      intro xs h
      rw [decodeSL_cons_push, hnone] at h
      simp at h
  | case4 rest hshort =>
      intro xs h
      rcases rest with _ | ⟨a, _ | ⟨b, u⟩⟩
      · simp [decodeSL] at h
      · simp [decodeSL] at h
      · exact (hshort a b u rfl).elim
  | case5 b rest hb i hi1 is hsome ih =>
      intro xs h
      rw [decodeSL_cons_one b rest hb, hi1, hsome] at h
      simp at h
      subst h
      simp only [List.cons_append]
      rw [decodeSL_cons_one b (rest ++ Y) hb, hi1, ih is hsome]
      cases hY : decodeSL Y <;> simp
  | case6 b rest hb i hi1 hnone =>
      intro xs h
      rw [decodeSL_cons_one b rest hb, hi1, hnone] at h
      simp at h
  | case7 b rest hb hnone =>
      intro xs h
      rw [decodeSL_cons_one b rest hb, hnone] at h
      simp at h

/-- Executing an appended segment is sequencing. -/
theorem execSeg_append (ys : List SInstr) :
    ∀ (xs : List SInstr) (s : List Object),
      execSeg (xs ++ ys) s = match execSeg xs s with
        | .cont s2 => execSeg ys s2
        | .done o => .done o := by
  intro xs s
  induction xs, s using execSeg.induct <;> simp_all [execSeg]

/-- Drop every `nop` from a decoded program. -/
def remNops : List SInstr → List SInstr
  | [] => []
  | .nop :: rest => remNops rest
  | i :: rest => i :: remNops rest

/-- `OpNop` instructions are transparent to execution. -/
theorem execSeg_remNops :
    ∀ (xs : List SInstr) (s : List Object),
      execSeg (remNops xs) s = execSeg xs s := by
  intro xs s
  induction xs, s using execSeg.induct <;> simp_all [execSeg, remNops]

/-- Nop-padding executes to the identity. -/
theorem execSeg_replicate_nop (k : Nat) :
    ∀ (s : List Object), execSeg (List.replicate k .nop) s = .cont s := by
  induction k with
  | zero => intro s; simp [execSeg]
  | succ k ih => intro s; simp [List.replicate, execSeg, ih]

theorem decodeSL_replicate_nop (k : Nat) :
    decodeSL (List.replicate k opNop) = some (List.replicate k .nop) := by
  induction k with
  | zero => rfl
  | succ k ih =>
      simp only [List.replicate]
      rw [decodeSL_cons_one _ _ (by simp [opNop, opPush]), ih]
      simp [decode1, opNop, opPush, opTrue, opFalse, opAdd, opSub, opMul,
        opDiv, opEqual, opNotEqual, opReturn]


theorem execSeg_replicate_append (k : Nat) (rest : List SInstr)
    (s : List Object) :
    execSeg (List.replicate k .nop ++ rest) s = execSeg rest s := by
  rw [execSeg_append rest (List.replicate k .nop) s, execSeg_replicate_nop k s]

/-- Replacing a decoded middle segment by an execution-equivalent one
preserves the observable behaviour. -/
theorem runSL_mid_congr (T mid mid2 R : List Nat) (ts ms ms2 : List SInstr)
    (hT : decodeSL T = some ts) (hm : decodeSL mid = some ms)
    (hm2 : decodeSL mid2 = some ms2)
    (hsem : ∀ s, execSeg ms s = execSeg ms2 s) :
    runSL (T ++ (mid ++ R)) = runSL (T ++ (mid2 ++ R)) := by
  unfold runSL
  rw [decodeSL_append (mid ++ R) T ts hT, decodeSL_append (mid2 ++ R) T ts hT]
  rw [decodeSL_append R mid ms hm, decodeSL_append R mid2 ms2 hm2]
  cases hR : decodeSL R with
  | none => simp
  | some rs =>
      simp only [Option.map_some', Option.map_map, Function.comp]
      congr 1
      unfold execSL
      rw [execSeg_append (ms ++ rs) ts [], execSeg_append (ms2 ++ rs) ts []]
      cases execSeg ts [] with
      | done o => simp
      | cont s2 =>
          simp only
          rw [execSeg_append rs ms s2, execSeg_append rs ms2 s2, hsem s2]

/-- The decoded arithmetic-fold window executes like the folded push. -/
theorem exec_mid_arith (g1 g2 b2 a2 v : Nat) (i : SInstr)
    (hstep : ∀ s, execSeg [i]
        (Object.integer a2 :: Object.integer b2 :: s) =
      .cont (Object.integer v :: s)) :
    ∀ s, execSeg (.push b2 :: (List.replicate g1 .nop ++
        (.push a2 :: (List.replicate g2 .nop ++ [i])))) s =
      execSeg (.nop :: (.nop :: (.nop :: (List.replicate g1 .nop ++
        (.push v :: (List.replicate g2 .nop ++ [SInstr.nop])))))) s := by
  intro s
  simp only [execSeg, execSeg_replicate_append]
  rw [hstep s]

/-- The decoded comparison-fold window executes like the folded boolean. -/
theorem exec_mid_cmp (g1 g2 b2 a2 : Nat) (i j : SInstr) (tb : Bool)
    (hstep : ∀ s, execSeg [i]
        (Object.integer a2 :: Object.integer b2 :: s) =
      .cont (Object.boolean tb :: s))
    (hj : ∀ s, execSeg [j] s = .cont (Object.boolean tb :: s)) :
    ∀ s, execSeg (.push b2 :: (List.replicate g1 .nop ++
        (.push a2 :: (List.replicate g2 .nop ++ [i])))) s =
      execSeg (.nop :: (.nop :: (.nop :: (List.replicate g1 .nop ++
        (.nop :: (.nop :: (.nop :: (List.replicate g2 .nop ++ [j])))))))) s := by
  intro s
  simp only [execSeg, execSeg_replicate_append]
  rw [hstep s, hj s]

theorem execSeg_ret_indep (l l2 : List SInstr) (s : List Object) :
    execSeg (.ret :: l) s = execSeg (.ret :: l2) s := by
  cases s <;> simp [execSeg]

/-! ## Byte-surgery toolkit -/

theorem list_ext_getD (a b : List Nat) (hlen : a.length = b.length)
    (h : ∀ j, a.getD j 0 = b.getD j 0) : a = b := by
  apply List.ext_getElem hlen
  intro j h1 h2
  rw [← List.getD_eq_getElem a 0 h1, ← List.getD_eq_getElem b 0 h2]
  exact h j

/-- The three bytes of an instruction slice. -/
theorem take3_eq (bc : List Nat) (i : Nat) (h : i + 3 ≤ bc.length) :
    (bc.drop i).take 3 =
      [bc.getD i 0, bc.getD (i + 1) 0, bc.getD (i + 2) 0] := by
  rw [List.drop_eq_getElem_cons (by omega : i < bc.length)]
  rw [List.drop_eq_getElem_cons (by omega : i + 1 < bc.length)]
  rw [List.drop_eq_getElem_cons (by omega : i + 2 < bc.length)]
  rw [List.getD_eq_getElem bc 0 (by omega : i < bc.length)]
  rw [List.getD_eq_getElem bc 0 (by omega : i + 1 < bc.length)]
  rw [List.getD_eq_getElem bc 0 (by omega : i + 2 < bc.length)]
  rfl

/-- Decomposing a byte program around two instruction positions and a
current offset. -/
theorem segs_id (bc : List Nat) (b1 a1 ip : Nat) (h1 : b1 + 3 ≤ a1)
    (h2 : a1 + 3 ≤ ip) (h3 : ip < bc.length) :
    bc = bc.take b1 ++ ((bc.drop b1).take 3 ++
      ((bc.drop (b1 + 3)).take (a1 - (b1 + 3)) ++ ((bc.drop a1).take 3 ++
        ((bc.drop (a1 + 3)).take (ip - (a1 + 3)) ++
          (bc.getD ip 0 :: bc.drop (ip + 1)))))) := by
  have e1 : bc.getD ip 0 :: bc.drop (ip + 1) = bc.drop ip := by
    rw [List.drop_eq_getElem_cons h3, List.getD_eq_getElem bc 0 h3]
  rw [e1]
  have e2 : (bc.drop (a1 + 3)).take (ip - (a1 + 3)) ++ bc.drop ip =
      bc.drop (a1 + 3) := by
    conv_rhs => rw [← List.take_append_drop (ip - (a1 + 3)) (bc.drop (a1 + 3))]
    congr 1
    rw [List.drop_drop]
    congr 1
    omega
  rw [e2]
  have e3 : (bc.drop a1).take 3 ++ bc.drop (a1 + 3) = bc.drop a1 := by
    conv_rhs => rw [← List.take_append_drop 3 (bc.drop a1)]
    congr 1
    rw [List.drop_drop]
  rw [e3]
  have e4 : (bc.drop (b1 + 3)).take (a1 - (b1 + 3)) ++ bc.drop a1 =
      bc.drop (b1 + 3) := by
    conv_rhs => rw [← List.take_append_drop (a1 - (b1 + 3)) (bc.drop (b1 + 3))]
    congr 1
    rw [List.drop_drop]
    congr 1
    omega
  rw [e4]
  have e5 : (bc.drop b1).take 3 ++ bc.drop (b1 + 3) = bc.drop b1 := by
    conv_rhs => rw [← List.take_append_drop 3 (bc.drop b1)]
    congr 1
    rw [List.drop_drop]
  rw [e5]
  rw [List.take_append_drop]

/-- A `set` above the taken prefix does not change it. -/
theorem take_set_ge (l : List Nat) (i v n : Nat) (h : n ≤ i) :
    (l.set i v).take n = l.take n := by
  apply List.ext_getElem (by simp)
  intro j h1 h2
  have hj : j < n := by simp at h1; omega
  simp only [List.getElem_take]
  rw [List.getElem_set_ne (by omega)]

/-- A `set` below the dropped prefix does not change the suffix. -/
theorem drop_set_lt (l : List Nat) (i v n : Nat) (h : i < n) :
    (l.set i v).drop n = l.drop n := by
  apply List.ext_getElem (by simp)
  intro j h1 h2
  have hj : i < n + j := by omega
  simp only [List.getElem_drop]
  rw [List.getElem_set_ne (by omega)]

/-- Byte profile of the arithmetic-fold surgery. -/
theorem getD_surgery_arith (bc : List Nat) (b1 a1 ip hi lo : Nat)
    (h1 : b1 + 3 ≤ a1) (h2 : a1 + 3 ≤ ip) (h3 : ip < bc.length) (j : Nat) :
    ((writeNop3 ((bc.set (a1 + 1) hi).set (a1 + 2) lo) b1).set ip
        opNop).getD j 0 =
      if j = b1 ∨ j = b1 + 1 ∨ j = b1 + 2 ∨ j = ip then opNop
      else if j = a1 + 1 then hi
      else if j = a1 + 2 then lo
      else bc.getD j 0 := by
  unfold writeNop3
  by_cases hj : j = ip
  · subst hj
    rw [getD_set_eq _ _ _ _ (by simp; omega)]
    rw [if_pos (by omega)]
  · rw [getD_set_ne _ _ _ _ _ (by omega)]
    by_cases hj2 : j = b1 + 2
    · subst hj2
      rw [getD_set_eq _ _ _ _ (by simp; omega)]
      rw [if_pos (by omega)]
    · rw [getD_set_ne _ _ _ _ _ (by omega)]
      by_cases hj3 : j = b1 + 1
      · subst hj3
        rw [getD_set_eq _ _ _ _ (by simp; omega)]
        rw [if_pos (by omega)]
      · rw [getD_set_ne _ _ _ _ _ (by omega)]
        by_cases hj4 : j = b1
        · subst hj4
          rw [getD_set_eq _ _ _ _ (by simp; omega)]
          rw [if_pos (by omega)]
        · rw [getD_set_ne _ _ _ _ _ (by omega)]
          rw [if_neg (by omega)]
          by_cases hj5 : j = a1 + 2
          · subst hj5
            rw [getD_set_eq _ _ _ _ (by simp; omega)]
            rw [if_neg (by omega), if_pos rfl]
          · rw [getD_set_ne _ _ _ _ _ (by omega)]
            by_cases hj6 : j = a1 + 1
            · subst hj6
              rw [getD_set_eq _ _ _ _ (by omega)]
              rw [if_pos rfl]
            · rw [getD_set_ne _ _ _ _ _ (by omega)]
              rw [if_neg hj6, if_neg hj5]

/-- Byte profile of the comparison-fold surgery. -/
theorem getD_surgery_eq (bc : List Nat) (b1 a1 ip tb : Nat)
    (h1 : b1 + 3 ≤ a1) (h2 : a1 + 3 ≤ ip) (h3 : ip < bc.length) (j : Nat) :
    ((writeNop3 (writeNop3 bc a1) b1).set ip tb).getD j 0 =
      if j = ip then tb
      else if j = b1 ∨ j = b1 + 1 ∨ j = b1 + 2 ∨
          j = a1 ∨ j = a1 + 1 ∨ j = a1 + 2 then opNop
      else bc.getD j 0 := by
  unfold writeNop3
  by_cases hj : j = ip
  · subst hj
    rw [getD_set_eq _ _ _ _ (by simp; omega)]
    rw [if_pos rfl]
  · rw [getD_set_ne _ _ _ _ _ (by omega), if_neg hj]
    by_cases hj2 : j = b1 + 2
    · subst hj2
      rw [getD_set_eq _ _ _ _ (by simp; omega)]
      rw [if_pos (by omega)]
    · rw [getD_set_ne _ _ _ _ _ (by omega)]
      by_cases hj3 : j = b1 + 1
      · subst hj3
        rw [getD_set_eq _ _ _ _ (by simp; omega)]
        rw [if_pos (by omega)]
      · rw [getD_set_ne _ _ _ _ _ (by omega)]
        by_cases hj4 : j = b1
        · subst hj4
          rw [getD_set_eq _ _ _ _ (by simp; omega)]
          rw [if_pos (by omega)]
        · rw [getD_set_ne _ _ _ _ _ (by omega)]
          by_cases hj5 : j = a1 + 2
          · subst hj5
            rw [getD_set_eq _ _ _ _ (by simp; omega)]
            rw [if_pos (by omega)]
          · rw [getD_set_ne _ _ _ _ _ (by omega)]
            by_cases hj6 : j = a1 + 1
            · subst hj6
              rw [getD_set_eq _ _ _ _ (by simp; omega)]
              rw [if_pos (by omega)]
            · rw [getD_set_ne _ _ _ _ _ (by omega)]
              by_cases hj7 : j = a1
              · subst hj7
                rw [getD_set_eq _ _ _ _ (by omega)]
                rw [if_pos (by omega)]
              · rw [getD_set_ne _ _ _ _ _ (by omega)]
                rw [if_neg (by omega)]

/-! ## Decode boundaries of the fragment -/

theorem Length_push : Length opPush = 3 := by decide

theorem decode1_length (b : Nat) (h : (decode1 b).isSome) : Length b = 1 := by
  unfold decode1 at h
  split_ifs at h with h1 h2 h3 h4 h5 h6 h7 h8 h9 h10
  · rw [h1]; decide
  · rw [h2]; decide
  · rw [h3]; decide
  · rw [h4]; decide
  · rw [h5]; decide
  · rw [h6]; decide
  · rw [h7]; decide
  · rw [h8]; decide
  · rw [h9]; decide
  · rw [h10]; decide
  · simp at h

theorem drop_cons_getD (bc : List Nat) (ip : Nat) (h : ip < bc.length) :
    bc.drop ip = bc.getD ip 0 :: bc.drop (ip + 1) := by
  rw [List.drop_eq_getElem_cons h, List.getD_eq_getElem bc 0 h]

/-- The opcode at a decodable boundary is a fragment opcode. -/
theorem boundary_byte (bc : List Nat) (ip : Nat) (h : ip < bc.length)
    (hd : (decodeSL (bc.drop ip)).isSome) :
    bc.getD ip 0 = opPush ∨ (decode1 (bc.getD ip 0)).isSome := by
  by_cases hp : bc.getD ip 0 = opPush
  · exact Or.inl hp
  · right
    rw [drop_cons_getD bc ip h] at hd
    rw [decodeSL_cons_one _ _ hp] at hd
    cases hd1 : decode1 (bc.getD ip 0) with
    | none => rw [hd1] at hd; simp at hd
    | some i => simp

theorem boundary_not_jump (bc : List Nat) (ip : Nat) (h : ip < bc.length)
    (hd : (decodeSL (bc.drop ip)).isSome) :
    bc.getD ip 0 ≠ opJump ∧ bc.getD ip 0 ≠ opJumpIfFalse := by
  rcases boundary_byte bc ip h hd with hb | hb
  · rw [hb]
    constructor <;> decide
  · refine ⟨fun he => ?_, fun he => ?_⟩ <;> rw [he] at hb
    · exact absurd hb (by decide)
    · exact absurd hb (by decide)

/-- One decode-boundary step along the walk. -/
theorem decode_step (bc : List Nat) (ip : Nat) (h : ip < bc.length)
    (hd : (decodeSL (bc.drop ip)).isSome) :
    ip + Length (bc.getD ip 0) ≤ bc.length ∧
      (decodeSL (bc.drop (ip + Length (bc.getD ip 0)))).isSome := by
  by_cases hp : bc.getD ip 0 = opPush
  · rw [hp, Length_push]
    by_cases h3 : ip + 3 ≤ bc.length
    · refine ⟨h3, ?_⟩
      rw [drop_cons_getD bc ip h, hp] at hd
      rw [drop_cons_getD bc (ip + 1) (by omega)] at hd
      rw [drop_cons_getD bc (ip + 1 + 1) (by omega)] at hd
      rw [decodeSL_cons_push] at hd
      rw [show ip + 3 = ip + 1 + 1 + 1 from by omega]
      cases hd2 : decodeSL (bc.drop (ip + 1 + 1 + 1)) with
      | none => rw [hd2] at hd; simp at hd
      | some is => simp
    · exfalso
      rw [drop_cons_getD bc ip h, hp] at hd
      have hlen : (bc.drop (ip + 1)).length ≤ 1 := by simp; omega
      rcases hd3 : bc.drop (ip + 1) with _ | ⟨x, _ | ⟨y, t⟩⟩
      · rw [hd3] at hd
        rw [decodeSL.eq_def] at hd
        simp at hd
      · rw [hd3] at hd
        rw [decodeSL.eq_def] at hd
        simp at hd
      · rw [hd3] at hlen
        simp at hlen
  · rcases boundary_byte bc ip h hd with hb | hb
    · exact absurd hb hp
    · rw [decode1_length _ hb]
      refine ⟨by omega, ?_⟩
      rw [drop_cons_getD bc ip h] at hd
      rw [decodeSL_cons_one _ _ hp] at hd
      obtain ⟨i, hi⟩ := Option.isSome_iff_exists.mp hb
      rw [hi] at hd
      cases hd2 : decodeSL (bc.drop (ip + 1)) with
      | none => rw [hd2] at hd; simp at hd
      | some is => simp

/-- One decode-boundary step on the prefix side. -/
theorem take_step (bc : List Nat) (ip : Nat) (h : ip < bc.length)
    (hd : (decodeSL (bc.drop ip)).isSome)
    (ht : (decodeSL (bc.take ip)).isSome) :
    (decodeSL (bc.take (ip + Length (bc.getD ip 0)))).isSome := by
  obtain ⟨ts, hts⟩ := Option.isSome_iff_exists.mp ht
  have hstep := decode_step bc ip h hd
  rw [List.take_add]
  rw [decodeSL_append _ _ ts hts]
  suffices hh :
      (decodeSL ((bc.drop ip).take (Length (bc.getD ip 0)))).isSome by
    obtain ⟨u, hu⟩ := Option.isSome_iff_exists.mp hh
    rw [hu]
    simp
  by_cases hp : bc.getD ip 0 = opPush
  · have h3 : ip + 3 ≤ bc.length := by
      have := hstep.1
      rwa [hp, Length_push] at this
    rw [hp, Length_push]
    rw [take3_eq bc ip h3, hp]
    rw [decodeSL_cons_push]
    simp [decodeSL]
  · rcases boundary_byte bc ip h hd with hb | hb
    · exact absurd hb hp
    · obtain ⟨i, hi⟩ := Option.isSome_iff_exists.mp hb
      rw [decode1_length _ hb]
      rw [drop_cons_getD bc ip h]
      simp only [List.take_succ_cons, List.take_zero]
      rw [decodeSL_cons_one _ _ hp, hi]
      simp [decodeSL]

/-- Decode boundaries propagate along the whole walk. -/
theorem decode_walk (bc : List Nat) :
    ∀ ip, (decodeSL (bc.drop ip)).isSome → (decodeSL (bc.take ip)).isSome →
      ∀ q ∈ walkOffsets bc ip,
        (decodeSL (bc.drop q)).isSome ∧ (decodeSL (bc.take q)).isSome := by
  intro ip
  induction ip using walkOffsets.induct bc with
  | case1 ip h ih =>
      intro hd ht q hq
      rw [walkOffsets_cons bc ip h] at hq
      rcases List.mem_cons.mp hq with rfl | hq
      · exact ⟨hd, ht⟩
      · exact ih (decode_step bc ip h hd).2 (take_step bc ip h hd ht) q hq
  | case2 ip h =>
      intro hd ht q hq
      rw [walkOffsets_nil bc ip h] at hq
      simp at hq

/-- A decodable suffix is aligned. -/
theorem decode_aligned (bc : List Nat) :
    ∀ ip, (decodeSL (bc.drop ip)).isSome → alignedB bc ip = true := by
  intro ip
  induction ip using alignedB.induct bc with
  | case1 ip h ih =>
      intro hd
      obtain ⟨hle, hd2⟩ := decode_step bc ip h hd
      rw [alignedB]
      simp only [dif_pos h, Bool.and_eq_true, decide_eq_true_eq]
      exact ⟨hle, ih hd2⟩
  | case2 ip h =>
      intro hd
      rw [alignedB]
      simp [h]

set_option maxHeartbeats 1000000 in
theorem decode1_ne_nop (b : Nat) (hb : b ≠ opNop) (i : SInstr)
    (h : decode1 b = some i) : i ≠ SInstr.nop := by
  intro hcon
  subst hcon
  unfold decode1 at h
  rw [if_neg hb] at h
  split_ifs at h with h2 h3 h4 h5 h6 h7 h8 h9 h10
  all_goals simp at h

/-- NOP elision rebuilds a decodable program into its nop-free decode. -/
theorem decode_elide (bc : List Nat) (hB : Bytes bc) :
    ∀ ip is, decodeSL (bc.drop ip) = some is →
      decodeSL (elideOut bc ip) = some (remNops is) := by
  intro ip
  induction ip using elideOut.induct bc with
  | case1 ip h hop ih =>
      intro is hd
      rw [drop_cons_getD bc ip h, hop] at hd
      rw [decodeSL_cons_one opNop _ (by decide)] at hd
      rw [show decode1 opNop = some SInstr.nop from by decide] at hd
      cases hd2 : decodeSL (bc.drop (ip + 1)) with
      | none => rw [hd2] at hd; simp at hd
      | some is2 =>
          rw [hd2] at hd
          simp at hd
          subst hd
          rw [elideOut_nop bc ip h hop]
          rw [show remNops (SInstr.nop :: is2) = remNops is2 from rfl]
          apply ih
          rw [hop, Length_nop]
          exact hd2
  | case2 ip h hop ih =>
      intro is hd
      by_cases hp : bc.getD ip 0 = opPush
      · have h3 : ip + 3 ≤ bc.length := by
          have := (decode_step bc ip h (by rw [hd]; simp)).1
          rwa [hp, Length_push] at this
        rw [hp, Length_push] at ih
        rw [drop_cons_getD bc ip h, hp] at hd
        rw [drop_cons_getD bc (ip + 1) (by omega)] at hd
        rw [drop_cons_getD bc (ip + 1 + 1) (by omega)] at hd
        rw [decodeSL_cons_push] at hd
        cases hd2 : decodeSL (bc.drop (ip + 1 + 1 + 1)) with
        | none => rw [hd2] at hd; simp at hd
        | some is2 =>
            rw [hd2] at hd
            simp at hd
            subst hd
            rw [elideOut_live bc ip h hop, hp, Length_push]
            rw [if_pos (by decide : (3:Nat) > 1)]
            simp only [putU16, List.cons_append, List.nil_append]
            rw [decodeSL_cons_push]
            rw [ih is2
              (by rw [show ip + 3 = ip + 1 + 1 + 1 from by omega]; exact hd2)]
            have hv : 256 * (readU16 bc (ip + 1) / 256 % 256) +
                readU16 bc (ip + 1) % 256 =
                  256 * bc.getD (ip + 1) 0 + bc.getD (ip + 1 + 1) 0 := by
              have hb1 := getD_lt_256 bc hB (ip + 1)
              have hb2 := getD_lt_256 bc hB (ip + 1 + 1)
              unfold readU16
              omega
            rw [hv]
            simp [remNops]
      · have hb : (decode1 (bc.getD ip 0)).isSome := by
          rcases boundary_byte bc ip h (by rw [hd]; simp) with hx | hx
          · exact absurd hx hp
          · exact hx
        obtain ⟨i, hi⟩ := Option.isSome_iff_exists.mp hb
        have hL1 : Length (bc.getD ip 0) = 1 := decode1_length _ hb
        have hne := decode1_ne_nop _ hop i hi
        rw [hL1] at ih
        rw [drop_cons_getD bc ip h] at hd
        rw [decodeSL_cons_one _ _ hp, hi] at hd
        cases hd2 : decodeSL (bc.drop (ip + 1)) with
        | none => rw [hd2] at hd; simp at hd
        | some is2 =>
            rw [hd2] at hd
            simp at hd
            subst hd
            rw [elideOut_live bc ip h hop, hL1]
            rw [if_neg (by omega : ¬ (1:Nat) > 1)]
            simp only [List.cons_append, List.nil_append]
            rw [decodeSL_cons_one _ _ hp, hi]
            rw [ih is2 hd2]
            cases i <;> first | exact absurd rfl hne | simp [remNops]
  | case3 ip h =>
      intro is hd
      rw [List.drop_eq_nil_of_le (by omega)] at hd
      simp [decodeSL] at hd
      subst hd
      rw [elideOut_stop bc ip h]
      rfl

/-! ## The vm-package passes on the fragment -/

/-- On a decodable fragment program the jump-simplification walk never
fires. -/
theorem jumpsWalk_none (bc : List Nat) :
    ∀ ip prev, (decodeSL (bc.drop ip)).isSome →
      VM.jumpsWalk bc ip prev = none := by
  intro ip prev
  induction ip, prev using VM.jumpsWalk.induct bc with
  | case1 ip h hj =>
      intro hd
      exact absurd hj (boundary_not_jump bc ip h hd).2
  | case2 ip h hj hne =>
      intro hd
      exact absurd hj (boundary_not_jump bc ip h hd).2
  | case3 ip prev h hj htru hfls ih =>
      intro hd
      exact absurd hj (boundary_not_jump bc ip h hd).2
  | case4 ip prev h hj ih =>
      intro hd
      conv_lhs => rw [VM.jumpsWalk]
      simp only [getD_norm, dif_pos h, if_neg hj]
      exact ih (decode_step bc ip h hd).2
  | case5 ip prev h =>
      intro hd
      rw [VM.jumpsWalk]
      simp [h]

/-- On a decodable fragment program the `vm` jump-patching phase finds no
jump and returns the program unchanged. -/
theorem nopsPatchV_nojump (rwm : List (Nat × Nat)) :
    ∀ tmp q0, (decodeSL (tmp.drop q0)).isSome →
      VM.nopsPatch rwm tmp q0 = some tmp := by
  intro tmp q0
  induction tmp, q0 using VM.nopsPatch.induct rwm with
  | case1 tmp q0 h hj hnone =>
      intro hd
      rcases hj with hj | hj
      · exact absurd hj (boundary_not_jump tmp q0 h hd).1
      · exact absurd hj (boundary_not_jump tmp q0 h hd).2
  | case2 tmp q0 h hj newDst hsome ih =>
      intro hd
      rcases hj with hj | hj
      · exact absurd hj (boundary_not_jump tmp q0 h hd).1
      · exact absurd hj (boundary_not_jump tmp q0 h hd).2
  | case3 tmp q0 h hj ih =>
      intro hd
      conv_lhs => rw [VM.nopsPatch]
      simp only [getD_norm, dif_pos h, if_neg hj]
      exact ih (decode_step tmp q0 h hd).2
  | case4 tmp q0 h =>
      intro hd
      rw [VM.nopsPatch]
      simp [h]

/-- `VM.removeNOPs` preserves the behaviour of fragment programs. -/
theorem removeNOPsV_preserve (bc : List Nat) (hB : Bytes bc)
    (hd : (decodeSL bc).isSome) : runSL (VM.removeNOPs bc) = runSL bc := by
  obtain ⟨is, his⟩ := Option.isSome_iff_exists.mp hd
  have h1 : (nopsElide bc 0 [] []).1 = elideOut bc 0 := by
    rw [nopsElide_eq]
    simp
  have h2 : (nopsElide bc 0 [] []).2 = elideTrace bc 0 0 := by
    rw [nopsElide_eq]
    simp
  have hdec : decodeSL (elideOut bc 0) = some (remNops is) :=
    decode_elide bc hB 0 is (by rw [List.drop_zero]; exact his)
  rw [show VM.removeNOPs bc =
    (if bc.length = (nopsElide bc 0 [] []).1.length then bc
      else match VM.nopsPatch (nopsElide bc 0 [] []).2
          (nopsElide bc 0 [] []).1 0 with
        | none => bc
        | some t => t) from rfl]
  rw [h1, h2]
  by_cases hl : bc.length = (elideOut bc 0).length
  · rw [if_pos hl]
  · rw [if_neg hl]
    rw [nopsPatchV_nojump (elideTrace bc 0 0) (elideOut bc 0) 0
      (by rw [List.drop_zero, hdec]; simp)]
    unfold runSL
    rw [hdec, his]
    simp only [Option.map_some']
    congr 1
    unfold execSL
    rw [execSeg_remNops is []]

/-- A decodable fragment walk is either return-free (and jump-free) or has a
first return. -/
theorem walk_first_ret (bc : List Nat) :
    ∀ ip, (decodeSL (bc.drop ip)).isSome →
      (∀ q ∈ walkOffsets bc ip, CleanAt bc q) ∨
      ∃ p ∈ walkOffsets bc ip, bc.getD p 0 = opReturn ∧
        ∀ q ∈ walkOffsets bc ip, q < p → CleanAt bc q := by
  intro ip
  induction ip using walkOffsets.induct bc with
  | case1 ip h ih =>
      intro hd
      have hnj := boundary_not_jump bc ip h hd
      by_cases hr : bc.getD ip 0 = opReturn
      · right
        refine ⟨ip,
          by rw [walkOffsets_cons bc ip h]; exact List.mem_cons_self _ _,
          hr, ?_⟩
        intro q hq hql
        have := walkOffsets_ge bc ip q hq
        exact absurd hql (by omega)
      · rcases ih (decode_step bc ip h hd).2 with hclean | ⟨p, hp, hpr, hpc⟩
        · left
          intro q hq
          rw [walkOffsets_cons bc ip h] at hq
          rcases List.mem_cons.mp hq with rfl | hq
          · exact ⟨hr, hnj.1, hnj.2⟩
          · exact hclean q hq
        · right
          refine ⟨p,
            by rw [walkOffsets_cons bc ip h]
               exact List.mem_cons_of_mem _ hp, hpr, ?_⟩
          intro q hq hql
          rw [walkOffsets_cons bc ip h] at hq
          rcases List.mem_cons.mp hq with rfl | hq
          · exact ⟨hr, hnj.1, hnj.2⟩
          · exact hpc q hq hql
  | case2 ip h =>
      intro hd
      left
      intro q hq
      rw [walkOffsets_nil bc ip h] at hq
      simp at hq

/-- Truncating after a return boundary preserves the behaviour. -/
theorem runSL_truncate_ret (bc : List Nat) (p : Nat) (hp : p < bc.length)
    (hret : bc.getD p 0 = opReturn)
    (ht : (decodeSL (bc.take p)).isSome)
    (hd : (decodeSL (bc.drop (p + 1))).isSome) :
    runSL (bc.take (p + 1)) = runSL bc := by
  obtain ⟨ps, hps⟩ := Option.isSome_iff_exists.mp ht
  obtain ⟨rs, hrs⟩ := Option.isSome_iff_exists.mp hd
  have hsplit : bc = bc.take p ++ (opReturn :: bc.drop (p + 1)) := by
    conv_lhs => rw [← List.take_append_drop p bc]
    rw [drop_cons_getD bc p hp, hret]
  have htake : bc.take (p + 1) = bc.take p ++ [opReturn] := by
    rw [List.take_add]
    rw [drop_cons_getD bc p hp, hret]
    simp
  have hd1 : decodeSL [opReturn] = some [SInstr.ret] := by
    rw [decodeSL_cons_one _ _ (by decide)]
    rw [show decode1 opReturn = some SInstr.ret from by decide]
    rfl
  have hd2 : decodeSL (opReturn :: bc.drop (p + 1)) =
      some (SInstr.ret :: rs) := by
    rw [decodeSL_cons_one _ _ (by decide)]
    rw [show decode1 opReturn = some SInstr.ret from by decide, hrs]
  conv_lhs => rw [htake]
  conv_rhs => rw [hsplit]
  unfold runSL
  rw [decodeSL_append _ _ ps hps, decodeSL_append _ _ ps hps]
  rw [hd1, hd2]
  simp only [Option.map_some']
  congr 1
  unfold execSL
  rw [execSeg_append _ ps [], execSeg_append _ ps []]
  cases execSeg ps [] with
  | done o => simp
  | cont s2 =>
      simp only
      rw [execSeg_ret_indep [] rs s2]

/-- `VM.removeDeadCode` preserves the behaviour of fragment programs. -/
theorem removeDeadCodeV_preserve (bc : List Nat) (hB : Bytes bc)
    (hd : (decodeSL bc).isSome) :
    runSL (VM.removeDeadCode bc) = runSL bc := by
  have hd0 : (decodeSL (bc.drop 0)).isSome := by
    rw [List.drop_zero]
    exact hd
  have ht0 : (decodeSL (bc.take 0)).isSome := by simp [decodeSL]
  rcases walk_first_ret bc 0 hd0 with hclean | ⟨p, hp, hpr, hpc⟩
  · unfold VM.removeDeadCode
    rw [deadWalkV_none bc 0 [] hclean]
    rfl
  · unfold VM.removeDeadCode
    rw [deadWalkV_ret bc hB p hpr 0 [] (decode_aligned bc 0 hd0) hp hpc]
    simp only [List.drop_zero, List.nil_append, Nat.sub_zero,
      Option.getD_some]
    have hplt : p < bc.length := walkOffsets_lt bc 0 p hp
    obtain ⟨hdp, htp⟩ := decode_walk bc 0 hd0 ht0 p hp
    have hdp1 : (decodeSL (bc.drop (p + 1))).isSome := by
      have := (decode_step bc p hplt hdp).2
      rwa [hpr, show Length opReturn = 1 from by decide] at this
    exact runSL_truncate_ret bc p hplt hpr htp hdp1

/-! ## Constant folding on the fragment -/

theorem slice_eq_of_getD (x y : List Nat) (hlen : x.length = y.length)
    (o n : Nat) (h : ∀ k, o ≤ k → k < o + n → x.getD k 0 = y.getD k 0) :
    (x.drop o).take n = (y.drop o).take n := by
  apply List.ext_getElem (by simp [hlen])
  intro j h1 h2
  have hj : j < n ∧ o + j < x.length := by
    simp at h1
    omega
  simp only [List.getElem_take, List.getElem_drop]
  rw [← List.getD_eq_getElem x 0 (by omega),
    ← List.getD_eq_getElem y 0 (by omega)]
  exact h (o + j) (by omega) (by omega)

theorem slice_replicate (bc : List Nat) (o n : Nat) (hn : o + n ≤ bc.length)
    (h : ∀ k, o ≤ k → k < o + n → bc.getD k 0 = opNop) :
    (bc.drop o).take n = List.replicate n opNop := by
  apply List.ext_getElem (by simp; omega)
  intro j h1 h2
  have hj : j < n := by simp at h2; omega
  simp only [List.getElem_take, List.getElem_drop, List.getElem_replicate]
  rw [← List.getD_eq_getElem bc 0 (by omega)]
  exact h (o + j) (by omega) (by omega)

theorem decodeSL_push3 (x1 x2 : Nat) :
    decodeSL [opPush, x1, x2] = some [.push (256 * x1 + x2)] := by
  rw [decodeSL_cons_push]
  simp [decodeSL]

theorem decodeSL_single (b : Nat) (i : SInstr) (hb : b ≠ opPush)
    (h : decode1 b = some i) : decodeSL [b] = some [i] := by
  rw [decodeSL_cons_one _ _ hb, h]
  simp [decodeSL]

/-- Behaviour preservation for one arithmetic constant fold. -/
theorem fold_preserve_arith (bc : List Nat)
    (b1 b2 a1 a2 ip v : Nat)
    (hPb : bc.getD b1 0 = opPush) (hRb : readU16 bc (b1 + 1) = b2)
    (hPa : bc.getD a1 0 = opPush) (hRa : readU16 bc (a1 + 1) = a2)
    (h1 : b1 + 3 ≤ a1) (h2 : a1 + 3 ≤ ip) (h3 : ip < bc.length)
    (hG1 : ∀ k, b1 + 3 ≤ k → k < a1 → bc.getD k 0 = opNop)
    (hG2 : ∀ k, a1 + 3 ≤ k → k < ip → bc.getD k 0 = opNop)
    (hT : (decodeSL (bc.take b1)).isSome)
    (i : SInstr) (hip_ne_push : bc.getD ip 0 ≠ opPush)
    (hdec : decode1 (bc.getD ip 0) = some i)
    (hstep : ∀ s, execSeg [i]
        (Object.integer a2 :: Object.integer b2 :: s) =
      SegRes.cont (Object.integer v :: s))
    (hv : v < 65536) :
    runSL ((writeNop3 ((bc.set (a1 + 1) (v / 256 % 256)).set (a1 + 2)
        (v % 256)) b1).set ip opNop) = runSL bc := by
  obtain ⟨ts, hts⟩ := Option.isSome_iff_exists.mp hT
  have hb1len : b1 + 3 ≤ bc.length := by omega
  have ha1len : a1 + 3 ≤ bc.length := by omega
  have hchB : (bc.drop b1).take 3 =
      [opPush, bc.getD (b1 + 1) 0, bc.getD (b1 + 2) 0] := by
    rw [take3_eq bc b1 hb1len, hPb]
  have hchA : (bc.drop a1).take 3 =
      [opPush, bc.getD (a1 + 1) 0, bc.getD (a1 + 2) 0] := by
    rw [take3_eq bc a1 ha1len, hPa]
  have hG1rep : (bc.drop (b1 + 3)).take (a1 - (b1 + 3)) =
      List.replicate (a1 - (b1 + 3)) opNop := by
    apply slice_replicate bc (b1 + 3) (a1 - (b1 + 3)) (by omega)
    intro k hk1 hk2
    exact hG1 k hk1 (by omega)
  have hG2rep : (bc.drop (a1 + 3)).take (ip - (a1 + 3)) =
      List.replicate (ip - (a1 + 3)) opNop := by
    apply slice_replicate bc (a1 + 3) (ip - (a1 + 3)) (by omega)
    intro k hk1 hk2
    exact hG2 k hk1 (by omega)
  -- the pre-pass decomposition
  have hpre : bc = bc.take b1 ++
      (([opPush, bc.getD (b1 + 1) 0, bc.getD (b1 + 2) 0] ++
        (List.replicate (a1 - (b1 + 3)) opNop ++
          ([opPush, bc.getD (a1 + 1) 0, bc.getD (a1 + 2) 0] ++
            (List.replicate (ip - (a1 + 3)) opNop ++ [bc.getD ip 0])))) ++
        bc.drop (ip + 1)) := by
    conv_lhs => rw [segs_id bc b1 a1 ip h1 h2 h3]
    rw [hchB, hchA, hG1rep, hG2rep]
    simp [List.append_assoc]
  -- the post-pass decomposition
  have hlen' : ((writeNop3 ((bc.set (a1 + 1) (v / 256 % 256)).set (a1 + 2)
      (v % 256)) b1).set ip opNop).length = bc.length := by
    simp [writeNop3]
  have hprof := getD_surgery_arith bc b1 a1 ip (v / 256 % 256) (v % 256)
    h1 h2 h3
  have hpost : (writeNop3 ((bc.set (a1 + 1) (v / 256 % 256)).set (a1 + 2)
      (v % 256)) b1).set ip opNop = bc.take b1 ++
      (([opNop, opNop, opNop] ++
        (List.replicate (a1 - (b1 + 3)) opNop ++
          ([opPush, v / 256 % 256, v % 256] ++
            (List.replicate (ip - (a1 + 3)) opNop ++ [opNop])))) ++
        bc.drop (ip + 1)) := by
    conv_lhs => rw [segs_id ((writeNop3 ((bc.set (a1 + 1) (v / 256 % 256)).set
      (a1 + 2) (v % 256)) b1).set ip opNop) b1 a1 ip h1 h2
      (by rw [hlen']; exact h3)]
    have s1 : ((writeNop3 ((bc.set (a1 + 1) (v / 256 % 256)).set (a1 + 2)
        (v % 256)) b1).set ip opNop).take b1 = bc.take b1 := by
      unfold writeNop3
      rw [take_set_ge _ _ _ _ (by omega), take_set_ge _ _ _ _ (by omega),
        take_set_ge _ _ _ _ (by omega), take_set_ge _ _ _ _ (by omega),
        take_set_ge _ _ _ _ (by omega), take_set_ge _ _ _ _ (by omega)]
    have s2 : (((writeNop3 ((bc.set (a1 + 1) (v / 256 % 256)).set (a1 + 2)
        (v % 256)) b1).set ip opNop).drop b1).take 3 =
        [opNop, opNop, opNop] := by
      rw [take3_eq _ b1 (by rw [hlen']; omega)]
      rw [hprof b1, hprof (b1 + 1), hprof (b1 + 2)]
      rw [if_pos (by omega), if_pos (by omega), if_pos (by omega)]
    have s3 : (((writeNop3 ((bc.set (a1 + 1) (v / 256 % 256)).set (a1 + 2)
        (v % 256)) b1).set ip opNop).drop (b1 + 3)).take (a1 - (b1 + 3)) =
        List.replicate (a1 - (b1 + 3)) opNop := by
      rw [slice_eq_of_getD _ bc hlen' (b1 + 3) (a1 - (b1 + 3))
        (fun k hk1 hk2 => by
          rw [hprof k, if_neg (by omega), if_neg (by omega),
            if_neg (by omega)])]
      exact hG1rep
    have s4 : (((writeNop3 ((bc.set (a1 + 1) (v / 256 % 256)).set (a1 + 2)
        (v % 256)) b1).set ip opNop).drop a1).take 3 =
        [opPush, v / 256 % 256, v % 256] := by
      rw [take3_eq _ a1 (by rw [hlen']; omega)]
      rw [hprof a1, hprof (a1 + 1), hprof (a1 + 2)]
      rw [if_neg (by omega), if_neg (by omega), if_neg (by omega), hPa,
        if_neg (by omega), if_pos rfl,
        if_neg (by omega), if_neg (by omega), if_pos rfl]
    have s5 : (((writeNop3 ((bc.set (a1 + 1) (v / 256 % 256)).set (a1 + 2)
        (v % 256)) b1).set ip opNop).drop (a1 + 3)).take (ip - (a1 + 3)) =
        List.replicate (ip - (a1 + 3)) opNop := by
      rw [slice_eq_of_getD _ bc hlen' (a1 + 3) (ip - (a1 + 3))
        (fun k hk1 hk2 => by
          rw [hprof k, if_neg (by omega), if_neg (by omega),
            if_neg (by omega)])]
      exact hG2rep
    have s6 : ((writeNop3 ((bc.set (a1 + 1) (v / 256 % 256)).set (a1 + 2)
        (v % 256)) b1).set ip opNop).getD ip 0 = opNop := by
      rw [hprof ip, if_pos (by omega)]
    have s7 : ((writeNop3 ((bc.set (a1 + 1) (v / 256 % 256)).set (a1 + 2)
        (v % 256)) b1).set ip opNop).drop (ip + 1) = bc.drop (ip + 1) := by
      unfold writeNop3
      rw [drop_set_lt _ _ _ _ (by omega), drop_set_lt _ _ _ _ (by omega),
        drop_set_lt _ _ _ _ (by omega), drop_set_lt _ _ _ _ (by omega),
        drop_set_lt _ _ _ _ (by omega), drop_set_lt _ _ _ _ (by omega)]
    rw [s1, s2, s3, s4, s5, s6, s7]
    simp [List.append_assoc]
  -- decode the two middles
  have hb2 : 256 * bc.getD (b1 + 1) 0 + bc.getD (b1 + 2) 0 = b2 := by
    rw [← hRb]
    unfold readU16
    rw [show b1 + 1 + 1 = b1 + 2 from by omega]
  have ha2 : 256 * bc.getD (a1 + 1) 0 + bc.getD (a1 + 2) 0 = a2 := by
    rw [← hRa]
    unfold readU16
    rw [show a1 + 1 + 1 = a1 + 2 from by omega]
  have e_opb : decodeSL [bc.getD ip 0] = some [i] :=
    decodeSL_single _ i hip_ne_push hdec
  have eG2 : decodeSL (List.replicate (ip - (a1 + 3)) opNop ++
      [bc.getD ip 0]) =
      some (List.replicate (ip - (a1 + 3)) SInstr.nop ++ [i]) := by
    rw [decodeSL_append _ _ _ (decodeSL_replicate_nop _), e_opb]
    rfl
  have eA : decodeSL ([opPush, bc.getD (a1 + 1) 0, bc.getD (a1 + 2) 0] ++
      (List.replicate (ip - (a1 + 3)) opNop ++ [bc.getD ip 0])) =
      some (SInstr.push a2 ::
        (List.replicate (ip - (a1 + 3)) SInstr.nop ++ [i])) := by
    rw [show ([opPush, bc.getD (a1 + 1) 0, bc.getD (a1 + 2) 0] ++
      (List.replicate (ip - (a1 + 3)) opNop ++ [bc.getD ip 0])) =
      opPush :: bc.getD (a1 + 1) 0 :: bc.getD (a1 + 2) 0 ::
        (List.replicate (ip - (a1 + 3)) opNop ++ [bc.getD ip 0]) from by simp]
    rw [decodeSL_cons_push, eG2, ha2]
  have eG1 : decodeSL (List.replicate (a1 - (b1 + 3)) opNop ++
      ([opPush, bc.getD (a1 + 1) 0, bc.getD (a1 + 2) 0] ++
        (List.replicate (ip - (a1 + 3)) opNop ++ [bc.getD ip 0]))) =
      some (List.replicate (a1 - (b1 + 3)) SInstr.nop ++
        (SInstr.push a2 ::
          (List.replicate (ip - (a1 + 3)) SInstr.nop ++ [i]))) := by
    rw [decodeSL_append _ _ _ (decodeSL_replicate_nop _), eA]
    rfl
  have hmid : decodeSL ([opPush, bc.getD (b1 + 1) 0, bc.getD (b1 + 2) 0] ++
      (List.replicate (a1 - (b1 + 3)) opNop ++
        ([opPush, bc.getD (a1 + 1) 0, bc.getD (a1 + 2) 0] ++
          (List.replicate (ip - (a1 + 3)) opNop ++ [bc.getD ip 0])))) =
      some (SInstr.push b2 ::
        (List.replicate (a1 - (b1 + 3)) SInstr.nop ++
          (SInstr.push a2 ::
            (List.replicate (ip - (a1 + 3)) SInstr.nop ++ [i])))) := by
    rw [show ([opPush, bc.getD (b1 + 1) 0, bc.getD (b1 + 2) 0] ++
      (List.replicate (a1 - (b1 + 3)) opNop ++
        ([opPush, bc.getD (a1 + 1) 0, bc.getD (a1 + 2) 0] ++
          (List.replicate (ip - (a1 + 3)) opNop ++ [bc.getD ip 0])))) =
      opPush :: bc.getD (b1 + 1) 0 :: bc.getD (b1 + 2) 0 ::
        (List.replicate (a1 - (b1 + 3)) opNop ++
          ([opPush, bc.getD (a1 + 1) 0, bc.getD (a1 + 2) 0] ++
            (List.replicate (ip - (a1 + 3)) opNop ++ [bc.getD ip 0])))
      from by simp]
    rw [decodeSL_cons_push, eG1, hb2]
  have e_nop1 : decodeSL [opNop] = some [SInstr.nop] :=
    decodeSL_single _ _ (by decide) (by decide)
  have eG2n : decodeSL (List.replicate (ip - (a1 + 3)) opNop ++ [opNop]) =
      some (List.replicate (ip - (a1 + 3)) SInstr.nop ++ [SInstr.nop]) := by
    rw [decodeSL_append _ _ _ (decodeSL_replicate_nop _), e_nop1]
    rfl
  have hvv : 256 * (v / 256 % 256) + v % 256 = v := by omega
  have eA2 : decodeSL ([opPush, v / 256 % 256, v % 256] ++
      (List.replicate (ip - (a1 + 3)) opNop ++ [opNop])) =
      some (SInstr.push v ::
        (List.replicate (ip - (a1 + 3)) SInstr.nop ++ [SInstr.nop])) := by
    rw [show ([opPush, v / 256 % 256, v % 256] ++
      (List.replicate (ip - (a1 + 3)) opNop ++ [opNop])) =
      opPush :: (v / 256 % 256) :: (v % 256) ::
        (List.replicate (ip - (a1 + 3)) opNop ++ [opNop]) from by simp]
    rw [decodeSL_cons_push, eG2n, hvv]
  have eG1n : decodeSL (List.replicate (a1 - (b1 + 3)) opNop ++
      ([opPush, v / 256 % 256, v % 256] ++
        (List.replicate (ip - (a1 + 3)) opNop ++ [opNop]))) =
      some (List.replicate (a1 - (b1 + 3)) SInstr.nop ++
        (SInstr.push v ::
          (List.replicate (ip - (a1 + 3)) SInstr.nop ++ [SInstr.nop]))) := by
    rw [decodeSL_append _ _ _ (decodeSL_replicate_nop _), eA2]
    rfl
  have hmid2 : decodeSL ([opNop, opNop, opNop] ++
      (List.replicate (a1 - (b1 + 3)) opNop ++
        ([opPush, v / 256 % 256, v % 256] ++
          (List.replicate (ip - (a1 + 3)) opNop ++ [opNop])))) =
      some (SInstr.nop :: (SInstr.nop :: (SInstr.nop ::
        (List.replicate (a1 - (b1 + 3)) SInstr.nop ++
          (SInstr.push v ::
            (List.replicate (ip - (a1 + 3)) SInstr.nop ++
              [SInstr.nop])))))) := by
    rw [show ([opNop, opNop, opNop] ++
      (List.replicate (a1 - (b1 + 3)) opNop ++
        ([opPush, v / 256 % 256, v % 256] ++
          (List.replicate (ip - (a1 + 3)) opNop ++ [opNop])))) =
      opNop :: opNop :: opNop ::
        (List.replicate (a1 - (b1 + 3)) opNop ++
          ([opPush, v / 256 % 256, v % 256] ++
            (List.replicate (ip - (a1 + 3)) opNop ++ [opNop])))
      from by simp]
    rw [decodeSL_cons_one _ _ (by decide),
      show decode1 opNop = some SInstr.nop from by decide]
    rw [decodeSL_cons_one _ _ (by decide),
      show decode1 opNop = some SInstr.nop from by decide]
    rw [decodeSL_cons_one _ _ (by decide),
      show decode1 opNop = some SInstr.nop from by decide]
    rw [eG1n]
  have hsem := exec_mid_arith (a1 - (b1 + 3)) (ip - (a1 + 3)) b2 a2 v i hstep
  rw [hpost]
  rw [runSL_mid_congr (bc.take b1) _ _ (bc.drop (ip + 1)) ts _ _ hts
    hmid2 hmid (fun s => (hsem s).symm)]
  rw [← hpre]

/-- Behaviour preservation for one comparison constant fold. -/
theorem fold_preserve_cmp (bc : List Nat)
    (b1 b2 a1 a2 ip tb : Nat)
    (hPb : bc.getD b1 0 = opPush) (hRb : readU16 bc (b1 + 1) = b2)
    (hPa : bc.getD a1 0 = opPush) (hRa : readU16 bc (a1 + 1) = a2)
    (h1 : b1 + 3 ≤ a1) (h2 : a1 + 3 ≤ ip) (h3 : ip < bc.length)
    (hG1 : ∀ k, b1 + 3 ≤ k → k < a1 → bc.getD k 0 = opNop)
    (hG2 : ∀ k, a1 + 3 ≤ k → k < ip → bc.getD k 0 = opNop)
    (hT : (decodeSL (bc.take b1)).isSome)
    (i : SInstr) (hip_ne_push : bc.getD ip 0 ≠ opPush)
    (hdec : decode1 (bc.getD ip 0) = some i)
    (j : SInstr) (htb_ne_push : tb ≠ opPush) (hjdec : decode1 tb = some j)
    (bv : Bool)
    (hstep : ∀ s, execSeg [i]
        (Object.integer a2 :: Object.integer b2 :: s) =
      SegRes.cont (Object.boolean bv :: s))
    (hj : ∀ s, execSeg [j] s = SegRes.cont (Object.boolean bv :: s)) :
    runSL ((writeNop3 (writeNop3 bc a1) b1).set ip tb) = runSL bc := by
  obtain ⟨ts, hts⟩ := Option.isSome_iff_exists.mp hT
  have hb1len : b1 + 3 ≤ bc.length := by omega
  have ha1len : a1 + 3 ≤ bc.length := by omega
  have hchB : (bc.drop b1).take 3 =
      [opPush, bc.getD (b1 + 1) 0, bc.getD (b1 + 2) 0] := by
    rw [take3_eq bc b1 hb1len, hPb]
  have hchA : (bc.drop a1).take 3 =
      [opPush, bc.getD (a1 + 1) 0, bc.getD (a1 + 2) 0] := by
    rw [take3_eq bc a1 ha1len, hPa]
  have hG1rep : (bc.drop (b1 + 3)).take (a1 - (b1 + 3)) =
      List.replicate (a1 - (b1 + 3)) opNop := by
    apply slice_replicate bc (b1 + 3) (a1 - (b1 + 3)) (by omega)
    intro k hk1 hk2
    exact hG1 k hk1 (by omega)
  have hG2rep : (bc.drop (a1 + 3)).take (ip - (a1 + 3)) =
      List.replicate (ip - (a1 + 3)) opNop := by
    apply slice_replicate bc (a1 + 3) (ip - (a1 + 3)) (by omega)
    intro k hk1 hk2
    exact hG2 k hk1 (by omega)
  have hpre : bc = bc.take b1 ++
      (([opPush, bc.getD (b1 + 1) 0, bc.getD (b1 + 2) 0] ++
        (List.replicate (a1 - (b1 + 3)) opNop ++
          ([opPush, bc.getD (a1 + 1) 0, bc.getD (a1 + 2) 0] ++
            (List.replicate (ip - (a1 + 3)) opNop ++ [bc.getD ip 0])))) ++
        bc.drop (ip + 1)) := by
    conv_lhs => rw [segs_id bc b1 a1 ip h1 h2 h3]
    rw [hchB, hchA, hG1rep, hG2rep]
    simp [List.append_assoc]
  have hlen' : ((writeNop3 (writeNop3 bc a1) b1).set ip tb).length =
      bc.length := by
    simp [writeNop3]
  have hprof := getD_surgery_eq bc b1 a1 ip tb h1 h2 h3
  have hpost : (writeNop3 (writeNop3 bc a1) b1).set ip tb = bc.take b1 ++
      (([opNop, opNop, opNop] ++
        (List.replicate (a1 - (b1 + 3)) opNop ++
          ([opNop, opNop, opNop] ++
            (List.replicate (ip - (a1 + 3)) opNop ++ [tb])))) ++
        bc.drop (ip + 1)) := by
    conv_lhs => rw [segs_id ((writeNop3 (writeNop3 bc a1) b1).set ip tb)
      b1 a1 ip h1 h2 (by rw [hlen']; exact h3)]
    have s1 : ((writeNop3 (writeNop3 bc a1) b1).set ip tb).take b1 =
        bc.take b1 := by
      unfold writeNop3
      rw [take_set_ge _ _ _ _ (by omega), take_set_ge _ _ _ _ (by omega),
        take_set_ge _ _ _ _ (by omega), take_set_ge _ _ _ _ (by omega),
        take_set_ge _ _ _ _ (by omega), take_set_ge _ _ _ _ (by omega),
        take_set_ge _ _ _ _ (by omega)]
    have s2 : (((writeNop3 (writeNop3 bc a1) b1).set ip tb).drop b1).take 3 =
        [opNop, opNop, opNop] := by
      rw [take3_eq _ b1 (by rw [hlen']; omega)]
      rw [hprof b1, hprof (b1 + 1), hprof (b1 + 2)]
      rw [if_neg (by omega), if_pos (by omega), if_neg (by omega),
        if_pos (by omega), if_neg (by omega), if_pos (by omega)]
    have s3 : (((writeNop3 (writeNop3 bc a1) b1).set ip tb).drop
        (b1 + 3)).take (a1 - (b1 + 3)) =
        List.replicate (a1 - (b1 + 3)) opNop := by
      rw [slice_eq_of_getD _ bc hlen' (b1 + 3) (a1 - (b1 + 3))
        (fun k hk1 hk2 => by
          rw [hprof k, if_neg (by omega), if_neg (by omega)])]
      exact hG1rep
    have s4 : (((writeNop3 (writeNop3 bc a1) b1).set ip tb).drop a1).take 3 =
        [opNop, opNop, opNop] := by
      rw [take3_eq _ a1 (by rw [hlen']; omega)]
      rw [hprof a1, hprof (a1 + 1), hprof (a1 + 2)]
      rw [if_neg (by omega), if_pos (by omega), if_neg (by omega),
        if_pos (by omega), if_neg (by omega), if_pos (by omega)]
    have s5 : (((writeNop3 (writeNop3 bc a1) b1).set ip tb).drop
        (a1 + 3)).take (ip - (a1 + 3)) =
        List.replicate (ip - (a1 + 3)) opNop := by
      rw [slice_eq_of_getD _ bc hlen' (a1 + 3) (ip - (a1 + 3))
        (fun k hk1 hk2 => by
          rw [hprof k, if_neg (by omega), if_neg (by omega)])]
      exact hG2rep
    have s6 : ((writeNop3 (writeNop3 bc a1) b1).set ip tb).getD ip 0 =
        tb := by
      rw [hprof ip, if_pos rfl]
    have s7 : ((writeNop3 (writeNop3 bc a1) b1).set ip tb).drop (ip + 1) =
        bc.drop (ip + 1) := by
      unfold writeNop3
      rw [drop_set_lt _ _ _ _ (by omega), drop_set_lt _ _ _ _ (by omega),
        drop_set_lt _ _ _ _ (by omega), drop_set_lt _ _ _ _ (by omega),
        drop_set_lt _ _ _ _ (by omega), drop_set_lt _ _ _ _ (by omega),
        drop_set_lt _ _ _ _ (by omega)]
    rw [s1, s2, s3, s4, s5, s6, s7]
    simp [List.append_assoc]
  have hb2 : 256 * bc.getD (b1 + 1) 0 + bc.getD (b1 + 2) 0 = b2 := by
    rw [← hRb]
    unfold readU16
    rw [show b1 + 1 + 1 = b1 + 2 from by omega]
  have ha2 : 256 * bc.getD (a1 + 1) 0 + bc.getD (a1 + 2) 0 = a2 := by
    rw [← hRa]
    unfold readU16
    rw [show a1 + 1 + 1 = a1 + 2 from by omega]
  have e_opb : decodeSL [bc.getD ip 0] = some [i] :=
    decodeSL_single _ i hip_ne_push hdec
  have eG2 : decodeSL (List.replicate (ip - (a1 + 3)) opNop ++
      [bc.getD ip 0]) =
      some (List.replicate (ip - (a1 + 3)) SInstr.nop ++ [i]) := by
    rw [decodeSL_append _ _ _ (decodeSL_replicate_nop _), e_opb]
    rfl
  have eA : decodeSL ([opPush, bc.getD (a1 + 1) 0, bc.getD (a1 + 2) 0] ++
      (List.replicate (ip - (a1 + 3)) opNop ++ [bc.getD ip 0])) =
      some (SInstr.push a2 ::
        (List.replicate (ip - (a1 + 3)) SInstr.nop ++ [i])) := by
    rw [show ([opPush, bc.getD (a1 + 1) 0, bc.getD (a1 + 2) 0] ++
      (List.replicate (ip - (a1 + 3)) opNop ++ [bc.getD ip 0])) =
      opPush :: bc.getD (a1 + 1) 0 :: bc.getD (a1 + 2) 0 ::
        (List.replicate (ip - (a1 + 3)) opNop ++ [bc.getD ip 0]) from by simp]
    rw [decodeSL_cons_push, eG2, ha2]
  have eG1 : decodeSL (List.replicate (a1 - (b1 + 3)) opNop ++
      ([opPush, bc.getD (a1 + 1) 0, bc.getD (a1 + 2) 0] ++
        (List.replicate (ip - (a1 + 3)) opNop ++ [bc.getD ip 0]))) =
      some (List.replicate (a1 - (b1 + 3)) SInstr.nop ++
        (SInstr.push a2 ::
          (List.replicate (ip - (a1 + 3)) SInstr.nop ++ [i]))) := by
    rw [decodeSL_append _ _ _ (decodeSL_replicate_nop _), eA]
    rfl
  have hmid : decodeSL ([opPush, bc.getD (b1 + 1) 0, bc.getD (b1 + 2) 0] ++
      (List.replicate (a1 - (b1 + 3)) opNop ++
        ([opPush, bc.getD (a1 + 1) 0, bc.getD (a1 + 2) 0] ++
          (List.replicate (ip - (a1 + 3)) opNop ++ [bc.getD ip 0])))) =
      some (SInstr.push b2 ::
        (List.replicate (a1 - (b1 + 3)) SInstr.nop ++
          (SInstr.push a2 ::
            (List.replicate (ip - (a1 + 3)) SInstr.nop ++ [i])))) := by
    rw [show ([opPush, bc.getD (b1 + 1) 0, bc.getD (b1 + 2) 0] ++
      (List.replicate (a1 - (b1 + 3)) opNop ++
        ([opPush, bc.getD (a1 + 1) 0, bc.getD (a1 + 2) 0] ++
          (List.replicate (ip - (a1 + 3)) opNop ++ [bc.getD ip 0])))) =
      opPush :: bc.getD (b1 + 1) 0 :: bc.getD (b1 + 2) 0 ::
        (List.replicate (a1 - (b1 + 3)) opNop ++
          ([opPush, bc.getD (a1 + 1) 0, bc.getD (a1 + 2) 0] ++
            (List.replicate (ip - (a1 + 3)) opNop ++ [bc.getD ip 0])))
      from by simp]
    rw [decodeSL_cons_push, eG1, hb2]
  have e_tb : decodeSL [tb] = some [j] :=
    decodeSL_single _ j htb_ne_push hjdec
  have eG2n : decodeSL (List.replicate (ip - (a1 + 3)) opNop ++ [tb]) =
      some (List.replicate (ip - (a1 + 3)) SInstr.nop ++ [j]) := by
    rw [decodeSL_append _ _ _ (decodeSL_replicate_nop _), e_tb]
    rfl
  have eA2 : decodeSL ([opNop, opNop, opNop] ++
      (List.replicate (ip - (a1 + 3)) opNop ++ [tb])) =
      some (SInstr.nop :: (SInstr.nop :: (SInstr.nop ::
        (List.replicate (ip - (a1 + 3)) SInstr.nop ++ [j])))) := by
    rw [show ([opNop, opNop, opNop] ++
      (List.replicate (ip - (a1 + 3)) opNop ++ [tb])) =
      opNop :: opNop :: opNop ::
        (List.replicate (ip - (a1 + 3)) opNop ++ [tb]) from by simp]
    rw [decodeSL_cons_one _ _ (by decide),
      show decode1 opNop = some SInstr.nop from by decide]
    rw [decodeSL_cons_one _ _ (by decide),
      show decode1 opNop = some SInstr.nop from by decide]
    rw [decodeSL_cons_one _ _ (by decide),
      show decode1 opNop = some SInstr.nop from by decide]
    rw [eG2n]
  have eG1n : decodeSL (List.replicate (a1 - (b1 + 3)) opNop ++
      ([opNop, opNop, opNop] ++
        (List.replicate (ip - (a1 + 3)) opNop ++ [tb]))) =
      some (List.replicate (a1 - (b1 + 3)) SInstr.nop ++
        (SInstr.nop :: (SInstr.nop :: (SInstr.nop ::
          (List.replicate (ip - (a1 + 3)) SInstr.nop ++ [j]))))) := by
    rw [decodeSL_append _ _ _ (decodeSL_replicate_nop _), eA2]
    rfl
  have hmid2 : decodeSL ([opNop, opNop, opNop] ++
      (List.replicate (a1 - (b1 + 3)) opNop ++
        ([opNop, opNop, opNop] ++
          (List.replicate (ip - (a1 + 3)) opNop ++ [tb])))) =
      some (SInstr.nop :: (SInstr.nop :: (SInstr.nop ::
        (List.replicate (a1 - (b1 + 3)) SInstr.nop ++
          (SInstr.nop :: (SInstr.nop :: (SInstr.nop ::
            (List.replicate (ip - (a1 + 3)) SInstr.nop ++ [j])))))))) := by
    rw [show ([opNop, opNop, opNop] ++
      (List.replicate (a1 - (b1 + 3)) opNop ++
        ([opNop, opNop, opNop] ++
          (List.replicate (ip - (a1 + 3)) opNop ++ [tb])))) =
      opNop :: opNop :: opNop ::
        (List.replicate (a1 - (b1 + 3)) opNop ++
          ([opNop, opNop, opNop] ++
            (List.replicate (ip - (a1 + 3)) opNop ++ [tb])))
      from by simp]
    rw [decodeSL_cons_one _ _ (by decide),
      show decode1 opNop = some SInstr.nop from by decide]
    rw [decodeSL_cons_one _ _ (by decide),
      show decode1 opNop = some SInstr.nop from by decide]
    rw [decodeSL_cons_one _ _ (by decide),
      show decode1 opNop = some SInstr.nop from by decide]
    rw [eG1n]
  have hsem := exec_mid_cmp (a1 - (b1 + 3)) (ip - (a1 + 3)) b2 a2 i j bv
    hstep hj
  rw [hpost]
  rw [runSL_mid_congr (bc.take b1) _ _ (bc.drop (ip + 1)) ts _ _ hts
    hmid2 hmid (fun s => (hsem s).symm)]
  rw [← hpre]

theorem getD_concat_last {α : Type} (l : List α) (x d : α) :
    (l ++ [x]).getD l.length d = x := by
  simp [List.getD_eq_getElem?_getD, List.getElem?_append_right]

theorem getD_concat_lt {α : Type} (l : List α) (x d : α) (k : Nat)
    (h : k < l.length) : (l ++ [x]).getD k d = l.getD k d := by
  simp [List.getD_eq_getElem?_getD, List.getElem?_append, h]

/-- The folded value of `VM.optimizeMaths`'s arithmetic branch. -/
def foldVal (bc : List Nat) (ip : Nat) (args : List (Nat × Nat)) : Int :=
  if bc.getD ip 0 = opMul then
    ((args.getD (args.length - 1) (0, 0)).2 : Int) *
      ((args.getD (args.length - 2) (0, 0)).2 : Int)
  else if bc.getD ip 0 = opAdd then
    ((args.getD (args.length - 1) (0, 0)).2 : Int) +
      ((args.getD (args.length - 2) (0, 0)).2 : Int)
  else if bc.getD ip 0 = opSub then
    ((args.getD (args.length - 2) (0, 0)).2 : Int) -
      ((args.getD (args.length - 1) (0, 0)).2 : Int)
  else Int.tdiv ((args.getD (args.length - 2) (0, 0)).2 : Int)
    ((args.getD (args.length - 1) (0, 0)).2 : Int)

theorem foldVal_eq (bc : List Nat) (ip : Nat) (args : List (Nat × Nat)) :
    (if bc.getD ip 0 = opMul then
        ((args.getD (args.length - 1) (0, 0)).2 : Int) *
          ((args.getD (args.length - 2) (0, 0)).2 : Int)
      else if bc.getD ip 0 = opAdd then
        ((args.getD (args.length - 1) (0, 0)).2 : Int) +
          ((args.getD (args.length - 2) (0, 0)).2 : Int)
      else if bc.getD ip 0 = opSub then
        ((args.getD (args.length - 2) (0, 0)).2 : Int) -
          ((args.getD (args.length - 1) (0, 0)).2 : Int)
      else Int.tdiv ((args.getD (args.length - 2) (0, 0)).2 : Int)
        ((args.getD (args.length - 1) (0, 0)).2 : Int)) =
      foldVal bc ip args := rfl

/-- The invariant of the constant-folding walk: the tracked window's last two
entries are real `OpPush` instructions with only NOPs between them and up to
the current offset, and each sits at a decode boundary. -/
def WinInv (bc : List Nat) (ip : Nat) (args : List (Nat × Nat)) : Prop :=
  (1 ≤ args.length →
    bc.getD (args.getD (args.length - 1) (0, 0)).1 0 = opPush ∧
    readU16 bc ((args.getD (args.length - 1) (0, 0)).1 + 1) =
      (args.getD (args.length - 1) (0, 0)).2 ∧
    (args.getD (args.length - 1) (0, 0)).1 + 3 ≤ ip ∧
    (∀ k, (args.getD (args.length - 1) (0, 0)).1 + 3 ≤ k → k < ip →
      bc.getD k 0 = opNop) ∧
    (decodeSL (bc.take (args.getD (args.length - 1) (0, 0)).1)).isSome) ∧
  (2 ≤ args.length →
    bc.getD (args.getD (args.length - 2) (0, 0)).1 0 = opPush ∧
    readU16 bc ((args.getD (args.length - 2) (0, 0)).1 + 1) =
      (args.getD (args.length - 2) (0, 0)).2 ∧
    (args.getD (args.length - 2) (0, 0)).1 + 3 ≤
      (args.getD (args.length - 1) (0, 0)).1 ∧
    (∀ k, (args.getD (args.length - 2) (0, 0)).1 + 3 ≤ k →
      k < (args.getD (args.length - 1) (0, 0)).1 → bc.getD k 0 = opNop) ∧
    (decodeSL (bc.take (args.getD (args.length - 2) (0, 0)).1)).isSome)

/-- A `.changed` outcome of the constant-folding walk preserves behaviour. -/
theorem mathsWalk_preserve (bc : List Nat) (hB : Bytes bc) :
    ∀ ip args, (decodeSL (bc.drop ip)).isSome →
      (decodeSL (bc.take ip)).isSome → WinInv bc ip args →
      ∀ bc2, VM.mathsWalk bc ip args = .changed bc2 →
        runSL bc2 = runSL bc := by
  intro ip args
  induction ip, args using VM.mathsWalk.induct bc with
  | case1 ip args h hpush ih =>
      intro hd ht hI bc2 hw
      have hR : VM.mathsWalk bc ip args =
          VM.mathsWalk bc (ip + Length (bc.getD ip 0))
            (args ++ [(ip, readU16 bc (ip + 1))]) := by
        conv_lhs => rw [VM.mathsWalk]
        simp only [dif_pos h, if_pos hpush]
      rw [hR] at hw
      have hL3 : Length (bc.getD ip 0) = 3 := by
        rw [hpush]
        exact Length_push
      refine ih (decode_step bc ip h hd).2 (take_step bc ip h hd ht)
        ⟨?_, ?_⟩ bc2 hw
      · intro h1
        have hlen : (args ++ [(ip, readU16 bc (ip + 1))]).length =
            args.length + 1 := by simp
        rw [hlen, Nat.add_sub_cancel, getD_concat_last]
        refine ⟨hpush, rfl, by omega, ?_, ht⟩
        intro k hk1 hk2
        exact absurd hk2 (by omega)
      · intro h2
        have hlen : (args ++ [(ip, readU16 bc (ip + 1))]).length =
            args.length + 1 := by simp
        rw [hlen] at h2
        have h1 : 1 ≤ args.length := by omega
        obtain ⟨hp1, hp2, hp3, hp4, hp5⟩ := hI.1 h1
        rw [hlen, Nat.add_sub_cancel]
        rw [show args.length + 1 - 2 = args.length - 1 from by omega]
        rw [getD_concat_last, getD_concat_lt _ _ _ _ (by omega)]
        exact ⟨hp1, hp2, hp3, hp4, hp5⟩
  | case2 ip args h hnp hnop ih =>
      intro hd ht hI bc2 hw
      have hR : VM.mathsWalk bc ip args =
          VM.mathsWalk bc (ip + Length (bc.getD ip 0)) args := by
        conv_lhs => rw [VM.mathsWalk]
        simp only [dif_pos h, if_neg hnp, if_pos hnop]
      rw [hR] at hw
      have hL1 : Length (bc.getD ip 0) = 1 := by
        rw [hnop]
        exact Length_nop
      refine ih (decode_step bc ip h hd).2 (take_step bc ip h hd ht)
        ⟨?_, hI.2⟩ bc2 hw
      intro h1
      obtain ⟨hp1, hp2, hp3, hp4, hp5⟩ := hI.1 h1
      refine ⟨hp1, hp2, by omega, ?_, hp5⟩
      intro k hk1 hk2
      by_cases hk : k < ip
      · exact hp4 k hk1 hk
      · have hke : k = ip := by omega
        subst hke
        exact hnop
  | case3 ip args h hnp hnn hor h2le heq =>
      intro hd ht hI bc2 hw
      obtain ⟨ha1p, ha1r, ha1le, ha1gap, ha1T⟩ := hI.1 (by omega)
      obtain ⟨hb1p, hb1r, hb1le, hb1gap, hb1T⟩ := hI.2 h2le
      have hR : VM.mathsWalk bc ip args = .changed
          ((writeNop3 (writeNop3 bc (args.getD (args.length - 1) (0, 0)).1)
            (args.getD (args.length - 2) (0, 0)).1).set ip
            (if (args.getD (args.length - 1) (0, 0)).2 =
              (args.getD (args.length - 2) (0, 0)).2 then opTrue
              else opFalse)) := by
        conv_lhs => rw [VM.mathsWalk]
        simp only [dif_pos h, if_neg hnp, if_neg hnn, if_pos hor,
          if_pos h2le, if_pos heq]
      rw [hR] at hw
      simp only [VM.MathsRes.changed.injEq] at hw
      subst hw
      by_cases hv : (args.getD (args.length - 1) (0, 0)).2 =
          (args.getD (args.length - 2) (0, 0)).2
      · rw [if_pos hv]
        refine fold_preserve_cmp bc _ _ _ _ ip opTrue
          hb1p hb1r ha1p ha1r hb1le ha1le h hb1gap ha1gap hb1T
          SInstr.eq hnp (by rw [heq]; decide)
          SInstr.tru (by decide) (by decide) true ?_ ?_
        · intro s
          simp only [execSeg]
          rw [show Object.integer ((args.getD (args.length - 1) (0, 0)).2 : Int) =
            Object.integer ((args.getD (args.length - 2) (0, 0)).2 : Int) from by rw [hv]]
          simp
        · intro s
          simp [execSeg]
      · rw [if_neg hv]
        refine fold_preserve_cmp bc _ _ _ _ ip opFalse
          hb1p hb1r ha1p ha1r hb1le ha1le h hb1gap ha1gap hb1T
          SInstr.eq hnp (by rw [heq]; decide)
          SInstr.fls (by decide) (by decide) false ?_ ?_
        · intro s
          simp only [execSeg]
          rw [decide_eq_false (fun hcon => hv
            (Nat.cast_inj.mp (Object.integer.inj hcon)))]
        · intro s
          simp [execSeg]
  | case4 ip args h hnp hnn hor h2le hne =>
      intro hd ht hI bc2 hw
      obtain ⟨ha1p, ha1r, ha1le, ha1gap, ha1T⟩ := hI.1 (by omega)
      obtain ⟨hb1p, hb1r, hb1le, hb1gap, hb1T⟩ := hI.2 h2le
      have hne2 : bc.getD ip 0 = opNotEqual := hor.resolve_left hne
      have hR : VM.mathsWalk bc ip args = .changed
          ((writeNop3 (writeNop3 bc (args.getD (args.length - 1) (0, 0)).1)
            (args.getD (args.length - 2) (0, 0)).1).set ip
            (if (args.getD (args.length - 1) (0, 0)).2 ≠
              (args.getD (args.length - 2) (0, 0)).2 then opTrue
              else opFalse)) := by
        conv_lhs => rw [VM.mathsWalk]
        simp only [dif_pos h, if_neg hnp, if_neg hnn, if_pos hor,
          if_pos h2le, if_neg hne]
      rw [hR] at hw
      simp only [VM.MathsRes.changed.injEq] at hw
      subst hw
      by_cases hv : (args.getD (args.length - 1) (0, 0)).2 =
          (args.getD (args.length - 2) (0, 0)).2
      · rw [if_neg (show ¬((args.getD (args.length - 1) (0, 0)).2 ≠ (args.getD (args.length - 2) (0, 0)).2) from fun hcon => hcon hv)]
        refine fold_preserve_cmp bc _ _ _ _ ip opFalse
          hb1p hb1r ha1p ha1r hb1le ha1le h hb1gap ha1gap hb1T
          SInstr.ne hnp (by rw [hne2]; decide)
          SInstr.fls (by decide) (by decide) false ?_ ?_
        · intro s
          simp only [execSeg]
          rw [decide_eq_false (fun hcon => hcon
            (show Object.integer ((args.getD (args.length - 1) (0, 0)).2 : Int) =
              Object.integer ((args.getD (args.length - 2) (0, 0)).2 : Int) from by rw [hv]))]
        · intro s
          simp [execSeg]
      · rw [if_pos hv]
        refine fold_preserve_cmp bc _ _ _ _ ip opTrue
          hb1p hb1r ha1p ha1r hb1le ha1le h hb1gap ha1gap hb1T
          SInstr.ne hnp (by rw [hne2]; decide)
          SInstr.tru (by decide) (by decide) true ?_ ?_
        · intro s
          simp only [execSeg]
          rw [decide_eq_true (show Object.integer ((args.getD (args.length - 1) (0, 0)).2 : Int) ≠
            Object.integer ((args.getD (args.length - 2) (0, 0)).2 : Int) from fun hcon => hv
              (Nat.cast_inj.mp (Object.integer.inj hcon)))]
        · intro s
          simp [execSeg]
  | case5 ip args h hnp hnn hor hn2 ih =>
      intro hd ht hI bc2 hw
      have hR : VM.mathsWalk bc ip args =
          VM.mathsWalk bc (ip + Length (bc.getD ip 0)) [] := by
        conv_lhs => rw [VM.mathsWalk]
        simp only [dif_pos h, if_neg hnp, if_neg hnn, if_pos hor, if_neg hn2]
      rw [hR] at hw
      refine ih (decode_step bc ip h hd).2 (take_step bc ip h hd ht)
        ⟨?_, ?_⟩ bc2 hw
      · intro h1
        simp at h1
      · intro h2
        simp at h2
  | case6 ip args h hnp hnn hnor har h2le a hdz =>
      intro hd ht hI bc2 hw
      have hR : VM.mathsWalk bc ip args = .divZero := by
        conv_lhs => rw [VM.mathsWalk]
        simp only [dif_pos h, if_neg hnp, if_neg hnn, if_neg hnor,
          if_pos har, if_pos h2le, if_pos hdz]
      rw [hR] at hw
      simp at hw
  | case7 ip args h hnp hnn hnor har h2le a b hndz result hran =>
      intro hd ht hI bc2 hw
      obtain ⟨ha1p, ha1r, ha1le, ha1gap, ha1T⟩ := hI.1 (by omega)
      obtain ⟨hb1p, hb1r, hb1le, hb1gap, hb1T⟩ := hI.2 h2le
      have hb0 : 0 ≤ foldVal bc ip args ∧ foldVal bc ip args ≤ 65534 := hran
      have hcast : ((foldVal bc ip args).toNat : Int) = foldVal bc ip args :=
        Int.toNat_of_nonneg hb0.1
      have hv65 : (foldVal bc ip args).toNat < 65536 := by omega
      have hR : VM.mathsWalk bc ip args = .changed
          ((writeNop3 ((bc.set ((args.getD (args.length - 1) (0, 0)).1 + 1)
              ((foldVal bc ip args).toNat / 256 % 256)).set
              ((args.getD (args.length - 1) (0, 0)).1 + 2)
              ((foldVal bc ip args).toNat % 256))
            (args.getD (args.length - 2) (0, 0)).1).set ip opNop) := by
        conv_lhs => rw [VM.mathsWalk]
        simp only [dif_pos h, if_neg hnp, if_neg hnn, if_neg hnor,
          if_pos har, if_pos h2le, if_neg hndz]
        rw [foldVal_eq]
        rw [if_pos (show (0 ≤ foldVal bc ip args ∧
          foldVal bc ip args ≤ 65534) from hran)]
      rw [hR] at hw
      simp only [VM.MathsRes.changed.injEq] at hw
      subst hw
      rcases har with hA | hA | hA | hA
      · have hfv : foldVal bc ip args =
            ((args.getD (args.length - 1) (0, 0)).2 : Int) *
              ((args.getD (args.length - 2) (0, 0)).2 : Int) := by
          unfold foldVal
          rw [if_pos hA]
        refine fold_preserve_arith bc _ _ _ _ ip
          ((foldVal bc ip args).toNat)
          hb1p hb1r ha1p ha1r hb1le ha1le h hb1gap ha1gap hb1T
          SInstr.mul hnp (by rw [hA]; decide) ?_ hv65
        intro s
        simp only [execSeg]
        rw [show ((foldVal bc ip args).toNat : Int) =
          ((args.getD (args.length - 2) (0, 0)).2 : Int) *
            ((args.getD (args.length - 1) (0, 0)).2 : Int) from by
          rw [hcast, hfv]; ring]
      · have hfv : foldVal bc ip args =
            ((args.getD (args.length - 1) (0, 0)).2 : Int) +
              ((args.getD (args.length - 2) (0, 0)).2 : Int) := by
          unfold foldVal
          rw [if_neg (by rw [hA]; decide), if_pos hA]
        refine fold_preserve_arith bc _ _ _ _ ip
          ((foldVal bc ip args).toNat)
          hb1p hb1r ha1p ha1r hb1le ha1le h hb1gap ha1gap hb1T
          SInstr.add hnp (by rw [hA]; decide) ?_ hv65
        intro s
        simp only [execSeg]
        rw [show ((foldVal bc ip args).toNat : Int) =
          ((args.getD (args.length - 2) (0, 0)).2 : Int) +
            ((args.getD (args.length - 1) (0, 0)).2 : Int) from by
          rw [hcast, hfv]; ring]
      · have hfv : foldVal bc ip args =
            ((args.getD (args.length - 2) (0, 0)).2 : Int) -
              ((args.getD (args.length - 1) (0, 0)).2 : Int) := by
          unfold foldVal
          rw [if_neg (by rw [hA]; decide), if_neg (by rw [hA]; decide),
            if_pos hA]
        refine fold_preserve_arith bc _ _ _ _ ip
          ((foldVal bc ip args).toNat)
          hb1p hb1r ha1p ha1r hb1le ha1le h hb1gap ha1gap hb1T
          SInstr.sub hnp (by rw [hA]; decide) ?_ hv65
        intro s
        simp only [execSeg]
        rw [show ((foldVal bc ip args).toNat : Int) =
          ((args.getD (args.length - 2) (0, 0)).2 : Int) -
            ((args.getD (args.length - 1) (0, 0)).2 : Int) from by
          rw [hcast, hfv]]
      · have ha2ne : (args.getD (args.length - 1) (0, 0)).2 ≠ 0 :=
          fun hz => hndz ⟨hA, hz⟩
        have hfv : foldVal bc ip args =
            Int.tdiv ((args.getD (args.length - 2) (0, 0)).2 : Int)
              ((args.getD (args.length - 1) (0, 0)).2 : Int) := by
          unfold foldVal
          rw [if_neg (by rw [hA]; decide), if_neg (by rw [hA]; decide),
            if_neg (by rw [hA]; decide)]
        refine fold_preserve_arith bc _ _ _ _ ip
          ((foldVal bc ip args).toNat)
          hb1p hb1r ha1p ha1r hb1le ha1le h hb1gap ha1gap hb1T
          SInstr.div hnp (by rw [hA]; decide) ?_ hv65
        intro s
        simp only [execSeg]
        rw [if_neg (show ¬((args.getD (args.length - 1) (0, 0)).2 : Int) = 0
          from by simpa using ha2ne)]
        rw [show ((foldVal bc ip args).toNat : Int) =
          Int.tdiv ((args.getD (args.length - 2) (0, 0)).2 : Int)
            ((args.getD (args.length - 1) (0, 0)).2 : Int) from by
          rw [hcast, hfv]]
  | case8 ip args h hnp hnn hnor har h2le a b hndz result hran ih =>
      intro hd ht hI bc2 hw
      have hR : VM.mathsWalk bc ip args =
          VM.mathsWalk bc (ip + Length (bc.getD ip 0)) [] := by
        conv_lhs => rw [VM.mathsWalk]
        simp only [dif_pos h, if_neg hnp, if_neg hnn, if_neg hnor,
          if_pos har, if_pos h2le, if_neg hndz]
        rw [foldVal_eq]
        rw [if_neg (show ¬(0 ≤ foldVal bc ip args ∧
          foldVal bc ip args ≤ 65534) from hran)]
      rw [hR] at hw
      refine ih (decode_step bc ip h hd).2 (take_step bc ip h hd ht)
        ⟨?_, ?_⟩ bc2 hw
      · intro h1
        simp at h1
      · intro h2
        simp at h2
  | case9 ip args h hnp hnn hnor har hn2 ih =>
      intro hd ht hI bc2 hw
      have hR : VM.mathsWalk bc ip args =
          VM.mathsWalk bc (ip + Length (bc.getD ip 0)) [] := by
        conv_lhs => rw [VM.mathsWalk]
        simp only [dif_pos h, if_neg hnp, if_neg hnn, if_neg hnor,
          if_pos har, if_neg hn2]
      rw [hR] at hw
      refine ih (decode_step bc ip h hd).2 (take_step bc ip h hd ht)
        ⟨?_, ?_⟩ bc2 hw
      · intro h1
        simp at h1
      · intro h2
        simp at h2
  | case10 ip args h hnp hnn hnor hnar ih =>
      intro hd ht hI bc2 hw
      have hR : VM.mathsWalk bc ip args =
          VM.mathsWalk bc (ip + Length (bc.getD ip 0)) [] := by
        conv_lhs => rw [VM.mathsWalk]
        simp only [dif_pos h, if_neg hnp, if_neg hnn, if_neg hnor,
          if_neg hnar]
      rw [hR] at hw
      refine ih (decode_step bc ip h hd).2 (take_step bc ip h hd ht)
        ⟨?_, ?_⟩ bc2 hw
      · intro h1
        simp at h1
      · intro h2
        simp at h2
  | case11 ip args h =>
      intro hd ht hI bc2 hw
      rw [VM.mathsWalk] at hw
      simp [h] at hw

/-- `VM.optimizeMaths` preserves the behaviour of fragment programs. -/
theorem optimizeMathsV_preserve (bc : List Nat) (hB : Bytes bc)
    (hd : (decodeSL bc).isSome) :
    runSL (VM.optimizeMaths bc).1 = runSL bc := by
  unfold VM.optimizeMaths
  cases hm : VM.mathsWalk bc 0 [] with
  | finished => rfl
  | divZero => rfl
  | changed bc2 =>
      simp only
      exact mathsWalk_preserve bc hB 0 []
        (by rw [List.drop_zero]; exact hd)
        (by simp [decodeSL])
        ⟨by intro h1; simp at h1, by intro h2; simp at h2⟩ bc2 hm

/-- C1 (amended): on the modelled jump-free straight-line fragment each of
the four `vm`-package optimizer passes preserves the observable behaviour
(`runSL`, decode-and-execute on an empty stack): constant folding rewrites
the program to one with identical behaviour, jump simplification leaves a
jump-free program untouched, NOP elision rebuilds an equivalent nop-free
program and dead-code truncation cuts only behind the first (unjumped)
return; a division by zero detected by the folder does *not* become a
compile-time error — the walk stops and the bytecode is installed
unchanged. -/
theorem claim_C1_amended (bc : List Nat) (hB : Bytes bc)
    (hd : (decodeSL bc).isSome) :
    runSL ((VM.optimizeMaths bc).1) = runSL bc ∧
    (VM.mathsWalk bc 0 [] = .divZero → (VM.optimizeMaths bc).1 = bc) ∧
    (VM.optimizeJumps bc).1 = bc ∧
    runSL (VM.removeNOPs bc) = runSL bc ∧
    runSL (VM.removeDeadCode bc) = runSL bc := by
  refine ⟨optimizeMathsV_preserve bc hB hd, ?_, ?_,
    removeNOPsV_preserve bc hB hd, removeDeadCodeV_preserve bc hB hd⟩
  · intro hdz
    unfold VM.optimizeMaths
    rw [hdz]
  · unfold VM.optimizeJumps
    rw [jumpsWalk_none bc 0 opNop (by rw [List.drop_zero]; exact hd)]

/-- Witness for C1 amended: the fragment program `push 2; push 3; add;
return` — which the folder rewrites — keeps its behaviour across the maths
pass, and the jump pass leaves it untouched. -/
theorem claim_C1_amended_witness :
    runSL ((VM.optimizeMaths
        [opPush, 0, 2, opPush, 0, 3, opAdd, opReturn]).1) =
      runSL [opPush, 0, 2, opPush, 0, 3, opAdd, opReturn] ∧
    (VM.optimizeJumps [opPush, 0, 2, opPush, 0, 3, opAdd, opReturn]).1 =
      [opPush, 0, 2, opPush, 0, 3, opAdd, opReturn] := by
  have h := claim_C1_amended [opPush, 0, 2, opPush, 0, 3, opAdd, opReturn]
    (by simp [Bytes, opPush, opAdd, opReturn]) (by decide)
  exact ⟨h.1, h.2.2.1⟩

end Evalfilter
